import Mathlib

/-!
# image8bit: a verification development

A shallow embedding of `src/image8bit.c` (8-bit graymap images) and theorems
about its operations.

Conventions of the embedding

* C `int` values are `Int`.  Signed overflow is undefined behaviour in C and is
  not modelled: index arithmetic is exact.
* A `uint8` is a `Nat` below 256; every store of an integer into the pixel
  array goes through `toUint8`, the conversion C applies on assignment, and
  every store of a `double` through `doubleToUint8` or `meanToUint8`.
* The pixel array is a `List Nat`.  Every read and write is bounds-checked: an
  access outside the array (undefined behaviour in C) and a failed `assert`
  both make the operation return `none`.
* A C `for (int i = 0; i < n; ++i)` loop is `forRange`, which runs the body for
  `i = 0, 1, ..., n-1` in this order and stops at the first failure.
* Memory allocation is assumed to succeed (and `malloc(0)` to return a non-null
  pointer); the bytes of a freshly allocated pixel array are arbitrary and are
  a parameter (`garbage`) of every operation that allocates.  The size passed
  to `malloc` for the structure itself is a matter of memory layout and is not
  modelled: an image is the record of its three fields and its pixel array.
* Two images passed to one operation are distinct objects (no aliasing).
* A function that can `return` inside a loop carries the value returned in its
  loop state (see the section on early `return`).
* A `double` is an IEEE 754 binary64 number and every operation on doubles
  rounds to nearest, ties to even (see the section on `double`).
* The instrumentation counter `PIXMEM`, `errno` and the error message
  `errCause` are not part of the state.
-/

namespace Image8bit

/-! ## Data model -/

/-- The constant `PixMax`: maximum value you can store in a pixel. -/
def PixMax : Int := 255

/-- The `struct image`: dimensions, maximum gray value and the raster scan. -/
structure Image where
  width : Int
  height : Int
  maxval : Int
  pixel : List Nat
deriving DecidableEq, Repr

/-- Conversion of a C integer to `uint8` (reduction modulo 256). -/
def toUint8 (v : Int) : Nat := (v % 256).toNat

/-- Read `a[i]`; `none` when the index is outside the array. -/
def rd (a : List Nat) (i : Int) : Option Nat :=
  if 0 ≤ i then a[i.toNat]? else none

/-- Write `a[i] = v`; `none` when the index is outside the array. -/
def wr (a : List Nat) (i : Int) (v : Nat) : Option (List Nat) :=
  if 0 ≤ i ∧ i.toNat < a.length then some (a.set i.toNat v) else none

/-- The loop `for (int i = 0; i < n; ++i) body(i)` over a state `σ`. -/
def forRange {σ : Type} : Nat → (Int → σ → Option σ) → σ → Option σ
  | 0, _, s => some s
  | k + 1, body, s => (forRange k body s).bind (body (k : Int))

/-- The data invariant of an image built through the module: non-negative
dimensions, `0 < maxval <= PixMax`, a pixel array of `width*height` bytes. -/
def Image.wf (img : Image) : Prop :=
  0 ≤ img.width ∧ 0 ≤ img.height ∧ 0 < img.maxval ∧ img.maxval ≤ PixMax ∧
  (img.pixel.length : Int) = img.width * img.height ∧ ∀ p ∈ img.pixel, p < 256

instance (img : Image) : Decidable img.wf :=
  inferInstanceAs (Decidable (0 ≤ img.width ∧ 0 ≤ img.height ∧ 0 < img.maxval ∧
    img.maxval ≤ PixMax ∧ (img.pixel.length : Int) = img.width * img.height ∧
    ∀ p ∈ img.pixel, p < 256))

/-- The pixel stored for position `(x,y)` in the raster scan documented with
the data structure: left to right, top to bottom, `pixel[y*width + x]`. -/
def Image.pix (img : Image) (x y : Int) : Option Nat :=
  rd img.pixel (y * img.width + x)

/-! ## Image management -/

/-- `ImageCreate(width, height, maxval)`: asserts the arguments, allocates the
structure and a pixel array of `width*height` bytes (not initialised: its
contents are `garbage`), and sets the three fields. -/
def ImageCreate (width height maxval : Int) (garbage : Nat → Nat) : Option Image :=
  if 0 ≤ width ∧ 0 ≤ height ∧ (0 < maxval ∧ maxval ≤ PixMax) then
    some { width := width, height := height, maxval := maxval,
           pixel := (List.range (width * height).toNat).map (fun i => garbage i % 256) }
  else none

/-! ## PGM file operations

A file is the list of its bytes, and an open stream is the list of the bytes
not yet read.  The C stream functions are modelled after the C standard:
`fscanf` directives consume input as far as they match, and a failed
conversion leaves the rest of the stream in place.  Opening a file is assumed
to succeed. -/

/-- The C `isspace` in the "C" locale: space, and `\t \n \v \f \r`. -/
def isspace (c : Nat) : Bool := c == 32 || (decide (9 ≤ c) && decide (c ≤ 13))

/-- The C `isdigit`: the characters `0` to `9`. -/
def isdigit (c : Nat) : Bool := decide (48 ≤ c) && decide (c ≤ 57)

/-- A white-space directive of `fscanf`: skips all leading white space. -/
def skipSpace (s : List Nat) : List Nat := s.dropWhile isspace

/-- The digits read by a `%d` conversion, accumulated in base 10. -/
def scanDigits : List Nat → Nat → Nat × List Nat
  | [], acc => (acc, [])
  | c :: s, acc => if isdigit c then scanDigits s (10 * acc + (c - 48)) else (acc, c :: s)

/-- A non-empty run of decimal digits. -/
def scanUnsigned (s : List Nat) : Option (Nat × List Nat) :=
  match s with
  | [] => none
  | c :: _ => if isdigit c then some (scanDigits s 0) else none

/-- The conversion `%d` of `fscanf`: skips white space, reads an optional sign
and a non-empty run of digits; `none` is a matching or input failure. -/
def scanInt (s : List Nat) : Option (Int × List Nat) :=
  let t := skipSpace s
  if t.head? = some 45 then (scanUnsigned t.tail).map (fun r => (-(r.1 : Int), r.2))
  else if t.head? = some 43 then (scanUnsigned t.tail).map (fun r => ((r.1 : Int), r.2))
  else (scanUnsigned t).map (fun r => ((r.1 : Int), r.2))

/-- The call `fscanf(f, "%d ", &v) == 1`: a `%d` followed by a white-space
directive. -/
def scanIntSp (s : List Nat) : Option (Int × List Nat) :=
  (scanInt s).map (fun r => (r.1, skipSpace r.2))

/-- The call `fscanf(f, "%c", &c) == 1`: reads one byte. -/
def scanChar (s : List Nat) : Option (Nat × List Nat) :=
  match s with
  | [] => none
  | c :: t => some (c, t)

/-- The call `fscanf(f, "P%c ", &c) == 1`: the literal `P`, one byte, then a
white-space directive. -/
def scanMagic (s : List Nat) : Option (Nat × List Nat) :=
  match s with
  | [] => none
  | p :: t => if p = 80 then (scanChar t).map (fun r => (r.1, skipSpace r.2)) else none

/-- One evaluation of the loop condition of `skipComments`,
`fscanf(f, "#%*[^\n]%c", &c) == 1 && c == '\n'`: its truth value and the stream
afterwards.  The literal `#` must match, `%*[^\n]` must match at least one byte
other than a newline, and `%c` reads the byte after them. -/
def scanComment (s : List Nat) : Bool × List Nat :=
  match s with
  | [] => (false, [])
  | c :: t =>
    if c = 35 then
      if (t.takeWhile (fun b => b != 10)).isEmpty then (false, t)
      else
        match t.dropWhile (fun b => b != 10) with
        | [] => (false, [])
        | d :: r => (d == 10, r)
    else (false, c :: t)

/-- `skipComments(f)`: the number of comment lines skipped and the stream
afterwards.  Every iteration that continues consumes input, so a fuel of the
length of the stream is never exhausted. -/
def skipComments : Nat → List Nat → Nat × List Nat
  | 0, s => (0, s)
  | fuel + 1, s =>
    match scanComment s with
    | (true, r) => ((skipComments fuel r).1 + 1, (skipComments fuel r).2)
    | (false, r) => (0, r)

/-- `ImageLoad(filename)` on a file of contents `file`: parses the header,
creates the image and reads `w*h` bytes into its pixel array.  The result
`none` stands for every outcome other than the return of a loaded image. -/
def ImageLoad (file : List Nat) (garbage : Nat → Nat) : Option Image :=
  (scanMagic file).bind fun r0 =>
  if r0.1 = 53 then
    (scanIntSp (skipComments r0.2.length r0.2).2).bind fun rw =>
    if rw.1 ≥ 0 then
      (scanIntSp (skipComments rw.2.length rw.2).2).bind fun rh =>
      if rh.1 ≥ 0 then
        (scanInt (skipComments rh.2.length rh.2).2).bind fun rm =>
        if 0 < rm.1 ∧ rm.1 ≤ PixMax then
          (scanChar rm.2).bind fun rc =>
          if isspace rc.1 then
            (ImageCreate rw.1 rh.1 (toUint8 rm.1) garbage).bind fun img =>
            let got := rc.2.take (rw.1 * rh.1).toNat
            if got.length = (rw.1 * rh.1).toNat then
              some { img with pixel := got ++ img.pixel.drop got.length }
            else none
          else none
        else none
      else none
    else none
  else none

/-- The decimal digits of `n`, most significant first, as character codes. -/
def decDigits : Nat → Nat → List Nat
  | 0, _ => []
  | fuel + 1, n => if n < 10 then [48 + n] else decDigits fuel (n / 10) ++ [48 + n % 10]

/-- The conversion `%u` of `fprintf`. -/
def printNat (n : Nat) : List Nat := decDigits (n + 1) n

/-- The conversion `%d` of `fprintf`. -/
def printInt (v : Int) : List Nat :=
  if v < 0 then 45 :: printNat (-v).toNat else printNat v.toNat

/-- `ImageSave(img, filename)`: the contents of the file written, the header
`"P5\n%d %d\n%u\n"` followed by the first `w*h` bytes of the pixel array. -/
def ImageSave (img : Image) : Option (List Nat) :=
  let w := img.width
  let h := img.height
  let maxval := toUint8 img.maxval
  if 0 ≤ w * h ∧ (w * h).toNat ≤ img.pixel.length then
    some ([80, 53, 10] ++ printInt w ++ [32] ++ printInt h ++ [10] ++ printNat maxval ++ [10]
      ++ img.pixel.take (w * h).toNat)
  else none

/-! ## Information queries -/

/-- `ImageValidPos(img, x, y)`. -/
def ImageValidPos (img : Image) (x y : Int) : Bool :=
  (decide (0 ≤ x) && decide (x < img.width)) && (decide (0 ≤ y) && decide (y < img.height))

/-- `ImageValidRect(img, x, y, w, h)`. -/
def ImageValidRect (img : Image) (x y w h : Int) : Bool :=
  decide (x ≥ 0) && decide (y ≥ 0) && decide (x + w ≤ img.width) && decide (y + h ≤ img.height)

/-- `ImageStats(img, min, max)`: the contents of `(*min, *max)` on return.
They start at `(255, 0)`, and every pixel below `*min` replaces it, every
pixel above `*max` replaces it. -/
def ImageStats (img : Image) : Option (Nat × Nat) :=
  forRange (img.width * img.height).toNat
    (fun i (s : Nat × Nat) => (rd img.pixel i).map (fun pixelGV =>
      ((if pixelGV < s.1 then pixelGV else s.1), (if pixelGV > s.2 then pixelGV else s.2))))
    (255, 0)

/-! ## Pixel get and set -/

/-- The index function `G(img, x, y)`, with its two assertions. -/
def G (img : Image) (x y : Int) : Option Int :=
  if x ≥ 0 ∧ x < img.width ∧ y ≥ 0 ∧ y < img.height then
    let index := ((y - 1) * img.width) + x
    if 0 ≤ index ∧ index < img.width * img.height then some index else none
  else none

/-- `ImageGetPixel(img, x, y)`. -/
def ImageGetPixel (img : Image) (x y : Int) : Option Nat :=
  if ImageValidPos img x y then (G img x y).bind (fun i => rd img.pixel i) else none

/-- `ImageSetPixel(img, x, y, level)`. -/
def ImageSetPixel (img : Image) (x y : Int) (level : Nat) : Option Image :=
  if ImageValidPos img x y then
    (G img x y).bind (fun i => (wr img.pixel i level).map (fun px => { img with pixel := px }))
  else none

/-! ## Pixel transformations (in place) -/

/-- `ImageNegative(img)`: for every index, `pixel[i] = 255 - pixel[i]`. -/
def ImageNegative (img : Image) : Option Image :=
  forRange (img.width * img.height).toNat
    (fun i s => (rd s.pixel i).bind (fun p =>
      (wr s.pixel i (toUint8 (255 - (p : Int)))).map (fun px => { s with pixel := px })))
    img

/-- `ImageThreshold(img, thr)`: pixels below `thr` become 0, the others
`maxval` (converted to `uint8` by the assignment). -/
def ImageThreshold (img : Image) (thr : Nat) : Option Image :=
  forRange (img.width * img.height).toNat
    (fun i s => (rd s.pixel i).bind (fun p =>
      if p < thr then
        (wr s.pixel i 0).map (fun px => { s with pixel := px })
      else
        (wr s.pixel i (toUint8 s.maxval)).map (fun px => { s with pixel := px })))
    img

/-! ## Geometric transformations

The state of the copying loops is the pair (source image, new image): the body
reads the first component and writes the second.  Each operation returns this
pair, so that the result says what became of the source as well. -/

/-- The statement `dst->pixel[di] = src->pixel[si]` on a (source, destination)
pair. -/
def copyPixel (s : Image × Image) (si di : Int) : Option (Image × Image) :=
  (rd s.1.pixel si).bind (fun v =>
    (wr s.2.pixel di v).map (fun px => (s.1, { s.2 with pixel := px })))

/-- `ImageRotate(img)`: rotation by 90 degrees anti-clockwise into a new image
created with `ImageCreate(img->height, img->width, 255)`. -/
def ImageRotate (img : Image) (garbage : Nat → Nat) : Option (Image × Image) :=
  (ImageCreate img.height img.width 255 garbage).bind (fun rotated =>
    forRange img.height.toNat
      (fun y s => forRange s.1.width.toNat
        (fun x s =>
          let xNew := y
          let yNew := s.1.width - 1 - x
          let imgIndex := y * s.1.width + x
          let rotatedIndex := yNew * s.2.width + xNew
          copyPixel s imgIndex rotatedIndex)
        s)
      (img, rotated))

/-- `ImageMirror(img)`: left-right flip into a new image created with
`ImageCreate(img->width, img->height, 255)`. -/
def ImageMirror (img : Image) (garbage : Nat → Nat) : Option (Image × Image) :=
  (ImageCreate img.width img.height 255 garbage).bind (fun mirrored =>
    forRange img.height.toNat
      (fun y s => forRange s.1.width.toNat
        (fun x s =>
          let imgIndex := y * s.1.width + x
          let mirroredIndex := y * s.2.width + (s.1.width - 1 - x)
          copyPixel s imgIndex mirroredIndex)
        s)
      (img, mirrored))

/-- `ImageCrop(img, x, y, w, h)`: asserts `ImageValidRect`, then copies the
rectangle into a new image created with `ImageCreate(w, h, 255)`. -/
def ImageCrop (img : Image) (x y w h : Int) (garbage : Nat → Nat) : Option (Image × Image) :=
  if ImageValidRect img x y w h then
    (ImageCreate w h 255 garbage).bind (fun cropped =>
      forRange h.toNat
        (fun i s => forRange w.toNat
          (fun j s =>
            let imgIndex := (y + i) * s.1.width + (x + j)
            let croppedIndex := i * w + j
            copyPixel s imgIndex croppedIndex)
          s)
        (img, cropped))
  else none

/-! ## Operations on two images -/

/-- `ImagePaste(img1, x, y, img2)`: asserts `ImageValidRect`, then copies every
pixel of `img2` into `img1`.  The state is the pair `(img2, img1)` (source,
destination); the result is that pair after the call. -/
def ImagePaste (img1 : Image) (x y : Int) (img2 : Image) : Option (Image × Image) :=
  if ImageValidRect img1 x y img2.width img2.height then
    forRange img2.height.toNat
      (fun i s => forRange s.1.width.toNat
        (fun j s =>
          let img1Index := (y + i) * s.2.width + (x + j)
          let img2Index := i * s.1.width + j
          copyPixel s img2Index img1Index)
        s)
      (img2, img1)
  else none

/-! ## Functions with an early `return`

A loop body that can execute `return v` is modelled on a state with a slot of
type `Option` for the value returned: `none` while the function is still
running.  Once the slot is filled, the remaining iterations do nothing. -/

/-- `ImageMatchSubImage(img1, x, y, img2)`: asserts `ImageValidPos`, compares
pixel by pixel and returns 0 at the first difference, 1 when there is none.
The loop state is the value returned so far. -/
def ImageMatchSubImage (img1 : Image) (x y : Int) (img2 : Image) : Option Int :=
  if ImageValidPos img1 x y then
    (forRange img2.height.toNat
      (fun i (r : Option Int) => forRange img2.width.toNat
        (fun j r =>
          match r with
          | some v => some (some v)
          | none =>
            let img1Index := (y + i) * img1.width + (x + j)
            let img2Index := i * img2.width + j
            (rd img1.pixel img1Index).bind (fun a =>
              (rd img2.pixel img2Index).bind (fun b =>
                if a ≠ b then some (some 0) else some none)))
        r)
      none).map (fun r => r.getD 1)
  else none

/-- `ImageLocateSubImage(img1, px, py, img2)`.  The state is the value
returned so far and the contents of `*px` and `*py`; the result is that state
when control leaves the function.  The function has no `return` after its
loops: when they end without a match the first component is `none`, the
function has returned no value. -/
def ImageLocateSubImage (img1 : Image) (px py : Int) (img2 : Image) :
    Option (Option Int × Int × Int) :=
  forRange (img1.height - img2.height + 1).toNat
    (fun i s => forRange (img1.width - img2.width + 1).toNat
      (fun j s =>
        match s.1 with
        | some _ => some s
        | none =>
          (ImageMatchSubImage img1 j i img2).map (fun m =>
            if m ≠ 0 then (some 1, j, i) else s))
      s)
    (none, px, py)

/-! ## Arithmetic in `double`

`ImageBrighten` and `ImageBlend` take a `double` and compute with it and with
pixel values.  A `Double` is an IEEE 754 binary64 number: a finite number, an
infinity or a NaN.  Every finite binary64 number, subnormal or normal, is an
integer multiple of `2^-1074`, and `Double.finite n` is the number
`n * 2^-1074`; the binary64 numbers are those with `|n| < 2^2098` whose
significant bits fit in 53 bits.  An operation computes the exact result as a
fraction `M / 2^s` and rounds it (`Double.round`): to nearest, ties to even,
keeping 53 significant bits and no bit below `2^-1074` (gradual underflow), and
to an infinity when the rounded magnitude reaches `2^1024`.  This is the
arithmetic of C on a platform that evaluates each `double` operation in
binary64 (`FLT_EVAL_METHOD` 0, no contraction of `a * b + c`) in the default
rounding mode.  The sign of a zero is not modelled: the two functions never
divide, so it cannot be observed. -/

/-- A C `double`: the finite number `n * 2^-1074`, an infinity or a NaN. -/
inductive Double where
  | finite (n : Int)
  | inf (neg : Bool)
  | nan
deriving DecidableEq, Repr

/-- The number of bits of `n` (0 for 0), counted 64 bits at a time while `n`
has more than 64 bits; the first argument bounds the number of steps. -/
def bitLenAux : Nat → Nat → Nat
  | 0, _ => 0
  | fuel + 1, n =>
    if n = 0 then 0
    else if n < 2 ^ 64 then bitLenAux fuel (n / 2) + 1
    else bitLenAux fuel (n / 2 ^ 64) + 64

/-- The number of significant bits of `M`. -/
def bitLen (M : Nat) : Nat := bitLenAux M M

/-- The integer nearest to `M / 2^k`, the even one of the two on a
tie. -/
def roundShift (M k : Nat) : Nat :=
  if 2 * (M % 2 ^ k) > 2 ^ k ∨ (2 * (M % 2 ^ k) = 2 ^ k ∧ (M / 2 ^ k) % 2 = 1) then
    M / 2 ^ k + 1
  else M / 2 ^ k

/-- The number of low bits of `M` that the binary64 format cannot keep when the
value is `M / 2^s`: those beyond 53 significant bits and those below
`2^-1074`. -/
def dropBits (M s : Nat) : Int := max ((bitLen M : Int) - 53) ((s : Int) - 1074)

/-- The non-negative value `M / 2^s` rounded to the format, as a multiple of
`2^-1074`. -/
def roundNat (M s : Nat) : Nat :=
  if dropBits M s ≤ 0 then M * 2 ^ (1074 - s)
  else roundShift M (dropBits M s).toNat * 2 ^ ((dropBits M s).toNat + 1074 - s)

/-- The number 1 as a multiple of `2^-1074`. -/
def Double.scale : Nat := 2 ^ 1074

/-- The first magnitude that overflows, `2^1024`, as a multiple of
`2^-1074`. -/
def Double.huge : Nat := 2 ^ 2098

/-- The `double` nearest to the exact value `M / 2^s`. -/
def Double.round (M : Int) (s : Nat) : Double :=
  if roundNat M.natAbs s ≥ Double.huge then .inf (decide (M < 0))
  else if M < 0 then .finite (-(roundNat M.natAbs s : Int))
  else .finite (roundNat M.natAbs s : Int)

/-- The product `a * b` of two doubles. -/
def Double.mul : Double → Double → Double
  | .finite a, .finite b => Double.round (a * b) 2148
  | .finite a, .inf neg => if a = 0 then .nan else .inf (xor (decide (a < 0)) neg)
  | .inf neg, .finite b => if b = 0 then .nan else .inf (xor neg (decide (b < 0)))
  | .inf n1, .inf n2 => .inf (xor n1 n2)
  | _, _ => .nan

/-- The sum `a + b` of two doubles. -/
def Double.add : Double → Double → Double
  | .finite a, .finite b => Double.round (a + b) 1074
  | .finite _, .inf n => .inf n
  | .inf n, .finite _ => .inf n
  | .inf n1, .inf n2 => if n1 = n2 then .inf n1 else .nan
  | _, _ => .nan

/-- The opposite `-a` of a double. -/
def Double.neg : Double → Double
  | .finite a => .finite (-a)
  | .inf n => .inf (!n)
  | .nan => .nan

/-- The difference `a - b` of two doubles. -/
def Double.sub (a b : Double) : Double := Double.add a (Double.neg b)

/-- The comparison `a <= b` of two doubles (false when one is a NaN); the C
comparison `b >= a` is the same. -/
def Double.le : Double → Double → Bool
  | .finite a, .finite b => decide (a ≤ b)
  | .finite _, .inf n => !n
  | .inf n, .finite _ => n
  | .inf n1, .inf n2 => n1 || !n2
  | _, _ => false

/-- Conversion of a C integer to `double`. -/
def Double.ofInt (v : Int) : Double := Double.round v 0

/-- The integral part of a double (truncation toward zero); an infinity and a
NaN have none. -/
def Double.trunc : Double → Option Int
  | .finite n => some (Int.tdiv n (Double.scale : Int))
  | _ => none

/-- The constant `0.0`. -/
def Double.zero : Double := .finite 0

/-- The constant `1.0`. -/
def Double.one : Double := .finite (Double.scale : Int)

/-- The number `m / 2^k` (for `k <= 1074`), which is a `double` when
`|m| < 2^53`: `Double.lit 3 2` is 0.75, and `Double.lit 5404319552844595 52`
is the `double` that the C constant `1.2` denotes. -/
def Double.lit (m : Int) (k : Nat) : Double := .finite (m * ((2 ^ (1074 - k) : Nat) : Int))

/-- The value of a finite `Double` as a rational number (0 for the others). -/
def Double.val : Double → ℚ
  | .finite n => (n : ℚ) / (Double.scale : ℚ)
  | _ => 0

/-- Whether a `Double` is a finite number. -/
def Double.isFinite : Double → Bool
  | .finite _ => true
  | _ => false

/-- Conversion to `uint8` of a floating-point value whose integral part
(truncation toward zero) is `t`: defined when `t` is representable. -/
def truncToUint8 (t : Int) : Option Nat :=
  if 0 ≤ t ∧ t ≤ 255 then some t.toNat else none

/-- Conversion of a `double` to `uint8`: the integral part, when the `double`
is finite and its integral part is representable; undefined otherwise. -/
def doubleToUint8 (v : Double) : Option Nat := (Double.trunc v).bind truncToUint8

/-- `ImageBrighten(img, factor)`: asserts `factor >= 0.0`; for every index,
if `pixel[i] * factor <= maxval` then `pixel[i] = pixel[i] * factor` (converted
to `uint8`), else `pixel[i] = maxval`.  The pixel and `maxval` are converted to
`double` for the product and the comparison. -/
def ImageBrighten (img : Image) (factor : Double) : Option Image :=
  if Double.le Double.zero factor then
    forRange (img.width * img.height).toNat
      (fun i s => (rd s.pixel i).bind (fun p =>
        if Double.le (Double.mul (Double.ofInt p) factor) (Double.ofInt s.maxval) then
          (doubleToUint8 (Double.mul (Double.ofInt p) factor)).bind (fun v =>
            (wr s.pixel i v).map (fun px => { s with pixel := px }))
        else
          (wr s.pixel i (toUint8 s.maxval)).map (fun px => { s with pixel := px })))
      img
  else none

/-- `ImageBlend(img1, x, y, img2, alpha)`: asserts `ImageValidRect`; for every
pixel of `img2`, converts `(1.0 - alpha) * img1->pixel[..] + alpha *
img2->pixel[..]` to `uint8`, replaces it by `img2->maxval` when it is at least
`img2->maxval`, and stores it in `img1`.  The state is the pair `(img2, img1)`
(source, destination). -/
def ImageBlend (img1 : Image) (x y : Int) (img2 : Image) (alpha : Double) :
    Option (Image × Image) :=
  if ImageValidRect img1 x y img2.width img2.height then
    forRange img2.height.toNat
      (fun i s => forRange s.1.width.toNat
        (fun j s =>
          let img1Index := (y + i) * s.2.width + (x + j)
          let img2Index := i * s.1.width + j
          (rd s.2.pixel img1Index).bind (fun d =>
            (rd s.1.pixel img2Index).bind (fun c =>
              (doubleToUint8 (Double.add
                  (Double.mul (Double.sub Double.one alpha) (Double.ofInt d))
                  (Double.mul alpha (Double.ofInt c)))).bind (fun blendedValue =>
                let blendedValue :=
                  if (blendedValue : Int) ≥ s.1.maxval then toUint8 s.1.maxval else blendedValue
                (wr s.2.pixel img1Index blendedValue).map (fun px =>
                  (s.1, { s.2 with pixel := px }))))))
        s)
      (img2, img1)
  else none

/-! ## Filtering -/

/-- The statement `blurredImg->pixel[index] = (uint8_t)(sum / count)`, where
`sum` is a `double` holding a sum of pixel values and `count` an `int`.  A
division by zero yields a NaN, whose conversion is undefined.  Otherwise the
integral part of the `double` quotient is the integer quotient: a quotient of
integers that is not an integer stays at least `1/count` below the next
integer, further than a `double` rounding can move it while `sum < 2^53`. -/
def meanToUint8 (sum count : Nat) : Option Nat :=
  if count = 0 then none else truncToUint8 (Int.tdiv (sum : Int) (count : Int))

/-- `ImageBlur(img, dx, dy)`: for every pixel, sums and counts the pixels of
the window `[x-dx, x+dx] x [y-dy, y+dy]` that are inside the image, stores
`(uint8_t)(sum / count)` in a temporary image created with
`ImageCreate(img->width, img->height, img->maxval)`, then copies the temporary
image back into `img`.  The state of the main loops is the pair
`(img, blurredImg)`. -/
def ImageBlur (img : Image) (dx dy : Int) (garbage : Nat → Nat) : Option Image :=
  (ImageCreate img.width img.height (toUint8 img.maxval) garbage).bind (fun blurredImg =>
    (forRange img.height.toNat
      (fun y s => forRange s.1.width.toNat
        (fun x s =>
          (forRange (2 * dy + 1).toNat
            (fun ki acc => forRange (2 * dx + 1).toNat
              (fun kj acc =>
                let i := -dy + ki
                let j := -dx + kj
                let nx := x + j
                let ny := y + i
                if nx ≥ 0 ∧ nx < s.1.width ∧ ny ≥ 0 ∧ ny < s.1.height then
                  let index := ny * s.1.width + nx
                  (rd s.1.pixel index).map (fun p => (acc.1 + p, acc.2 + 1))
                else some acc)
              acc)
            ((0 : Nat), (0 : Nat))).bind (fun acc =>
              let index := y * s.1.width + x
              (meanToUint8 acc.1 acc.2).bind (fun v =>
                (wr s.2.pixel index v).map (fun px => (s.1, { s.2 with pixel := px })))))
        s)
      (img, blurredImg)).bind (fun s =>
        (forRange (s.1.width * s.1.height).toNat
          (fun i t => (rd t.2.pixel i).bind (fun v =>
            (wr t.1.pixel i v).map (fun px => ({ t.1 with pixel := px }, t.2))))
          s).map (fun t => t.1)))

/-! ## The invariant of the copying double loops

`ImageRotate`, `ImageMirror`, `ImageCrop` and `ImagePaste` share one shape: two
nested loops whose body copies `src->pixel[sI i j]` to `dst->pixel[dI i j]`.
`CopyInv` is what holds of the (source, destination) pair once the iterations
in `Done` have run. -/

structure CopyInv (src dst : Image) (sI dI : Int → Int → Int)
    (Done : Int → Int → Prop) (s : Image × Image) : Prop where
  src_eq : s.1 = src
  width_eq : s.2.width = dst.width
  height_eq : s.2.height = dst.height
  maxval_eq : s.2.maxval = dst.maxval
  length_eq : s.2.pixel.length = dst.pixel.length
  copied : ∀ i j, Done i j → ∃ v, rd src.pixel (sI i j) = some v ∧ rd s.2.pixel (dI i j) = some v
  frame : ∀ k, (∀ i j, Done i j → k ≠ dI i j) → rd s.2.pixel k = rd dst.pixel k
  bytes : ∀ p ∈ s.2.pixel, p < 256

/-! ## The invariant of the search loops -/

/-- What holds of the state of `ImageLocateSubImage` once the anchors in
`Done` have been tried: either nothing has been returned, `*px` and `*py` hold
their initial values and no anchor of `Done` matches; or 1 has been returned
with `(*px, *py)` an anchor of the scanned range that matches and that no
anchor of the range preceding it in row-major order matches. -/
def LocateInv (img1 img2 : Image) (px0 py0 : Int) (Done : Int → Int → Prop)
    (s : Option Int × Int × Int) : Prop :=
  (s = (none, px0, py0) ∧ ∀ x y, Done x y → ImageMatchSubImage img1 x y img2 = some 0) ∨
  (∃ px py, s = (some 1, px, py) ∧ 0 ≤ px ∧ px ≤ img1.width - img2.width ∧
    0 ≤ py ∧ py ≤ img1.height - img2.height ∧
    ImageMatchSubImage img1 px py img2 = some 1 ∧
    ∀ x y : Int, 0 ≤ x → x ≤ img1.width - img2.width → 0 ≤ y →
      y ≤ img1.height - img2.height → (y < py ∨ (y = py ∧ x < px)) →
      ImageMatchSubImage img1 x y img2 = some 0)

/-! ## The invariant of the filling double loops

`ImageBlend` and `ImageBlur` run two nested loops whose body stores a computed
value `F i j` at `dst->pixel[dI i j]`.  `FillInv` is what holds of the (source,
destination) pair once the iterations in `Done` have run. -/

structure FillInv (src dst : Image) (dI : Int → Int → Int) (F : Int → Int → Nat)
    (Done : Int → Int → Prop) (s : Image × Image) : Prop where
  src_eq : s.1 = src
  width_eq : s.2.width = dst.width
  height_eq : s.2.height = dst.height
  maxval_eq : s.2.maxval = dst.maxval
  length_eq : s.2.pixel.length = dst.pixel.length
  filled : ∀ i j, Done i j → rd s.2.pixel (dI i j) = some (F i j)
  frame : ∀ k, (∀ i j, Done i j → k ≠ dI i j) → rd s.2.pixel k = rd dst.pixel k
  bytes : ∀ p ∈ s.2.pixel, p < 256

/-- The `double` that `ImageBlend` computes for a destination pixel `d` and a
source pixel `c`: the expression `(1.0 - alpha) * d + alpha * c`, each operation
rounded. -/
def blend (alpha : Double) (d c : Nat) : Double :=
  Double.add (Double.mul (Double.sub Double.one alpha) (Double.ofInt d))
    (Double.mul alpha (Double.ofInt c))

/-- The value that one iteration of `ImageBlend` stores when the conversion
to `uint8` is defined: the integral part of the blend, replaced by `maxval2`
(the maxval of `img2`) when it reaches it. -/
def blendValue (alpha : Double) (maxval2 : Int) (d c : Nat) : Nat :=
  match doubleToUint8 (blend alpha d c) with
  | some v => if (v : Int) ≥ maxval2 then toUint8 maxval2 else v
  | none => 0

/-- The value that one iteration of `ImageBrighten` stores in place of `p` when
the conversion to `uint8` is defined. -/
def brightenValue (maxval : Int) (factor : Double) (p : Nat) : Nat :=
  if Double.le (Double.mul (Double.ofInt p) factor) (Double.ofInt maxval) then
    (doubleToUint8 (Double.mul (Double.ofInt p) factor)).getD 0
  else toUint8 maxval

/-! ## The window of the mean filter, in the words of the specification -/

/-- The sum of the pixels of `img` at the positions `(x+j, y+i)` with
`-dx <= j <= dx` and `-dy <= i <= dy` that lie inside the image. -/
def windowSum (img : Image) (x y dx dy : Int) : Nat :=
  Finset.sum (Finset.Icc (-dy) dy) (fun i => Finset.sum (Finset.Icc (-dx) dx) (fun j =>
    if 0 ≤ x + j ∧ x + j < img.width ∧ 0 ≤ y + i ∧ y + i < img.height then
      (img.pix (x + j) (y + i)).getD 0
    else 0))

/-- The number of positions `(x+j, y+i)` with `-dx <= j <= dx` and
`-dy <= i <= dy` that lie inside the image. -/
def windowCount (img : Image) (x y dx dy : Int) : Nat :=
  Finset.sum (Finset.Icc (-dy) dy) (fun i => Finset.sum (Finset.Icc (-dx) dx) (fun j =>
    if 0 ≤ x + j ∧ x + j < img.width ∧ 0 ≤ y + i ∧ y + i < img.height then 1 else 0))

/-! ## Basic facts about the memory and loop primitives -/

theorem forRange_inv {σ : Type} (P : Nat → σ → Prop) (n : Nat)
    (body : Int → σ → Option σ) (s : σ) (h0 : P 0 s)
    (hstep : ∀ (k : Nat) (t : σ), k < n → P k t →
      ∃ t', body (k : Int) t = some t' ∧ P (k + 1) t') :
    ∃ t, forRange n body s = some t ∧ P n t := by
  induction n with
  | zero => exact ⟨s, rfl, h0⟩
  | succ m ih =>
    obtain ⟨t, ht, hP⟩ := ih (fun k t hk hp => hstep k t (Nat.lt_succ_of_lt hk) hp)
    obtain ⟨t', ht', hP'⟩ := hstep m t (Nat.lt_succ_self m) hP
    exact ⟨t', by simp [forRange, ht, ht'], hP'⟩

theorem rd_of_lt (a : List Nat) (i : Int) (h0 : 0 ≤ i) (h1 : i < a.length) :
    ∃ v, rd a i = some v ∧ v ∈ a := by
  have h : i.toNat < a.length := by omega
  exact ⟨a[i.toNat], by simp [rd, h0, List.getElem?_eq_getElem h], List.getElem_mem h⟩

theorem rd_lt_of_some (a : List Nat) (i : Int) (v : Nat) (h : rd a i = some v) :
    0 ≤ i ∧ i < a.length ∧ v ∈ a := by
  unfold rd at h
  split at h
  · rename_i h0
    obtain ⟨hlt, hv⟩ := List.getElem?_eq_some.mp h
    exact ⟨h0, by omega, hv ▸ List.getElem_mem hlt⟩
  · cases h

theorem wr_of_lt (a : List Nat) (i : Int) (v : Nat) (h0 : 0 ≤ i) (h1 : i < a.length) :
    wr a i v = some (a.set i.toNat v) := by
  have h : i.toNat < a.length := by omega
  simp [wr, h0, h]

theorem rd_set_self (a : List Nat) (i : Int) (v : Nat) (h0 : 0 ≤ i) (h1 : i < a.length) :
    rd (a.set i.toNat v) i = some v := by
  have h : i.toNat < a.length := by omega
  simp [rd, h0, h]

theorem rd_set_ne (a : List Nat) (i j : Int) (v : Nat) (h0 : 0 ≤ i) (hne : j ≠ i) :
    rd (a.set i.toNat v) j = rd a j := by
  unfold rd
  split
  · rename_i hj
    have : i.toNat ≠ j.toNat := by omega
    simp [List.getElem?_set_ne this]
  · rfl

theorem bytes_set (a : List Nat) (n v : Nat) (ha : ∀ p ∈ a, p < 256) (hv : v < 256) :
    ∀ p ∈ a.set n v, p < 256 := by
  intro p hp
  rcases List.mem_or_eq_of_mem_set hp with h | h
  · exact ha p h
  · exact h ▸ hv

theorem list_ext_rd (a b : List Nat) (hlen : a.length = b.length)
    (h : ∀ i : Int, 0 ≤ i → i < a.length → rd a i = rd b i) : a = b := by
  apply List.ext_getElem? 
  intro n
  by_cases hn : n < a.length
  · have := h (n : Int) (by omega) (by omega)
    simpa [rd] using this
  · have h1 : a.length ≤ n := by omega
    have h2 : b.length ≤ n := by omega
    simp [List.getElem?_eq_none h1, List.getElem?_eq_none h2]

/-- Row-major indices stay inside a `rows × cols` array. -/
theorem idx_bound (r c rows cols : Int) (hr0 : 0 ≤ r) (hr : r < rows)
    (hc0 : 0 ≤ c) (hc : c < cols) : 0 ≤ r * cols + c ∧ r * cols + c < rows * cols := by
  constructor
  · have := mul_nonneg hr0 (le_trans hc0 (le_of_lt hc))
    omega
  · have h1 : (r + 1) * cols ≤ rows * cols :=
      mul_le_mul_of_nonneg_right (by omega) (le_trans hc0 (le_of_lt hc))
    have h2 : (r + 1) * cols = r * cols + cols := by ring
    omega

/-- Row-major indexing is injective on in-range columns. -/
theorem idx_inj (r c r' c' cols : Int) (hc0 : 0 ≤ c) (hc : c < cols)
    (hc0' : 0 ≤ c') (hc' : c' < cols) (h : r * cols + c = r' * cols + c') :
    r = r' ∧ c = c' := by
  have hr : r = r' := by
    by_contra hne
    rcases lt_or_gt_of_ne hne with hlt | hgt
    · have h1 : (r + 1) * cols ≤ r' * cols :=
        mul_le_mul_of_nonneg_right (by omega) (by omega)
      have h2 : (r + 1) * cols = r * cols + cols := by ring
      omega
    · have h1 : (r' + 1) * cols ≤ r * cols :=
        mul_le_mul_of_nonneg_right (by omega) (by omega)
      have h2 : (r' + 1) * cols = r' * cols + cols := by ring
      omega
  subst hr
  exact ⟨rfl, by omega⟩

/-! ## The copying double loop: proofs -/

theorem CopyInv.congr {src dst : Image} {sI dI : Int → Int → Int}
    {Done Done' : Int → Int → Prop} {s : Image × Image}
    (h : CopyInv src dst sI dI Done s) (he : ∀ i j, Done' i j ↔ Done i j) :
    CopyInv src dst sI dI Done' s :=
  { src_eq := h.src_eq, width_eq := h.width_eq, height_eq := h.height_eq,
    maxval_eq := h.maxval_eq, length_eq := h.length_eq,
    copied := fun i j hd => h.copied i j ((he i j).mp hd),
    frame := fun k hk => h.frame k (fun i j hd => hk i j ((he i j).mpr hd)),
    bytes := h.bytes }

theorem copyPixel_step (src dst : Image) (sI dI : Int → Int → Int)
    (Done : Int → Int → Prop) (s : Image × Image) (i j : Int)
    (hinv : CopyInv src dst sI dI Done s)
    (hs : 0 ≤ sI i j ∧ sI i j < src.pixel.length)
    (hd : 0 ≤ dI i j ∧ dI i j < dst.pixel.length)
    (hsb : ∀ p ∈ src.pixel, p < 256)
    (hfresh : ∀ i' j', Done i' j' → dI i' j' ≠ dI i j) :
    ∃ s', copyPixel s (sI i j) (dI i j) = some s' ∧
      CopyInv src dst sI dI (fun i' j' => Done i' j' ∨ (i' = i ∧ j' = j)) s' := by
  obtain ⟨v, hv, hvm⟩ := rd_of_lt src.pixel (sI i j) hs.1 hs.2
  have hlen : dI i j < s.2.pixel.length := by rw [hinv.length_eq]; exact hd.2
  refine ⟨(s.1, { s.2 with pixel := s.2.pixel.set (dI i j).toNat v }), ?_, ?_⟩
  · simp [copyPixel, hinv.src_eq, hv, wr_of_lt _ _ _ hd.1 hlen]
  · refine ⟨hinv.src_eq, hinv.width_eq, hinv.height_eq, hinv.maxval_eq, ?_, ?_, ?_, ?_⟩
    · simp [hinv.length_eq]
    · intro i' j' hdone
      rcases hdone with hdone | ⟨hi, hj⟩
      · obtain ⟨u, hu1, hu2⟩ := hinv.copied i' j' hdone
        refine ⟨u, hu1, ?_⟩
        show rd (s.2.pixel.set (dI i j).toNat v) (dI i' j') = some u
        rw [rd_set_ne _ _ _ _ hd.1 (hfresh i' j' hdone)]
        exact hu2
      · subst hi; subst hj
        exact ⟨v, hv, rd_set_self _ _ _ hd.1 hlen⟩
    · intro k hk
      show rd (s.2.pixel.set (dI i j).toNat v) k = rd dst.pixel k
      rw [rd_set_ne _ _ _ _ hd.1 (hk i j (Or.inr ⟨rfl, rfl⟩))]
      exact hinv.frame k (fun i' j' hdone => hk i' j' (Or.inl hdone))
    · exact bytes_set _ _ _ hinv.bytes (hsb v hvm)

/-- The specification of the copying double loop with `rows` outer and `cols`
inner iterations.  The loop bound and the two index expressions may read the
state, as long as they only depend on the source image and on the destination
image's dimensions. -/
theorem copy2D_spec (src dst : Image) (rows cols : Nat) (sI dI : Int → Int → Int)
    (bnd : Image × Image → Nat) (sIx dIx : Image × Image → Int → Int → Int)
    (hstable : ∀ s : Image × Image, s.1 = src → s.2.width = dst.width →
      s.2.height = dst.height →
      bnd s = cols ∧ ∀ i j, sIx s i j = sI i j ∧ dIx s i j = dI i j)
    (hs : ∀ i j : Int, 0 ≤ i → i < rows → 0 ≤ j → j < cols →
      0 ≤ sI i j ∧ sI i j < src.pixel.length)
    (hd : ∀ i j : Int, 0 ≤ i → i < rows → 0 ≤ j → j < cols →
      0 ≤ dI i j ∧ dI i j < dst.pixel.length)
    (hinj : ∀ i j i' j' : Int, 0 ≤ i → i < rows → 0 ≤ j → j < cols →
      0 ≤ i' → i' < rows → 0 ≤ j' → j' < cols → dI i j = dI i' j' → i = i' ∧ j = j')
    (hsb : ∀ p ∈ src.pixel, p < 256) (hdb : ∀ p ∈ dst.pixel, p < 256) :
    ∃ s', forRange rows (fun i s => forRange (bnd s)
        (fun j s => copyPixel s (sIx s i j) (dIx s i j)) s) (src, dst) = some s' ∧
      CopyInv src dst sI dI (fun i j => 0 ≤ i ∧ i < rows ∧ 0 ≤ j ∧ j < cols) s' := by
  apply forRange_inv
    (fun k s => CopyInv src dst sI dI (fun i j => 0 ≤ i ∧ i < (k : Int) ∧ 0 ≤ j ∧ j < cols) s)
  · exact ⟨rfl, rfl, rfl, rfl, rfl, fun i j h => by omega, fun k _ => rfl, hdb⟩
  · intro k t hk hP
    have hb := (hstable t hP.src_eq hP.width_eq hP.height_eq).1
    show ∃ t', forRange (bnd t) _ t = some t' ∧ _
    rw [hb]
    have hin := forRange_inv
      (fun m u => CopyInv src dst sI dI
        (fun i j => (0 ≤ i ∧ i < (k : Int) ∧ 0 ≤ j ∧ j < cols) ∨
          (i = (k : Int) ∧ 0 ≤ j ∧ j < (m : Int))) u)
      cols (fun j s => copyPixel s (sIx s (k : Int) j) (dIx s (k : Int) j)) t
      (hP.congr (fun i j => by constructor <;> intro h <;> omega))
      (by
        intro m u hm hQ
        have hst := (hstable u hQ.src_eq hQ.width_eq hQ.height_eq).2 (k : Int) (m : Int)
        show ∃ t', copyPixel u (sIx u (k : Int) (m : Int)) (dIx u (k : Int) (m : Int)) = some t' ∧ _
        rw [hst.1, hst.2]
        have hkr : ((k : Int)) < rows := by exact_mod_cast hk
        have hmc : ((m : Int)) < cols := by exact_mod_cast hm
        obtain ⟨u', hu', hQ'⟩ := copyPixel_step src dst sI dI _ u (k : Int) (m : Int) hQ
          (hs _ _ (by omega) hkr (by omega) hmc)
          (hd _ _ (by omega) hkr (by omega) hmc) hsb
          (by
            intro i' j' hdone heq
            have := hinj i' j' (k : Int) (m : Int)
            rcases hdone with ⟨h1, h2, h3, h4⟩ | ⟨h1, h2, h3⟩
            · have := this h1 (by omega) h3 h4 (by omega) hkr (by omega) hmc heq
              omega
            · have := this (by omega) (by omega) h2 (by omega) (by omega) hkr (by omega) hmc heq
              omega)
        exact ⟨u', hu', hQ'.congr (fun i j => by
          constructor <;> intro h <;> push_cast at h ⊢ <;> omega)⟩)
    obtain ⟨t', ht', hQ⟩ := hin
    exact ⟨t', ht', hQ.congr (fun i j => by
      constructor <;> intro h <;> push_cast at h ⊢ <;> omega)⟩

/-! ## Specifications of the operations -/

theorem ImageCreate_spec (w h : Int) (garbage : Nat → Nat) (hw : 0 ≤ w) (hh : 0 ≤ h) :
    ∃ c, ImageCreate w h 255 garbage = some c ∧ c.width = w ∧ c.height = h ∧
      c.maxval = 255 ∧ (c.pixel.length : Int) = w * h ∧ ∀ p ∈ c.pixel, p < 256 := by
  refine ⟨{ width := w, height := h, maxval := 255,
             pixel := (List.range (w * h).toNat).map (fun i => garbage i % 256) },
    by simp [ImageCreate, hw, hh, PixMax], rfl, rfl, rfl, ?_, ?_⟩
  · have := mul_nonneg hw hh
    simp only [List.length_map, List.length_range]
    omega
  · intro p hp
    simp only [List.mem_map, List.mem_range] at hp
    obtain ⟨i, _, rfl⟩ := hp
    omega

/-- The result of `ImageRotate` on a well-formed image. -/
theorem ImageRotate_spec (img : Image) (garbage : Nat → Nat) (hwf : img.wf) :
    ∃ r, ImageRotate img garbage = some (img, r) ∧
      r.width = img.height ∧ r.height = img.width ∧ r.maxval = 255 ∧
      (r.pixel.length : Int) = r.width * r.height ∧ (∀ p ∈ r.pixel, p < 256) ∧
      ∀ x y : Int, 0 ≤ x → x < img.width → 0 ≤ y → y < img.height →
        ∃ v, img.pix x y = some v ∧ r.pix y (img.width - 1 - x) = some v := by
  obtain ⟨hw, hh, _, _, hlen, hb⟩ := hwf
  obtain ⟨c, hc, hcw, hch, hcm, hcl, hcb⟩ := ImageCreate_spec img.height img.width garbage hh hw
  obtain ⟨s', hs', hinv⟩ := copy2D_spec img c img.height.toNat img.width.toNat
    (fun y x => y * img.width + x) (fun y x => (img.width - 1 - x) * img.height + y)
    (fun s => s.1.width.toNat) (fun s y x => y * s.1.width + x)
    (fun s y x => (s.1.width - 1 - x) * s.2.width + y)
    (by
      intro s h1 h2 _
      subst h1
      refine ⟨rfl, fun i j => ⟨rfl, ?_⟩⟩
      show _ * s.2.width + _ = _
      rw [h2, hcw])
    (by
      intro i j hi0 hi hj0 hj
      have := idx_bound i j img.height img.width hi0 (by omega) hj0 (by omega)
      rw [hlen, mul_comm img.width]; exact this)
    (by
      intro i j hi0 hi hj0 hj
      have := idx_bound (img.width - 1 - j) i img.width img.height (by omega) (by omega)
        hi0 (by omega)
      rw [hcl, mul_comm img.height]; exact this)
    (by
      intro i j i' j' hi0 hi hj0 hj hi0' hi' hj0' hj' heq
      have := idx_inj (img.width - 1 - j) i (img.width - 1 - j') i' img.height
        hi0 (by omega) hi0' (by omega) heq
      omega)
    hb hcb
  refine ⟨s'.2, ?_, ?_, ?_, ?_, ?_, hinv.bytes, ?_⟩
  · have : s' = (img, s'.2) := by rw [← hinv.src_eq]
    rw [← this]
    simp only [ImageRotate, hc, Option.some_bind]
    exact hs'
  · rw [hinv.width_eq, hcw]
  · rw [hinv.height_eq, hch]
  · rw [hinv.maxval_eq, hcm]
  · rw [hinv.length_eq, hinv.width_eq, hinv.height_eq, hcl, hcw, hch]
  · intro x y hx0 hx hy0 hy
    obtain ⟨v, hv1, hv2⟩ := hinv.copied y x ⟨hy0, by omega, hx0, by omega⟩
    refine ⟨v, hv1, ?_⟩
    simp only [Image.pix, hinv.width_eq, hcw]
    exact hv2

/-- The result of `ImageMirror` on a well-formed image. -/
theorem ImageMirror_spec (img : Image) (garbage : Nat → Nat) (hwf : img.wf) :
    ∃ r, ImageMirror img garbage = some (img, r) ∧
      r.width = img.width ∧ r.height = img.height ∧ r.maxval = 255 ∧
      (r.pixel.length : Int) = r.width * r.height ∧ (∀ p ∈ r.pixel, p < 256) ∧
      ∀ x y : Int, 0 ≤ x → x < img.width → 0 ≤ y → y < img.height →
        ∃ v, img.pix x y = some v ∧ r.pix (img.width - 1 - x) y = some v := by
  obtain ⟨hw, hh, _, _, hlen, hb⟩ := hwf
  obtain ⟨c, hc, hcw, hch, hcm, hcl, hcb⟩ := ImageCreate_spec img.width img.height garbage hw hh
  obtain ⟨s', hs', hinv⟩ := copy2D_spec img c img.height.toNat img.width.toNat
    (fun y x => y * img.width + x) (fun y x => y * img.width + (img.width - 1 - x))
    (fun s => s.1.width.toNat) (fun s y x => y * s.1.width + x)
    (fun s y x => y * s.2.width + (s.1.width - 1 - x))
    (by
      intro s h1 h2 _
      subst h1
      refine ⟨rfl, fun i j => ⟨rfl, ?_⟩⟩
      show _ * s.2.width + _ = _
      rw [h2, hcw])
    (by
      intro i j hi0 hi hj0 hj
      have := idx_bound i j img.height img.width hi0 (by omega) hj0 (by omega)
      rw [hlen, mul_comm img.width]; exact this)
    (by
      intro i j hi0 hi hj0 hj
      have := idx_bound i (img.width - 1 - j) img.height img.width hi0 (by omega)
        (by omega) (by omega)
      rw [hcl, mul_comm img.width]; exact this)
    (by
      intro i j i' j' hi0 hi hj0 hj hi0' hi' hj0' hj' heq
      have := idx_inj i (img.width - 1 - j) i' (img.width - 1 - j') img.width
        (by omega) (by omega) (by omega) (by omega) heq
      omega)
    hb hcb
  refine ⟨s'.2, ?_, ?_, ?_, ?_, ?_, hinv.bytes, ?_⟩
  · have : s' = (img, s'.2) := by rw [← hinv.src_eq]
    rw [← this]
    simp only [ImageMirror, hc, Option.some_bind]
    exact hs'
  · rw [hinv.width_eq, hcw]
  · rw [hinv.height_eq, hch]
  · rw [hinv.maxval_eq, hcm]
  · rw [hinv.length_eq, hinv.width_eq, hinv.height_eq, hcl, hcw, hch]
  · intro x y hx0 hx hy0 hy
    obtain ⟨v, hv1, hv2⟩ := hinv.copied y x ⟨hy0, by omega, hx0, by omega⟩
    refine ⟨v, hv1, ?_⟩
    simp only [Image.pix, hinv.width_eq, hcw]
    exact hv2

theorem ImageValidRect_iff (img : Image) (x y w h : Int) :
    ImageValidRect img x y w h = true ↔
      0 ≤ x ∧ 0 ≤ y ∧ x + w ≤ img.width ∧ y + h ≤ img.height := by
  simp [ImageValidRect, and_assoc]

/-- The result of `ImageCrop` on a well-formed image and a valid rectangle. -/
theorem ImageCrop_spec (img : Image) (x y w h : Int) (garbage : Nat → Nat) (hwf : img.wf)
    (hrect : ImageValidRect img x y w h = true) (hw0 : 0 ≤ w) (hh0 : 0 ≤ h) :
    ∃ r, ImageCrop img x y w h garbage = some (img, r) ∧
      r.width = w ∧ r.height = h ∧ r.maxval = 255 ∧
      (r.pixel.length : Int) = r.width * r.height ∧ (∀ p ∈ r.pixel, p < 256) ∧
      ∀ i j : Int, 0 ≤ i → i < w → 0 ≤ j → j < h →
        ∃ v, img.pix (x + i) (y + j) = some v ∧ r.pix i j = some v := by
  obtain ⟨hw, hh, _, _, hlen, hb⟩ := hwf
  obtain ⟨hx0, hy0, hxw, hyh⟩ := (ImageValidRect_iff img x y w h).mp hrect
  obtain ⟨c, hc, hcw, hch, hcm, hcl, hcb⟩ := ImageCreate_spec w h garbage hw0 hh0
  obtain ⟨s', hs', hinv⟩ := copy2D_spec img c h.toNat w.toNat
    (fun i j => (y + i) * img.width + (x + j)) (fun i j => i * w + j)
    (fun _ => w.toNat) (fun s i j => (y + i) * s.1.width + (x + j))
    (fun _ i j => i * w + j)
    (by
      intro s h1 _ _
      subst h1
      exact ⟨rfl, fun i j => ⟨rfl, rfl⟩⟩)
    (by
      intro i j hi0 hi hj0 hj
      have := idx_bound (y + i) (x + j) img.height img.width (by omega) (by omega)
        (by omega) (by omega)
      rw [hlen, mul_comm img.width]; exact this)
    (by
      intro i j hi0 hi hj0 hj
      have := idx_bound i j h w hi0 (by omega) hj0 (by omega)
      rw [hcl, mul_comm w]; exact this)
    (by
      intro i j i' j' hi0 hi hj0 hj hi0' hi' hj0' hj' heq
      exact idx_inj i j i' j' w hj0 (by omega) hj0' (by omega) heq)
    hb hcb
  refine ⟨s'.2, ?_, ?_, ?_, ?_, ?_, hinv.bytes, ?_⟩
  · have : s' = (img, s'.2) := by rw [← hinv.src_eq]
    rw [← this]
    simp only [ImageCrop, hrect, if_true, hc, Option.some_bind]
    exact hs'
  · rw [hinv.width_eq, hcw]
  · rw [hinv.height_eq, hch]
  · rw [hinv.maxval_eq, hcm]
  · rw [hinv.length_eq, hinv.width_eq, hinv.height_eq, hcl, hcw, hch]
  · intro i j hi0 hi hj0 hj
    obtain ⟨v, hv1, hv2⟩ := hinv.copied j i ⟨hj0, by omega, hi0, by omega⟩
    refine ⟨v, hv1, ?_⟩
    simp only [Image.pix, hinv.width_eq, hcw]
    exact hv2

/-- The result of `ImagePaste` on well-formed images when the source fits:
the pair returned is (source, destination after the call). -/
theorem ImagePaste_spec (img1 : Image) (x y : Int) (img2 : Image)
    (hwf1 : img1.wf) (hwf2 : img2.wf)
    (hrect : ImageValidRect img1 x y img2.width img2.height = true) :
    ∃ d, ImagePaste img1 x y img2 = some (img2, d) ∧
      d.width = img1.width ∧ d.height = img1.height ∧ d.maxval = img1.maxval ∧
      (d.pixel.length : Int) = d.width * d.height ∧ (∀ p ∈ d.pixel, p < 256) ∧
      (∀ j i : Int, 0 ≤ j → j < img2.width → 0 ≤ i → i < img2.height →
        ∃ v, img2.pix j i = some v ∧ d.pix (x + j) (y + i) = some v) ∧
      (∀ px py : Int, 0 ≤ px → px < img1.width → 0 ≤ py → py < img1.height →
        ¬ (x ≤ px ∧ px < x + img2.width ∧ y ≤ py ∧ py < y + img2.height) →
        d.pix px py = img1.pix px py) := by
  obtain ⟨hw1, hh1, _, _, hlen1, hb1⟩ := hwf1
  obtain ⟨hw2, hh2, _, _, hlen2, hb2⟩ := hwf2
  obtain ⟨hx0, hy0, hxw, hyh⟩ := (ImageValidRect_iff img1 x y _ _).mp hrect
  obtain ⟨s', hs', hinv⟩ := copy2D_spec img2 img1 img2.height.toNat img2.width.toNat
    (fun i j => i * img2.width + j) (fun i j => (y + i) * img1.width + (x + j))
    (fun s => s.1.width.toNat) (fun s i j => i * s.1.width + j)
    (fun s i j => (y + i) * s.2.width + (x + j))
    (by
      intro s h1 h2 _
      subst h1
      refine ⟨rfl, fun i j => ⟨rfl, ?_⟩⟩
      show _ * s.2.width + _ = _
      rw [h2])
    (by
      intro i j hi0 hi hj0 hj
      have := idx_bound i j img2.height img2.width hi0 (by omega) hj0 (by omega)
      rw [hlen2, mul_comm img2.width]; exact this)
    (by
      intro i j hi0 hi hj0 hj
      have := idx_bound (y + i) (x + j) img1.height img1.width (by omega) (by omega)
        (by omega) (by omega)
      rw [hlen1, mul_comm img1.width]; exact this)
    (by
      intro i j i' j' hi0 hi hj0 hj hi0' hi' hj0' hj' heq
      have := idx_inj (y + i) (x + j) (y + i') (x + j') img1.width
        (by omega) (by omega) (by omega) (by omega) heq
      omega)
    hb2 hb1
  refine ⟨s'.2, ?_, hinv.width_eq, hinv.height_eq, hinv.maxval_eq, ?_, hinv.bytes, ?_, ?_⟩
  · have : s' = (img2, s'.2) := by rw [← hinv.src_eq]
    rw [← this]
    simp only [ImagePaste, hrect, if_true]
    exact hs'
  · rw [hinv.length_eq, hinv.width_eq, hinv.height_eq, hlen1]
  · intro j i hj0 hj hi0 hi
    obtain ⟨v, hv1, hv2⟩ := hinv.copied i j ⟨hi0, by omega, hj0, by omega⟩
    refine ⟨v, hv1, ?_⟩
    simp only [Image.pix, hinv.width_eq]
    exact hv2
  · intro px py hpx0 hpx hpy0 hpy hout
    simp only [Image.pix, hinv.width_eq]
    apply hinv.frame
    intro i j hdone heq
    obtain ⟨hi0, hi, hj0, hj⟩ := hdone
    have := idx_inj py px (y + i) (x + j) img1.width hpx0 hpx (by omega) (by omega) heq
    omega

/-! ## The in-place pixel loop -/

theorem rd_map (a : List Nat) (f : Nat → Nat) (i : Int) :
    rd (a.map f) i = (rd a i).map f := by
  unfold rd
  split
  · simp [List.getElem?_map]
  · rfl

/-- The specification of a loop over all pixel indices whose body replaces
`pixel[i]` by `f (pixel[i])`. -/
theorem pointLoop_spec (img : Image) (f : Nat → Nat) (body : Int → Image → Option Image)
    (hbody : ∀ (i : Int) (s : Image) (p : Nat), s.maxval = img.maxval →
      rd s.pixel i = some p →
      body i s = (wr s.pixel i (f p)).map (fun px => { s with pixel := px }))
    (n : Nat) (hn : n = img.pixel.length) :
    ∃ r, forRange n body img = some r ∧ r.width = img.width ∧ r.height = img.height ∧
      r.maxval = img.maxval ∧ r.pixel = img.pixel.map f := by
  obtain ⟨r, hr, h1, h2, h3, h4, h5⟩ := forRange_inv
    (fun k s => s.width = img.width ∧ s.height = img.height ∧ s.maxval = img.maxval ∧
      s.pixel.length = img.pixel.length ∧
      ∀ i : Int, 0 ≤ i → i < img.pixel.length →
        rd s.pixel i = if i < (k : Int) then (rd img.pixel i).map f else rd img.pixel i)
    n body img
    ⟨rfl, rfl, rfl, rfl, fun i hi0 _ => by
      have : ¬ i < ((0 : Nat) : Int) := by simpa using hi0
      rw [if_neg this]⟩
    (by
      intro k s hk ⟨hw, hh, hm, hl, hpix⟩
      have hk1 : (k : Int) < img.pixel.length := by omega
      have hk0 : (0 : Int) ≤ k := by omega
      obtain ⟨p, hp, _⟩ := rd_of_lt img.pixel k hk0 hk1
      have hsp : rd s.pixel k = some p := by
        rw [hpix k hk0 hk1, if_neg (lt_irrefl _), hp]
      have hk2 : (k : Int) < s.pixel.length := by rw [hl]; exact hk1
      refine ⟨{ s with pixel := s.pixel.set (k : Int).toNat (f p) }, ?_, hw, hh, hm, ?_, ?_⟩
      · rw [hbody k s p hm hsp, wr_of_lt _ _ _ hk0 hk2]; rfl
      · simp [hl]
      · intro i hi0 hi
        show rd (s.pixel.set (k : Int).toNat (f p)) i = _
        by_cases hik : i = (k : Int)
        · subst hik
          rw [rd_set_self _ _ _ hk0 hk2, if_pos (by push_cast; omega), hp]; rfl
        · rw [rd_set_ne _ _ _ _ hk0 hik, hpix i hi0 hi]
          by_cases hlt : i < (k : Int)
          · rw [if_pos hlt, if_pos (by push_cast; omega)]
          · rw [if_neg hlt, if_neg (by push_cast; omega)])
  refine ⟨r, hr, h1, h2, h3, ?_⟩
  apply list_ext_rd _ _ (by simp [h4])
  intro i hi0 hi
  rw [h4] at hi
  rw [h5 i hi0 hi, if_pos (by omega), rd_map]

/-- The result of `ImageNegative` on a well-formed image. -/
theorem ImageNegative_spec (img : Image) (hwf : img.wf) :
    ∃ r, ImageNegative img = some r ∧ r.width = img.width ∧ r.height = img.height ∧
      r.maxval = img.maxval ∧
      r.pixel = img.pixel.map (fun (p : Nat) => toUint8 (255 - (p : Int))) := by
  obtain ⟨_, _, _, _, hlen, _⟩ := hwf
  unfold ImageNegative
  apply pointLoop_spec img (fun (p : Nat) => toUint8 (255 - (p : Int)))
  · intro i s p _ hp
    simp [hp]
  · omega

/-- The result of `ImageThreshold` on a well-formed image. -/
theorem ImageThreshold_spec (img : Image) (thr : Nat) (hwf : img.wf) :
    ∃ r, ImageThreshold img thr = some r ∧ r.width = img.width ∧ r.height = img.height ∧
      r.maxval = img.maxval ∧
      r.pixel = img.pixel.map (fun p => if p < thr then 0 else toUint8 img.maxval) := by
  obtain ⟨_, _, _, _, hlen, _⟩ := hwf
  unfold ImageThreshold
  apply pointLoop_spec img (fun p => if p < thr then 0 else toUint8 img.maxval)
  · intro i s p hm hp
    simp only [hp, Option.some_bind, hm]
    split <;> rfl
  · omega

theorem toUint8_of_byte (v : Int) (h0 : 0 ≤ v) (h1 : v ≤ 255) : (toUint8 v : Int) = v := by
  unfold toUint8
  omega

/-- Two images of the same dimensions with the same pixel at every position
have the same pixel array. -/
theorem pixel_eq_of_pix_eq (a b : Image) (hw : a.width = b.width) (hw0 : 0 ≤ a.width)
    (hla : (a.pixel.length : Int) = a.width * a.height)
    (hlb : (b.pixel.length : Int) = a.width * a.height)
    (h : ∀ x y : Int, 0 ≤ x → x < a.width → 0 ≤ y → y < a.height → a.pix x y = b.pix x y) :
    a.pixel = b.pixel := by
  apply list_ext_rd _ _ (by omega)
  intro i hi0 hi
  rw [hla] at hi
  have hwpos : 0 < a.width := by
    by_contra hneg
    have h0 : a.width = 0 := by omega
    rw [h0, zero_mul] at hi
    omega
  have hdecomp : i / a.width * a.width + i % a.width = i := by
    rw [mul_comm]; exact Int.ediv_add_emod i a.width
  have hx0 : 0 ≤ i % a.width := Int.emod_nonneg i (ne_of_gt hwpos)
  have hx1 : i % a.width < a.width := Int.emod_lt_of_pos i hwpos
  have hy0 : 0 ≤ i / a.width := Int.ediv_nonneg hi0 (le_of_lt hwpos)
  have hy1 : i / a.width < a.height := by
    apply Int.ediv_lt_of_lt_mul hwpos
    rw [mul_comm]; exact hi
  have := h (i % a.width) (i / a.width) hx0 hx1 hy0 hy1
  simp only [Image.pix, ← hw, hdecomp] at this
  exact this

/-! ## The fuel of `skipComments` -/

theorem scanComment_length (s r : List Nat) (h : scanComment s = (true, r)) :
    r.length < s.length := by
  cases s with
  | nil => simp [scanComment] at h
  | cons c t =>
    simp only [scanComment] at h
    by_cases hc : c = 35
    · rw [if_pos hc] at h
      by_cases he : (List.takeWhile (fun b => b != 10) t).isEmpty = true
      · rw [if_pos he] at h
        simp at h
      · rw [if_neg he] at h
        have hle := (List.dropWhile_sublist (l := t) (fun b => b != 10)).length_le
        cases hdrop : List.dropWhile (fun b => b != 10) t with
        | nil => rw [hdrop] at h; simp at h
        | cons d r' =>
          rw [hdrop] at h hle
          simp only [Prod.mk.injEq] at h
          rw [← h.2]
          simp only [List.length_cons] at hle ⊢
          omega
    · rw [if_neg hc] at h
      simp at h

/-- Any fuel of at least the length of the stream gives `skipComments` the same
result: the loop has ended before the fuel runs out. -/
theorem skipComments_fuel (f g : Nat) (s : List Nat) (hf : s.length ≤ f) (hg : s.length ≤ g) :
    skipComments f s = skipComments g s := by
  induction f generalizing g s with
  | zero =>
    have hs : s = [] := List.length_eq_zero.mp (by omega)
    subst hs
    cases g with
    | zero => rfl
    | succ g => simp [skipComments, scanComment]
  | succ f ih =>
    cases g with
    | zero =>
      have hs : s = [] := List.length_eq_zero.mp (by omega)
      subst hs
      simp [skipComments, scanComment]
    | succ g =>
      unfold skipComments
      cases hsc : scanComment s with
      | mk b r =>
        cases b with
        | false => rfl
        | true =>
          have hlt := scanComment_length s r hsc
          simp only
          rw [ih g r (by omega) (by omega)]

/-! ## Printing and scanning decimal numbers -/

theorem decDigits_head (fuel n : Nat) (h : n < fuel) :
    ∃ c t, decDigits fuel n = c :: t ∧ 48 ≤ c ∧ c ≤ 57 := by
  induction fuel generalizing n with
  | zero => omega
  | succ f ih =>
    unfold decDigits
    by_cases hn : n < 10
    · rw [if_pos hn]
      exact ⟨48 + n, [], rfl, by omega, by omega⟩
    · rw [if_neg hn]
      obtain ⟨c, t, hc, h1, h2⟩ := ih (n / 10) (by omega)
      exact ⟨c, t ++ [48 + n % 10], by rw [hc]; rfl, h1, h2⟩

theorem scanDigits_decDigits (fuel n : Nat) (h : n < fuel) :
    ∃ k, ∀ acc rest,
      scanDigits (decDigits fuel n ++ rest) acc = scanDigits rest (acc * 10 ^ k + n) := by
  induction fuel generalizing n with
  | zero => omega
  | succ f ih =>
    unfold decDigits
    by_cases hn : n < 10
    · rw [if_pos hn]
      refine ⟨1, fun acc rest => ?_⟩
      have hd : isdigit (48 + n) = true := by simp [isdigit]; omega
      have he : 10 * acc + (48 + n - 48) = acc * 10 ^ 1 + n := by omega
      simp only [List.singleton_append, scanDigits, hd, if_true, he]
      rfl
    · rw [if_neg hn]
      obtain ⟨k, hk⟩ := ih (n / 10) (by omega)
      refine ⟨k + 1, fun acc rest => ?_⟩
      have hd : isdigit (48 + n % 10) = true := by simp [isdigit]; omega
      have he : 10 * (acc * 10 ^ k + n / 10) + (48 + n % 10 - 48) = acc * 10 ^ (k + 1) + n := by
        have h1 := Nat.div_add_mod n 10
        have h2 : 48 + n % 10 - 48 = n % 10 := by omega
        rw [h2, pow_succ]
        linarith
      rw [List.append_assoc, hk]
      simp only [List.singleton_append, scanDigits, hd, if_true, he]
      rfl

theorem scanDigits_stop (sep : Nat) (t : List Nat) (acc : Nat) (h : isdigit sep = false) :
    scanDigits (sep :: t) acc = (acc, sep :: t) := by
  simp [scanDigits, h]

theorem printInt_head (v : Int) (hv : 0 ≤ v) :
    ∃ c t, printInt v = c :: t ∧ 48 ≤ c ∧ c ≤ 57 := by
  unfold printInt printNat
  rw [if_neg (by omega)]
  exact decDigits_head _ _ (by omega)

theorem skipSpace_printInt (v : Int) (hv : 0 ≤ v) (r : List Nat) :
    skipSpace (printInt v ++ r) = printInt v ++ r := by
  obtain ⟨c, t, hc, h1, h2⟩ := printInt_head v hv
  have hs : isspace c = false := by
    simp only [isspace, Bool.or_eq_false_iff, Bool.and_eq_false_iff, beq_eq_false_iff_ne,
      decide_eq_false_iff_not]
    omega
  rw [hc]
  simp [skipSpace, List.dropWhile, hs]

theorem skipComments_printInt (fuel : Nat) (v : Int) (hv : 0 ≤ v) (r : List Nat) :
    (skipComments fuel (printInt v ++ r)).2 = printInt v ++ r := by
  obtain ⟨c, t, hc, h1, h2⟩ := printInt_head v hv
  rw [hc]
  cases fuel with
  | zero => rfl
  | succ f =>
    have hne : c ≠ 35 := by omega
    simp [skipComments, scanComment, hne]

theorem scanInt_printInt (v : Int) (hv : 0 ≤ v) (sep : Nat) (t : List Nat)
    (hsep : isdigit sep = false) :
    scanInt (printInt v ++ sep :: t) = some (v, sep :: t) := by
  unfold scanInt
  simp only [skipSpace_printInt v hv]
  obtain ⟨c, t0, hc, h1, h2⟩ := printInt_head v hv
  have hd : isdigit c = true := by simp [isdigit]; omega
  have h45 : ¬ (some c = some 45) := by simp; omega
  have h43 : ¬ (some c = some 43) := by simp; omega
  have hscan : scanUnsigned (printInt v ++ sep :: t) = some (v.toNat, sep :: t) := by
    obtain ⟨k, hk⟩ := scanDigits_decDigits (v.toNat + 1) v.toNat (by omega)
    have hp : printInt v = decDigits (v.toNat + 1) v.toNat := by
      unfold printInt printNat
      rw [if_neg (by omega)]
    have := hk 0 (sep :: t)
    rw [← hp, scanDigits_stop _ _ _ hsep] at this
    rw [hc] at this ⊢
    simp only [List.cons_append, scanUnsigned, hd, if_true]
    rw [List.cons_append] at this
    rw [this]
    simp
  rw [hscan]
  rw [hc]
  simp only [List.cons_append, List.head?_cons, h45, h43, if_false, Option.map_some']
  congr 2
  omega

theorem skipSpace_sep_printInt (sep : Nat) (v : Int) (hv : 0 ≤ v) (r : List Nat)
    (hsep : isspace sep = true) :
    skipSpace (sep :: (printInt v ++ r)) = printInt v ++ r := by
  have := skipSpace_printInt v hv r
  unfold skipSpace at this ⊢
  rw [List.dropWhile_cons, if_pos hsep, this]

/-- The header tokens written by `ImageSave` are read back by the header
parsing steps of `ImageLoad`. -/
theorem scanIntSp_printInt (fuel : Nat) (v u : Int) (hv : 0 ≤ v) (hu : 0 ≤ u) (sep : Nat)
    (r : List Nat) (hsep : isspace sep = true) (hnd : isdigit sep = false) :
    scanIntSp (skipComments fuel (printInt v ++ sep :: (printInt u ++ r))).2 =
      some (v, printInt u ++ r) := by
  rw [skipComments_printInt fuel v hv]
  unfold scanIntSp
  rw [scanInt_printInt v hv sep _ hnd]
  simp only [Option.map_some']
  rw [skipSpace_sep_printInt sep u hu r hsep]

/-! ## Subimage comparison and search -/

theorem ImageValidPos_iff (img : Image) (x y : Int) :
    ImageValidPos img x y = true ↔ 0 ≤ x ∧ x < img.width ∧ 0 ≤ y ∧ y < img.height := by
  simp [ImageValidPos, and_assoc]

/-- The loops of `ImageMatchSubImage` when `img2` fits inside `img1` at
`(x,y)`: they end with the return slot empty when all pixels agree, and with
the value 0 when some pixel differs. -/
theorem matchLoop_spec (img1 : Image) (x y : Int) (img2 : Image)
    (hwf1 : img1.wf) (hwf2 : img2.wf) (hx : 0 ≤ x) (hy : 0 ≤ y)
    (hfw : x + img2.width ≤ img1.width) (hfh : y + img2.height ≤ img1.height) :
    ∃ r, forRange img2.height.toNat
        (fun i (r : Option Int) => forRange img2.width.toNat
          (fun j r =>
            match r with
            | some v => some (some v)
            | none =>
              (rd img1.pixel ((y + i) * img1.width + (x + j))).bind (fun a =>
                (rd img2.pixel (i * img2.width + j)).bind (fun b =>
                  if a ≠ b then some (some 0) else some none)))
          r)
        none = some r ∧
      ((r = none ∧ ∀ i j : Int, 0 ≤ i → i < img2.width → 0 ≤ j → j < img2.height →
          img1.pix (x + i) (y + j) = img2.pix i j) ∨
       (r = some 0 ∧ ∃ i j : Int, 0 ≤ i ∧ i < img2.width ∧ 0 ≤ j ∧ j < img2.height ∧
          img1.pix (x + i) (y + j) ≠ img2.pix i j)) := by
  obtain ⟨hw1, hh1, _, _, hlen1, _⟩ := hwf1
  obtain ⟨hw2, hh2, _, _, hlen2, _⟩ := hwf2
  have hdiff : ∀ r : Option Int,
      (r = some 0 ∧ ∃ i j : Int, 0 ≤ i ∧ i < img2.width ∧ 0 ≤ j ∧ j < img2.height ∧
          img1.pix (x + i) (y + j) ≠ img2.pix i j) → r = some 0 := fun r h => h.1
  obtain ⟨r, hr, hP⟩ := forRange_inv
    (fun (k : Nat) (r : Option Int) =>
      (r = none ∧ ∀ i j : Int, 0 ≤ i → i < img2.width → 0 ≤ j → j < (k : Int) →
          img1.pix (x + i) (y + j) = img2.pix i j) ∨
      (r = some 0 ∧ ∃ i j : Int, 0 ≤ i ∧ i < img2.width ∧ 0 ≤ j ∧ j < img2.height ∧
          img1.pix (x + i) (y + j) ≠ img2.pix i j))
    img2.height.toNat
    (fun i (r : Option Int) => forRange img2.width.toNat
      (fun j r =>
        match r with
        | some v => some (some v)
        | none =>
          (rd img1.pixel ((y + i) * img1.width + (x + j))).bind (fun a =>
            (rd img2.pixel (i * img2.width + j)).bind (fun b =>
              if a ≠ b then some (some 0) else some none)))
      r)
    none
    (Or.inl ⟨rfl, fun i j _ _ h0 h1 => by omega⟩)
    (by
      intro k r hk hP
      have hkh : (k : Int) < img2.height := by omega
      obtain ⟨r', hr', hQ⟩ := forRange_inv
        (fun (m : Nat) (r : Option Int) =>
          (r = none ∧ (∀ i j : Int, 0 ≤ i → i < img2.width → 0 ≤ j → j < (k : Int) →
              img1.pix (x + i) (y + j) = img2.pix i j) ∧
            ∀ i : Int, 0 ≤ i → i < (m : Int) → img1.pix (x + i) (y + k) = img2.pix i k) ∨
          (r = some 0 ∧ ∃ i j : Int, 0 ≤ i ∧ i < img2.width ∧ 0 ≤ j ∧ j < img2.height ∧
              img1.pix (x + i) (y + j) ≠ img2.pix i j))
        img2.width.toNat
        (fun j r =>
          match r with
          | some v => some (some v)
          | none =>
            (rd img1.pixel ((y + k) * img1.width + (x + j))).bind (fun a =>
              (rd img2.pixel (k * img2.width + j)).bind (fun b =>
                if a ≠ b then some (some 0) else some none)))
        r
        (by
          rcases hP with ⟨h1, h2⟩ | h
          · exact Or.inl ⟨h1, h2, fun i h0 h1 => by omega⟩
          · exact Or.inr h)
        (by
          intro m r hm hQ
          have hmw : (m : Int) < img2.width := by omega
          rcases hQ with ⟨h1, h2, h3⟩ | h
          · subst h1
            have hb1 := idx_bound (y + k) (x + m) img1.height img1.width (by omega) (by omega)
              (by omega) (by omega)
            have hb2 := idx_bound (k : Int) (m : Int) img2.height img2.width (by omega) hkh
              (by omega) hmw
            obtain ⟨a, ha, _⟩ := rd_of_lt img1.pixel _ hb1.1
              (by rw [hlen1, mul_comm img1.width]; exact hb1.2)
            obtain ⟨b, hb, _⟩ := rd_of_lt img2.pixel _ hb2.1
              (by rw [hlen2, mul_comm img2.width]; exact hb2.2)
            by_cases hab : a = b
            · refine ⟨none, by simp [ha, hb, hab], Or.inl ⟨rfl, h2, ?_⟩⟩
              intro i hi0 hi
              by_cases him : i = (m : Int)
              · subst him
                simp only [Image.pix, ha, hb, hab]
              · exact h3 i hi0 (by push_cast at hi; omega)
            · refine ⟨some 0, by simp [ha, hb, hab], Or.inr ⟨rfl, (m : Int), (k : Int),
                by omega, hmw, by omega, hkh, ?_⟩⟩
              simp only [Image.pix, ha, hb, ne_eq, Option.some.injEq]
              exact hab
          · have := h.1
            subst this
            exact ⟨some 0, rfl, Or.inr h⟩)
      refine ⟨r', hr', ?_⟩
      rcases hQ with ⟨h1, h2, h3⟩ | h
      · refine Or.inl ⟨h1, ?_⟩
        intro i j hi0 hi hj0 hj
        by_cases hjk : j = (k : Int)
        · subst hjk
          exact h3 i hi0 (by omega)
        · exact h2 i j hi0 hi hj0 (by push_cast at hj; omega)
      · exact Or.inr h)
  refine ⟨r, hr, ?_⟩
  rcases hP with ⟨h1, h2⟩ | h
  · exact Or.inl ⟨h1, fun i j hi0 hi hj0 hj => h2 i j hi0 hi hj0 (by omega)⟩
  · exact Or.inr h

/-- The result of `ImageMatchSubImage` when `img2` fits inside `img1` at the
valid position `(x,y)`. -/
theorem ImageMatchSubImage_spec (img1 : Image) (x y : Int) (img2 : Image)
    (hwf1 : img1.wf) (hwf2 : img2.wf) (hpos : ImageValidPos img1 x y = true)
    (hfw : x + img2.width ≤ img1.width) (hfh : y + img2.height ≤ img1.height) :
    (ImageMatchSubImage img1 x y img2 = some 1 ∧
      ∀ i j : Int, 0 ≤ i → i < img2.width → 0 ≤ j → j < img2.height →
        img1.pix (x + i) (y + j) = img2.pix i j) ∨
    (ImageMatchSubImage img1 x y img2 = some 0 ∧
      ∃ i j : Int, 0 ≤ i ∧ i < img2.width ∧ 0 ≤ j ∧ j < img2.height ∧
        img1.pix (x + i) (y + j) ≠ img2.pix i j) := by
  obtain ⟨hx0, _, hy0, _⟩ := (ImageValidPos_iff img1 x y).mp hpos
  obtain ⟨r, hr, h⟩ := matchLoop_spec img1 x y img2 hwf1 hwf2 hx0 hy0 hfw hfh
  unfold ImageMatchSubImage
  simp only [hpos, if_true]
  rw [hr]
  rcases h with ⟨h1, h2⟩ | ⟨h1, h2⟩
  · subst h1
    exact Or.inl ⟨rfl, h2⟩
  · subst h1
    exact Or.inr ⟨rfl, h2⟩

theorem forRange_partial {σ : Type} (P : Nat → σ → Prop) (n : Nat)
    (body : Int → σ → Option σ) (s t : σ) (h : forRange n body s = some t) (h0 : P 0 s)
    (hstep : ∀ (k : Nat) (u u' : σ), k < n → P k u → body (k : Int) u = some u' →
      P (k + 1) u') : P n t := by
  induction n generalizing t with
  | zero =>
    simp only [forRange, Option.some.injEq] at h
    exact h ▸ h0
  | succ m ih =>
    simp only [forRange, Option.bind_eq_some] at h
    obtain ⟨u, hu, hb⟩ := h
    exact hstep m u t (Nat.lt_succ_self m)
      (ih u hu (fun k a b hk => hstep k a b (Nat.lt_succ_of_lt hk))) hb

/-- At an anchor of the scanned range that is a valid position,
`ImageMatchSubImage` returns 0 or 1; it returns 1 when `img2` has no pixel. -/
theorem match_at_anchor (img1 img2 : Image) (hwf1 : img1.wf) (hwf2 : img2.wf) (x y : Int)
    (hx0 : 0 ≤ x) (hx : x ≤ img1.width - img2.width) (hy0 : 0 ≤ y)
    (hy : y ≤ img1.height - img2.height) (hvx : x < img1.width) (hvy : y < img1.height) :
    (ImageMatchSubImage img1 x y img2 = some 1 ∨ ImageMatchSubImage img1 x y img2 = some 0) ∧
    ((img2.width = 0 ∨ img2.height = 0) → ImageMatchSubImage img1 x y img2 = some 1) := by
  have hpos : ImageValidPos img1 x y = true :=
    (ImageValidPos_iff img1 x y).mpr ⟨hx0, hvx, hy0, hvy⟩
  rcases ImageMatchSubImage_spec img1 x y img2 hwf1 hwf2 hpos (by omega) (by omega) with
    ⟨h1, _⟩ | ⟨h0, i, j, hi0, hi, hj0, hj, _⟩
  · exact ⟨Or.inl h1, fun _ => h1⟩
  · exact ⟨Or.inr h0, fun he => by omega⟩

/-- The result of `ImageLocateSubImage` when `img1` has at least one pixel. -/
theorem ImageLocateSubImage_spec (img1 img2 : Image) (px0 py0 : Int)
    (hwf1 : img1.wf) (hwf2 : img2.wf) (hw1 : 1 ≤ img1.width) (hh1 : 1 ≤ img1.height) :
    ∃ s, ImageLocateSubImage img1 px0 py0 img2 = some s ∧
      LocateInv img1 img2 px0 py0
        (fun x y => 0 ≤ x ∧ x ≤ img1.width - img2.width ∧
          0 ≤ y ∧ y ≤ img1.height - img2.height) s := by
  have hw2 : 0 ≤ img2.width := hwf2.1
  have hh2 : 0 ≤ img2.height := hwf2.2.1
  unfold ImageLocateSubImage
  have key := forRange_inv
    (fun (k : Nat) s => LocateInv img1 img2 px0 py0
      (fun x y => 0 ≤ x ∧ x ≤ img1.width - img2.width ∧ 0 ≤ y ∧ y < (k : Int)) s)
    (img1.height - img2.height + 1).toNat
    (fun i (s : Option Int × Int × Int) => forRange (img1.width - img2.width + 1).toNat
      (fun j s =>
        match s.1 with
        | some _ => some s
        | none =>
          (ImageMatchSubImage img1 j i img2).map (fun m =>
            if m ≠ 0 then (some 1, j, i) else s))
      s)
    (none, px0, py0)
    (Or.inl ⟨rfl, fun x y h => by omega⟩)
  refine (key ?_).imp (fun s hs => ⟨hs.1, ?_⟩)
  rotate_left
  · rcases hs.2 with ⟨h1, h2⟩ | h
    · exact Or.inl ⟨h1, fun x y hd => h2 x y (by omega)⟩
    · exact Or.inr h
  · intro k s hk hP
    have hkr : (k : Int) ≤ img1.height - img2.height := by omega
    obtain ⟨s', hs', hQ⟩ := forRange_inv
      (fun (m : Nat) s => LocateInv img1 img2 px0 py0
        (fun x y => (0 ≤ x ∧ x ≤ img1.width - img2.width ∧ 0 ≤ y ∧ y < (k : Int)) ∨
          (y = (k : Int) ∧ 0 ≤ x ∧ x < (m : Int))) s)
      (img1.width - img2.width + 1).toNat
      (fun j (s : Option Int × Int × Int) =>
        match s.1 with
        | some _ => some s
        | none =>
          (ImageMatchSubImage img1 j (k : Int) img2).map (fun m =>
            if m ≠ 0 then (some 1, j, (k : Int)) else s))
      s
      (by
        rcases hP with ⟨h1, h2⟩ | h
        · exact Or.inl ⟨h1, fun x y hd => h2 x y (by omega)⟩
        · exact Or.inr h)
      (by
        intro m s hm hQ
        have hmr : (m : Int) ≤ img1.width - img2.width := by omega
        rcases hQ with ⟨h1, h2⟩ | ⟨px, py, h1, h⟩
        · subst h1
          have hval : (m : Int) < img1.width ∧ (k : Int) < img1.height := by
            by_contra hnv
            have hz : img2.width = 0 ∨ img2.height = 0 := by omega
            have h00 := (match_at_anchor img1 img2 hwf1 hwf2 0 0 (le_refl 0) (by omega)
              (le_refl 0) (by omega) (by omega) (by omega)).2 hz
            have hd := h2 0 0 (by omega)
            rw [h00] at hd
            simp at hd
          obtain ⟨hc, _⟩ := match_at_anchor img1 img2 hwf1 hwf2 (m : Int) (k : Int)
            (by omega) hmr (by omega) hkr hval.1 hval.2
          rcases hc with hc | hc
          · refine ⟨(some 1, (m : Int), (k : Int)), by simp [hc], Or.inr ⟨_, _, rfl,
              by omega, hmr, by omega, hkr, hc, ?_⟩⟩
            intro x y hx0 hx hy0 hy hlt
            exact h2 x y (by omega)
          · refine ⟨(none, px0, py0), by simp [hc], Or.inl ⟨rfl, ?_⟩⟩
            intro x y hd
            by_cases hxy : y = (k : Int) ∧ x = (m : Int)
            · rw [hxy.1, hxy.2]; exact hc
            · exact h2 x y (by push_cast at hd; omega)
        · subst h1
          exact ⟨_, rfl, Or.inr ⟨px, py, rfl, h⟩⟩)
    refine ⟨s', hs', ?_⟩
    rcases hQ with ⟨h1, h2⟩ | h
    · exact Or.inl ⟨h1, fun x y hd => h2 x y (by push_cast at hd; omega)⟩
    · exact Or.inr h

theorem match_none_of_empty (img1 img2 : Image) (x y : Int)
    (he : img1.width ≤ 0 ∨ img1.height ≤ 0) : ImageMatchSubImage img1 x y img2 = none := by
  have hpos : ImageValidPos img1 x y = false := by
    rw [Bool.eq_false_iff, ne_eq, ImageValidPos_iff]
    omega
  simp [ImageMatchSubImage, hpos]

/-- When `img1` has no pixel, `ImageLocateSubImage` does not return a value. -/
theorem locate_of_empty (img1 img2 : Image) (px0 py0 : Int) (s : Option Int × Int × Int)
    (he : img1.width ≤ 0 ∨ img1.height ≤ 0)
    (h : ImageLocateSubImage img1 px0 py0 img2 = some s) : s.1 = none := by
  unfold ImageLocateSubImage at h
  refine forRange_partial (fun _ (s : Option Int × Int × Int) => s.1 = none) _ _ _ s h rfl ?_
  intro k u u' _ hu hb
  refine forRange_partial (fun _ (s : Option Int × Int × Int) => s.1 = none) _ _ _ u' hb hu ?_
  intro m v v' _ hv hb'
  simp only [hv, match_none_of_empty img1 img2 _ _ he, Option.map_none'] at hb'
  cases hb'

/-! ## Rounding to `double` -/

/-- The bit count is not too large, whatever the bound on the steps: a number
of `b >= 1` bits is at least `2^(b-1)`. -/
theorem bitLenAux_lower (fuel : Nat) : ∀ n, 0 < bitLenAux fuel n →
    2 ^ (bitLenAux fuel n - 1) ≤ n := by
  induction fuel with
  | zero => intro n h; simp [bitLenAux] at h
  | succ f ih =>
    intro n h
    unfold bitLenAux at h ⊢
    by_cases h0 : n = 0
    · simp [h0] at h
    · rw [if_neg h0] at h ⊢
      by_cases h64 : n < 2 ^ 64
      · rw [if_pos h64]
        rw [Nat.add_sub_cancel]
        by_cases hz : bitLenAux f (n / 2) = 0
        · rw [hz]; simp; omega
        · have := ih (n / 2) (Nat.pos_of_ne_zero hz)
          have e : bitLenAux f (n / 2) = (bitLenAux f (n / 2) - 1) + 1 := by omega
          rw [e, pow_succ]
          omega
      · rw [if_neg h64]
        have h64' : 2 ^ 64 ≤ n := not_lt.mp h64
        by_cases hz : bitLenAux f (n / 2 ^ 64) = 0
        · rw [hz]
          calc 2 ^ (0 + 64 - 1) ≤ 2 ^ 64 := Nat.pow_le_pow_right (by norm_num) (by norm_num)
            _ ≤ n := h64'
        · have := ih (n / 2 ^ 64) (Nat.pos_of_ne_zero hz)
          have e : bitLenAux f (n / 2 ^ 64) + 64 - 1 = (bitLenAux f (n / 2 ^ 64) - 1) + 64 := by
            omega
          rw [e, pow_add]
          calc 2 ^ (bitLenAux f (n / 2 ^ 64) - 1) * 2 ^ 64 ≤ n / 2 ^ 64 * 2 ^ 64 :=
                Nat.mul_le_mul_right _ this
            _ ≤ n := Nat.div_mul_le_self n (2 ^ 64)

/-- The bit count is not too small when the bound on the steps is at least the
number. -/
theorem bitLenAux_upper (fuel : Nat) : ∀ n, n ≤ fuel → n < 2 ^ bitLenAux fuel n := by
  induction fuel with
  | zero => intro n h; simp [bitLenAux]; omega
  | succ f ih =>
    intro n h
    unfold bitLenAux
    by_cases h0 : n = 0
    · simp [h0]
    · rw [if_neg h0]
      by_cases h64 : n < 2 ^ 64
      · rw [if_pos h64]
        have := ih (n / 2) (by omega)
        rw [pow_succ]
        omega
      · rw [if_neg h64]
        have h64' : 2 ^ 64 ≤ n := not_lt.mp h64
        have hlt : n / 2 ^ 64 < n := Nat.div_lt_self (by omega) (by norm_num)
        have := ih (n / 2 ^ 64) (by omega)
        rw [pow_add]
        have h2 : n < (n / 2 ^ 64 + 1) * 2 ^ 64 := by
          have := Nat.div_add_mod n (2 ^ 64)
          have := Nat.mod_lt n (show 0 < 2 ^ 64 by norm_num)
          linarith
        calc n < (n / 2 ^ 64 + 1) * 2 ^ 64 := h2
          _ ≤ 2 ^ bitLenAux f (n / 2 ^ 64) * 2 ^ 64 := Nat.mul_le_mul_right _ this

/-- `bitLen M` is the number of bits of `M`:
`2^(bitLen M - 1) <= M < 2^(bitLen M)`. -/
theorem bitLen_lower (M : Nat) (h : 0 < bitLen M) : 2 ^ (bitLen M - 1) ≤ M :=
  bitLenAux_lower M M h

theorem bitLen_upper (M : Nat) : M < 2 ^ bitLen M := bitLenAux_upper M M le_rfl

theorem bitLen_le_of_lt (M b : Nat) (h : M < 2 ^ b) : bitLen M ≤ b := by
  by_contra hc
  have h1 := bitLen_lower M (by omega)
  have : 2 ^ b ≤ 2 ^ (bitLen M - 1) := Nat.pow_le_pow_right (by norm_num) (by omega)
  omega

theorem roundShift_le (M k : Nat) : roundShift M k ≤ M / 2 ^ k + 1 := by
  unfold roundShift
  split <;> omega

/-- A value with at most 53 significant bits and no bit below `2^-1074` is a
`double`: rounding returns it. -/
theorem roundNat_exact (M s : Nat) (hM : M < 2 ^ 53) (hs : s ≤ 1074) :
    roundNat M s = M * 2 ^ (1074 - s) := by
  have := bitLen_le_of_lt M 53 hM
  unfold roundNat dropBits
  rw [if_pos]
  omega

/-- The rounding error, from above. -/
theorem roundNat_le (M s : Nat) :
    (roundNat M s : ℚ) / 2 ^ 1074 ≤ (M : ℚ) / 2 ^ s * (1 + 1 / 2 ^ 52) + 1 / 2 ^ 1074 := by
  have hx : (0 : ℚ) ≤ (M : ℚ) / 2 ^ s := by positivity
  unfold roundNat
  by_cases hk : dropBits M s ≤ 0
  · rw [if_pos hk]
    have hs : s ≤ 1074 := by unfold dropBits at hk; omega
    have e : ((M * 2 ^ (1074 - s) : Nat) : ℚ) / 2 ^ 1074 = (M : ℚ) / 2 ^ s := by
      have : (2 : ℚ) ^ 1074 = 2 ^ (1074 - s) * 2 ^ s := by
        rw [← pow_add]; congr 1; omega
      rw [this]
      push_cast
      field_simp
      ring
    rw [e]
    have : (0 : ℚ) ≤ (M : ℚ) / 2 ^ s * (1 / 2 ^ 52) := by positivity
    have : (0 : ℚ) ≤ 1 / 2 ^ 1074 := by positivity
    linarith
  · rw [if_neg hk]
    obtain ⟨K, hK⟩ : ∃ K : Nat, dropBits M s = (K : Int) := ⟨(dropBits M s).toNat, by omega⟩
    have hKpos : 0 < K := by omega
    rw [hK, Int.toNat_ofNat]
    have hKs : s ≤ K + 1074 := by unfold dropBits at hK; omega
    have hq : (roundShift M K : ℚ) * 2 ^ K ≤ (M : ℚ) + 2 ^ K := by
      have h1 := roundShift_le M K
      have h2 := Nat.div_mul_le_self M (2 ^ K)
      have h3 : roundShift M K * 2 ^ K ≤ M + 2 ^ K := by
        calc roundShift M K * 2 ^ K ≤ (M / 2 ^ K + 1) * 2 ^ K := Nat.mul_le_mul_right _ h1
          _ = M / 2 ^ K * 2 ^ K + 2 ^ K := by ring
          _ ≤ M + 2 ^ K := by omega
      exact_mod_cast h3
    have e : ((roundShift M K * 2 ^ (K + 1074 - s) : Nat) : ℚ) / 2 ^ 1074 =
        (roundShift M K : ℚ) * 2 ^ K / 2 ^ s := by
      have : (2 : ℚ) ^ (K + 1074 - s) * 2 ^ s = 2 ^ K * 2 ^ 1074 := by
        rw [← pow_add, ← pow_add]; congr 1; omega
      push_cast
      field_simp
      linear_combination (roundShift M K : ℚ) * this
    rw [e]
    have hstep : (2 : ℚ) ^ K / 2 ^ s ≤ (M : ℚ) / 2 ^ s * (1 / 2 ^ 52) + 1 / 2 ^ 1074 := by
      have hcase : dropBits M s = (bitLen M : Int) - 53 ∨ dropBits M s = (s : Int) - 1074 := by
        unfold dropBits
        rcases le_total ((bitLen M : Int) - 53) ((s : Int) - 1074) with h | h
        · right; exact max_eq_right h
        · left; exact max_eq_left h
      rcases hcase with h | h
      · have hb : bitLen M = K + 53 := by omega
        have hl := bitLen_lower M (by omega)
        rw [hb] at hl
        have hl' : (2 : ℚ) ^ K * 2 ^ 52 ≤ (M : ℚ) := by
          have : 2 ^ K * 2 ^ 52 ≤ M := by
            rw [← pow_add]; exact hl
          exact_mod_cast this
        have h1 : (2 : ℚ) ^ K / 2 ^ s ≤ (M : ℚ) / 2 ^ s * (1 / 2 ^ 52) := by
          rw [div_le_iff₀ (by positivity)]
          have : (M : ℚ) / 2 ^ s * (1 / 2 ^ 52) * 2 ^ s = (M : ℚ) / 2 ^ 52 := by
            field_simp
            ring
          rw [this, le_div_iff₀ (by positivity)]
          exact hl'
        have : (0 : ℚ) ≤ 1 / 2 ^ 1074 := by positivity
        linarith
      · have hs : s = K + 1074 := by omega
        have h1 : (2 : ℚ) ^ K / 2 ^ s = 1 / 2 ^ 1074 := by
          rw [hs, pow_add]
          field_simp
        have : (0 : ℚ) ≤ (M : ℚ) / 2 ^ s * (1 / 2 ^ 52) := by positivity
        linarith
    have : (roundShift M K : ℚ) * 2 ^ K / 2 ^ s ≤ ((M : ℚ) + 2 ^ K) / 2 ^ s :=
      div_le_div_of_nonneg_right hq (by positivity)
    have e2 : ((M : ℚ) + 2 ^ K) / 2 ^ s = (M : ℚ) / 2 ^ s + 2 ^ K / 2 ^ s := by ring
    linarith

/-- `roundShift M k` is an integer nearest to `M / 2^k`: it differs from it by
half a unit at most. -/
theorem roundShift_nearest (M k : Nat) :
    2 * (roundShift M k * 2 ^ k) ≤ 2 * M + 2 ^ k ∧
    2 * M ≤ 2 * (roundShift M k * 2 ^ k) + 2 ^ k := by
  have h1 := Nat.div_add_mod M (2 ^ k)
  have h2 := Nat.mod_lt M (show 0 < 2 ^ k by positivity)
  unfold roundShift
  generalize 2 ^ k = P at *
  have h4 : M / P * P = P * (M / P) := Nat.mul_comm _ _
  have h5 : (M / P + 1) * P = P * (M / P) + P := by rw [Nat.add_mul, Nat.one_mul, h4]
  split
  · rename_i h
    rw [h5]
    generalize P * (M / P) = PQ at *
    rcases h with h | ⟨h, _⟩ <;> constructor <;> omega
  · rename_i h
    rw [h4]
    have : 2 * (M % P) ≤ P := by
      by_contra hc
      exact h (Or.inl (by omega))
    generalize P * (M / P) = PQ at *
    constructor <;> omega

theorem cast_two_pow (k : Nat) : ((2 ^ k : Nat) : ℚ) = (2 : ℚ) ^ k := by
  rw [Nat.cast_pow, Nat.cast_ofNat]

theorem Double.scale_cast : (Double.scale : ℚ) = (2 : ℚ) ^ 1074 := cast_two_pow 1074

theorem Double.scale_pos : 0 < Double.scale := by
  unfold Double.scale
  positivity

theorem Double.scale_cast_pos : (0 : ℚ) < (Double.scale : ℚ) := by
  exact_mod_cast Double.scale_pos

theorem Double.scale_int_pos : (0 : Int) < (Double.scale : Int) := by
  exact_mod_cast Double.scale_pos

/-- Rounding is to nearest: when `k` bits are dropped, the rounded value
differs from the exact value `M / 2^s` by half a unit in the last place,
`2^(k - s) / 2`, at most (both sides are scaled by `2^s * 2^1074`). -/
theorem roundNat_nearest (M s k : Nat) (hk : dropBits M s = (k : Int)) (hpos : 0 < k) :
    2 * (roundNat M s * 2 ^ s) ≤ 2 * (M * 2 ^ 1074) + 2 ^ k * 2 ^ 1074 ∧
    2 * (M * 2 ^ 1074) ≤ 2 * (roundNat M s * 2 ^ s) + 2 ^ k * 2 ^ 1074 := by
  have hks : s ≤ k + 1074 := by unfold dropBits at hk; omega
  have e : roundNat M s * 2 ^ s = roundShift M k * 2 ^ k * 2 ^ 1074 := by
    unfold roundNat
    rw [if_neg (by omega), hk, Int.toNat_ofNat, Nat.mul_assoc, ← pow_add, Nat.mul_assoc,
      ← pow_add]
    congr 2
    omega
  obtain ⟨h1, h2⟩ := roundShift_nearest M k
  rw [e]
  generalize roundShift M k * 2 ^ k = Q at *
  generalize 2 ^ k = P at *
  generalize 2 ^ 1074 = U at *
  constructor
  · calc 2 * (Q * U) = 2 * Q * U := by ring
      _ ≤ (2 * M + P) * U := Nat.mul_le_mul_right U h1
      _ = 2 * (M * U) + P * U := by ring
  · calc 2 * (M * U) = 2 * M * U := by ring
      _ ≤ (2 * Q + P) * U := Nat.mul_le_mul_right U h2
      _ = 2 * (Q * U) + P * U := by ring

theorem Double.round_natCast (M s : Nat) :
    Double.round (M : Int) s =
      if Double.huge ≤ roundNat M s then .inf false else .finite (roundNat M s : Int) := by
  unfold Double.round
  have h : ¬ ((M : Int) < 0) := by omega
  simp only [Int.natAbs_ofNat, ge_iff_le, h, decide_False, if_false]

theorem Double.round_of_nonneg (M : Int) (s : Nat) (hM : 0 ≤ M) :
    Double.round M s = .inf false ∨ ∃ n : Int, Double.round M s = .finite n ∧ 0 ≤ n := by
  obtain ⟨m, rfl⟩ := Int.eq_ofNat_of_zero_le hM
  rw [Double.round_natCast]
  split
  · exact Or.inl rfl
  · exact Or.inr ⟨_, rfl, Int.natCast_nonneg _⟩

theorem Double.val_finite (n : Int) : Double.val (.finite n) = (n : ℚ) / (Double.scale : ℚ) :=
  rfl

/-- Rounding a non-negative value `x = M / 2^s` of moderate size `x <= B`: the
result is finite and non-negative, and exceeds `x` by `(B + 1) * 2^-52` at
most. -/
theorem Double.round_val_le (M : Int) (s : Nat) (B : ℚ) (hM : 0 ≤ M)
    (hb : (M : ℚ) / 2 ^ s ≤ B) (hB : B ≤ 1024) :
    ∃ n : Int, Double.round M s = .finite n ∧ 0 ≤ n ∧
      Double.val (.finite n) ≤ (M : ℚ) / 2 ^ s + (B + 1) * (1 / 2 ^ 52) := by
  obtain ⟨m, rfl⟩ := Int.eq_ofNat_of_zero_le hM
  have hr := roundNat_le m s
  have hx : (0 : ℚ) ≤ (m : ℚ) / 2 ^ s := by positivity
  have heta : (1 : ℚ) / 2 ^ 1074 ≤ 1 / 2 ^ 52 :=
    one_div_le_one_div_of_le (by positivity) (pow_le_pow_right₀ (by norm_num) (by norm_num))
  have he : (1 : ℚ) / 2 ^ 52 ≤ 1 := by
    rw [div_le_one (by positivity)]
    exact one_le_pow₀ (by norm_num)
  have he0 : (0 : ℚ) ≤ 1 / 2 ^ 52 := by positivity
  simp only [Int.cast_natCast] at hb ⊢
  have hxe : (m : ℚ) / 2 ^ s * (1 / 2 ^ 52) ≤ B * (1 / 2 ^ 52) :=
    mul_le_mul_of_nonneg_right hb he0
  generalize (1 : ℚ) / 2 ^ 52 = ε at *
  have hle : (roundNat m s : ℚ) / 2 ^ 1074 ≤ (m : ℚ) / 2 ^ s + (B + 1) * ε := by
    linarith
  have hBe : B * ε ≤ 1024 := by
    have h1 : B * ε ≤ B * 1 := mul_le_mul_of_nonneg_left he (le_trans hx hb)
    linarith
  have hsmall : (roundNat m s : ℚ) / 2 ^ 1074 < 2 ^ 1024 := by
    have h2 : (2049 : ℚ) < 2 ^ 1024 := by
      calc (2049 : ℚ) < 2 ^ 12 := by norm_num
        _ ≤ 2 ^ 1024 := pow_le_pow_right₀ (by norm_num) (by norm_num)
    linarith
  have hfin : ¬ Double.huge ≤ roundNat m s := by
    intro hc
    have hc' : (2 : ℚ) ^ 2098 ≤ (roundNat m s : ℚ) := by
      rw [← cast_two_pow]
      exact Nat.cast_le.mpr hc
    have e : (2 : ℚ) ^ 2098 = 2 ^ 1024 * 2 ^ 1074 := by rw [← pow_add]
    rw [e] at hc'
    rw [div_lt_iff₀ (by positivity)] at hsmall
    exact absurd hc' (not_le.mpr hsmall)
  rw [Double.round_natCast, if_neg hfin]
  refine ⟨_, rfl, Int.natCast_nonneg _, ?_⟩
  rw [Double.val_finite, Double.scale_cast]
  simpa using hle

theorem Double.val_scaled (p : Int) :
    Double.val (.finite (p * (Double.scale : Int))) = (p : ℚ) := by
  have := Double.scale_cast_pos
  rw [Double.val_finite]
  push_cast
  field_simp

theorem Double.val_one : Double.val Double.one = 1 := by
  have := Double.val_scaled 1
  rw [one_mul] at this
  simpa using this

theorem Double.val_neg (a : Int) : Double.val (.finite (-a)) = -Double.val (.finite a) := by
  rw [Double.val_finite, Double.val_finite]
  push_cast
  ring

theorem Double.val_nonneg (n : Int) (h : 0 ≤ n) : 0 ≤ Double.val (.finite n) := by
  rw [Double.val_finite]
  have : (0 : ℚ) ≤ (n : ℚ) := by exact_mod_cast h
  have := Double.scale_cast_pos
  positivity

/-- The value of a literal. -/
theorem Double.val_lit (m : Int) (k : Nat) (hk : k ≤ 1074) :
    Double.val (Double.lit m k) = (m : ℚ) / 2 ^ k := by
  unfold Double.lit
  rw [Double.val_finite, Double.scale_cast]
  have : (2 : ℚ) ^ 1074 = 2 ^ (1074 - k) * 2 ^ k := by
    rw [← pow_add]; congr 1; omega
  rw [this, Int.cast_mul, Int.cast_natCast, cast_two_pow]
  field_simp
  ring

/-- The integral part of a finite double. -/
theorem Double.floor_val (n : Int) :
    ⌊Double.val (.finite n)⌋ = n / (Double.scale : Int) := by
  rw [Double.val_finite, Rat.floor_intCast_div_natCast]

theorem mul_two_pow_lt (p k e : Nat) (hp : p < 2 ^ 53) (hk : 53 + k ≤ e) :
    p * 2 ^ k < 2 ^ e := by
  calc p * 2 ^ k < 2 ^ 53 * 2 ^ k := Nat.mul_lt_mul_of_pos_right hp (by positivity)
    _ = 2 ^ (53 + k) := by rw [← pow_add]
    _ ≤ 2 ^ e := Nat.pow_le_pow_right (by norm_num) hk

theorem Double.scale_eq : Double.scale = 2 ^ 1074 := by
  unfold Double.scale
  rfl

theorem Double.lt_huge (p k : Nat) (hp : p < 2 ^ 53) (hk : k ≤ 2045) :
    p * 2 ^ k < Double.huge := by
  unfold Double.huge
  exact mul_two_pow_lt p k 2098 hp (by omega)

/-- Conversion of a small non-negative integer to `double` is exact. -/
theorem Double.ofInt_natCast (p : Nat) (hp : p < 2 ^ 53) :
    Double.ofInt (p : Int) = .finite ((p : Int) * (Double.scale : Int)) := by
  unfold Double.ofInt
  rw [Double.round_natCast, roundNat_exact p 0 hp (by omega),
    if_neg (not_le.mpr (Double.lt_huge p _ hp (by omega))), Nat.sub_zero, ← Double.scale_eq,
    Nat.cast_mul]

theorem Double.ofInt_byte (v : Int) (h0 : 0 ≤ v) (h1 : v ≤ 255) :
    Double.ofInt v = .finite (v * (Double.scale : Int)) := by
  obtain ⟨m, rfl⟩ := Int.eq_ofNat_of_zero_le h0
  apply Double.ofInt_natCast
  have : m < 256 := by omega
  calc m < 256 := this
    _ ≤ 2 ^ 53 := by norm_num

theorem Double.mul_val_le (x y : Int) (B : ℚ) (hx : 0 ≤ x) (hy : 0 ≤ y)
    (hb : Double.val (.finite x) * Double.val (.finite y) ≤ B) (hB : B ≤ 1024) :
    ∃ n : Int, Double.mul (.finite x) (.finite y) = .finite n ∧ 0 ≤ n ∧
      Double.val (.finite n) ≤
        Double.val (.finite x) * Double.val (.finite y) + (B + 1) * (1 / 2 ^ 52) := by
  have e : ((x * y : Int) : ℚ) / 2 ^ 2148 = Double.val (.finite x) * Double.val (.finite y) := by
    rw [Double.val_finite, Double.val_finite, Double.scale_cast]
    have : (2 : ℚ) ^ 2148 = 2 ^ 1074 * 2 ^ 1074 := by rw [← pow_add]
    rw [this]
    push_cast
    field_simp
  rw [← e] at hb ⊢
  exact Double.round_val_le (x * y) 2148 B (mul_nonneg hx hy) hb hB

theorem Double.add_val_le (x y : Int) (B : ℚ) (h : 0 ≤ x + y)
    (hb : Double.val (.finite x) + Double.val (.finite y) ≤ B) (hB : B ≤ 1024) :
    ∃ n : Int, Double.add (.finite x) (.finite y) = .finite n ∧ 0 ≤ n ∧
      Double.val (.finite n) ≤
        Double.val (.finite x) + Double.val (.finite y) + (B + 1) * (1 / 2 ^ 52) := by
  have e : ((x + y : Int) : ℚ) / 2 ^ 1074 = Double.val (.finite x) + Double.val (.finite y) := by
    rw [Double.val_finite, Double.val_finite, Double.scale_cast]
    push_cast
    ring
  rw [← e] at hb ⊢
  exact Double.round_val_le (x + y) 1074 B h hb hB

/-- A product of non-negative doubles is a non-negative number, `+inf` or a
NaN. -/
theorem Double.mul_nonneg_cases (a b : Double)
    (ha : a = .inf false ∨ ∃ n : Int, a = .finite n ∧ 0 ≤ n)
    (hb : b = .inf false ∨ ∃ n : Int, b = .finite n ∧ 0 ≤ n) :
    Double.mul a b = .nan ∨ Double.mul a b = .inf false ∨
      ∃ n : Int, Double.mul a b = .finite n ∧ 0 ≤ n := by
  rcases ha with rfl | ⟨x, rfl, hx⟩ <;> rcases hb with rfl | ⟨y, rfl, hy⟩
  · right; left; rfl
  · by_cases h : y = 0
    · left; simp [Double.mul, h]
    · right; left
      have : ¬ y < 0 := by omega
      simp [Double.mul, h, this]
  · by_cases h : x = 0
    · left; simp [Double.mul, h]
    · right; left
      have : ¬ x < 0 := by omega
      simp [Double.mul, h, this]
  · right
    rcases Double.round_of_nonneg (x * y) 2148 (mul_nonneg hx hy) with h | h
    · left; exact h
    · right; exact h

theorem Double.nonneg_of_le_zero (f : Double) (hf : Double.le Double.zero f = true) :
    f = .inf false ∨ ∃ n : Int, f = .finite n ∧ 0 ≤ n := by
  cases f with
  | finite n =>
    right
    refine ⟨n, rfl, ?_⟩
    simpa [Double.le, Double.zero] using hf
  | inf neg =>
    left
    simp [Double.le, Double.zero] at hf
    rw [hf]
  | nan => simp [Double.le, Double.zero] at hf

theorem doubleToUint8_finite (n : Int) (h0 : 0 ≤ n) (h1 : n / (Double.scale : Int) ≤ 255) :
    doubleToUint8 (.finite n) = some (n / (Double.scale : Int)).toNat := by
  have hpos : (0 : Int) ≤ (Double.scale : Int) := Int.natCast_nonneg _
  have hq : 0 ≤ n / (Double.scale : Int) := Int.ediv_nonneg h0 hpos
  simp only [doubleToUint8, Double.trunc, Option.some_bind, truncToUint8]
  rw [Int.tdiv_eq_ediv h0 hpos, if_pos ⟨hq, h1⟩]

/-! ## The arithmetic on known values -/

set_option exponentiation.threshold 5000 in
set_option maxRecDepth 4000 in
/-- The sum `0.1 + 0.2` is the double `0.30000000000000004`
(`1351079888211149 / 2^52`), not the double `0.3`. -/
theorem Double.add_tenth_fifth :
    Double.add (Double.lit 3602879701896397 55) (Double.lit 3602879701896397 54) =
      Double.lit 1351079888211149 52 := by
  decide

set_option exponentiation.threshold 5000 in
set_option maxRecDepth 4000 in
/-- Ties go to the even neighbour: `2^53 + 1` is `2^53`, and `(2^53 + 2) + 1`
is `2^53 + 4`. -/
theorem Double.add_ties_even :
    Double.add (Double.ofInt 9007199254740992) (Double.ofInt 1) =
      Double.ofInt 9007199254740992 ∧
    Double.add (Double.ofInt 9007199254740994) (Double.ofInt 1) =
      Double.ofInt 9007199254740996 := by
  decide

set_option exponentiation.threshold 5000 in
set_option maxRecDepth 4000 in
/-- Overflow and gradual underflow: twice the largest double is `+inf`; half the
smallest positive double is 0 and three quarters of it is itself. -/
theorem Double.mul_range_ends :
    Double.mul (Double.finite (9007199254740991 * ((2 ^ 2045 : Nat) : Int))) (Double.ofInt 2) =
      Double.inf false ∧
    Double.mul (Double.finite 1) (Double.lit 1 1) = Double.finite 0 ∧
    Double.mul (Double.finite 1) (Double.lit 3 2) = Double.finite 1 := by
  decide

/-! ## Brightening -/

/-- The product of a pixel and a factor `>= 0.0` is a non-negative number,
`+inf` or a NaN. -/
theorem brighten_product_cases (p : Nat) (factor : Double)
    (hf : Double.le Double.zero factor = true) :
    Double.mul (Double.ofInt p) factor = .nan ∨
    Double.mul (Double.ofInt p) factor = .inf false ∨
      ∃ n : Int, Double.mul (Double.ofInt p) factor = .finite n ∧ 0 ≤ n :=
  Double.mul_nonneg_cases _ _ (Double.round_of_nonneg _ 0 (Int.natCast_nonneg p))
    (Double.nonneg_of_le_zero factor hf)

/-- The value that `ImageBrighten` stores, in the cases of the product. -/
theorem brightenValue_cases (maxval : Int) (factor : Double) (p : Nat)
    (hm0 : 0 < maxval) (hm1 : maxval ≤ 255) (hf : Double.le Double.zero factor = true) :
    (Double.le (Double.mul (Double.ofInt p) factor) (Double.ofInt maxval) = false ∧
      (Double.mul (Double.ofInt p) factor = .nan ∨
        Double.mul (Double.ofInt p) factor = .inf false ∨
        ∃ n : Int, Double.mul (Double.ofInt p) factor = .finite n ∧
          maxval * (Double.scale : Int) < n)) ∨
    (Double.le (Double.mul (Double.ofInt p) factor) (Double.ofInt maxval) = true ∧
      ∃ n : Int, Double.mul (Double.ofInt p) factor = .finite n ∧ 0 ≤ n ∧
        n ≤ maxval * (Double.scale : Int) ∧
        doubleToUint8 (Double.mul (Double.ofInt p) factor) =
          some (n / (Double.scale : Int)).toNat) := by
  rw [Double.ofInt_byte maxval (le_of_lt hm0) hm1]
  rcases brighten_product_cases p factor hf with h | h | ⟨n, h, hn⟩
  · left
    rw [h]
    exact ⟨rfl, Or.inl rfl⟩
  · left
    rw [h]
    exact ⟨rfl, Or.inr (Or.inl rfl)⟩
  · rw [h]
    by_cases hle : n ≤ maxval * (Double.scale : Int)
    · right
      have hq : n / (Double.scale : Int) ≤ 255 :=
        le_trans (Int.ediv_le_of_le_mul Double.scale_int_pos hle) hm1
      exact ⟨by simp [Double.le, hle], n, rfl, hn, hle, doubleToUint8_finite n hn hq⟩
    · left
      exact ⟨by simp [Double.le, hle], Or.inr (Or.inr ⟨n, rfl, not_le.mp hle⟩)⟩

/-- The result of `ImageBrighten` on a well-formed image. -/
theorem ImageBrighten_spec (img : Image) (factor : Double) (hwf : img.wf)
    (hf : Double.le Double.zero factor = true) :
    ∃ r, ImageBrighten img factor = some r ∧ r.width = img.width ∧ r.height = img.height ∧
      r.maxval = img.maxval ∧
      r.pixel = img.pixel.map (brightenValue img.maxval factor) := by
  obtain ⟨_, _, hm0, hm1, hlen, _⟩ := hwf
  unfold PixMax at hm1
  unfold ImageBrighten
  rw [if_pos hf]
  apply pointLoop_spec img
  · intro i s p hm hp
    simp only [hp, Option.some_bind, hm]
    unfold brightenValue
    rcases brightenValue_cases img.maxval factor p hm0 hm1 hf with ⟨hle, _⟩ | ⟨hle, n, _, _, _, hc⟩
    · simp only [hle, Bool.false_eq_true, if_false]
    · simp only [hle, if_true, hc, Option.some_bind, Option.getD_some]
  · omega

/-- The value that `ImageBrighten` stores is the integral part of the product,
clamped to `[0, maxval]`; an infinite or NaN product gives `maxval`. -/
theorem brightenValue_eq (maxval : Int) (factor : Double) (p : Nat)
    (hm0 : 0 < maxval) (hm1 : maxval ≤ 255) (hf : Double.le Double.zero factor = true) :
    (brightenValue maxval factor p : Int) =
      if (Double.mul (Double.ofInt p) factor).isFinite then
        max 0 (min ⌊(Double.mul (Double.ofInt p) factor).val⌋ maxval)
      else maxval := by
  have hmv : (toUint8 maxval : Int) = maxval := toUint8_of_byte _ (le_of_lt hm0) hm1
  unfold brightenValue
  rcases brightenValue_cases maxval factor p hm0 hm1 hf with
    ⟨hle, h | h | ⟨n, h, hn⟩⟩ | ⟨hle, n, h, hn0, hn1, hc⟩
  · rw [hle, h]
    simp only [Bool.false_eq_true, if_false, Double.isFinite, hmv]
  · rw [hle, h]
    simp only [Bool.false_eq_true, if_false, Double.isFinite, hmv]
  · have hfl : maxval ≤ n / (Double.scale : Int) :=
      Int.le_ediv_of_mul_le Double.scale_int_pos (le_of_lt hn)
    rw [hle, h]
    simp only [Bool.false_eq_true, if_false, Double.isFinite, if_true, hmv, Double.floor_val]
    rw [min_eq_right hfl, max_eq_right (le_of_lt hm0)]
  · have hfl : n / (Double.scale : Int) ≤ maxval :=
      Int.ediv_le_of_le_mul Double.scale_int_pos hn1
    have hq : 0 ≤ n / (Double.scale : Int) :=
      Int.ediv_nonneg hn0 (le_of_lt Double.scale_int_pos)
    rw [hle, hc, h]
    simp only [if_true, Option.getD_some, Double.isFinite, Double.floor_val]
    rw [min_eq_left hfl, max_eq_right hq]
    omega

set_option exponentiation.threshold 5000 in
set_option maxRecDepth 4000 in
/-- With the factor `1.2` (the double `5404319552844595 / 2^52`, slightly below
1.2) the pixel 5 becomes 6: the product is rounded to the double 6.0 before it
is truncated, although the exact product of 5 and that double is below 6. -/
theorem ImageBrighten_one_point_two :
    ImageBrighten ⟨1, 1, 255, [5]⟩ (Double.lit 5404319552844595 52) =
      some ⟨1, 1, 255, [6]⟩ ∧
    ⌊(5 : ℚ) * Double.val (Double.lit 5404319552844595 52)⌋ = 5 := by
  refine ⟨by decide, ?_⟩
  rw [Double.val_lit _ _ (by norm_num), Int.floor_eq_iff]
  norm_num

/-! ## The filling double loop: proofs -/

theorem FillInv.congrDone {src dst : Image} {dI : Int → Int → Int} {F : Int → Int → Nat}
    {Done Done' : Int → Int → Prop} {s : Image × Image}
    (h : FillInv src dst dI F Done s) (he : ∀ i j, Done' i j ↔ Done i j) :
    FillInv src dst dI F Done' s :=
  { src_eq := h.src_eq, width_eq := h.width_eq, height_eq := h.height_eq,
    maxval_eq := h.maxval_eq, length_eq := h.length_eq,
    filled := fun i j hd => h.filled i j ((he i j).mp hd),
    frame := fun k hk => h.frame k (fun i j hd => hk i j ((he i j).mpr hd)),
    bytes := h.bytes }

theorem fill_step (src dst : Image) (dI : Int → Int → Int) (F : Int → Int → Nat)
    (Done : Int → Int → Prop) (s : Image × Image) (i j : Int)
    (hinv : FillInv src dst dI F Done s)
    (hd : 0 ≤ dI i j ∧ dI i j < dst.pixel.length) (hF : F i j < 256)
    (hfresh : ∀ i' j', Done i' j' → dI i' j' ≠ dI i j) :
    ∃ s', (wr s.2.pixel (dI i j) (F i j)).map (fun px => (s.1, { s.2 with pixel := px })) =
        some s' ∧
      FillInv src dst dI F (fun i' j' => Done i' j' ∨ (i' = i ∧ j' = j)) s' := by
  have hlen : dI i j < s.2.pixel.length := by rw [hinv.length_eq]; exact hd.2
  refine ⟨(s.1, { s.2 with pixel := s.2.pixel.set (dI i j).toNat (F i j) }), ?_, ?_⟩
  · simp [wr_of_lt _ _ _ hd.1 hlen]
  · refine ⟨hinv.src_eq, hinv.width_eq, hinv.height_eq, hinv.maxval_eq, ?_, ?_, ?_, ?_⟩
    · simp [hinv.length_eq]
    · intro i' j' hdone
      show rd (s.2.pixel.set (dI i j).toNat (F i j)) (dI i' j') = some (F i' j')
      rcases hdone with hdone | ⟨hi, hj⟩
      · rw [rd_set_ne _ _ _ _ hd.1 (hfresh i' j' hdone)]
        exact hinv.filled i' j' hdone
      · subst hi; subst hj
        exact rd_set_self _ _ _ hd.1 hlen
    · intro k hk
      show rd (s.2.pixel.set (dI i j).toNat (F i j)) k = rd dst.pixel k
      rw [rd_set_ne _ _ _ _ hd.1 (hk i j (Or.inr ⟨rfl, rfl⟩))]
      exact hinv.frame k (fun i' j' hdone => hk i' j' (Or.inl hdone))
    · exact bytes_set _ _ _ hinv.bytes hF

/-- The specification of a filling double loop with `rows` outer and `cols`
inner iterations, for a body that, in every state reached, stores `F i j` at
index `dI i j` of the destination. -/
theorem fill2D_spec (src dst : Image) (rows cols : Nat) (dI : Int → Int → Int)
    (F : Int → Int → Nat) (bnd : Image × Image → Nat)
    (body : Int → Int → Image × Image → Option (Image × Image))
    (hbnd : ∀ s : Image × Image, s.1 = src → bnd s = cols)
    (hbody : ∀ (i j : Int) (s : Image × Image) (Done : Int → Int → Prop),
      0 ≤ i → i < rows → 0 ≤ j → j < cols → FillInv src dst dI F Done s →
      (∀ i' j', Done i' j' → dI i' j' ≠ dI i j) →
      body i j s = (wr s.2.pixel (dI i j) (F i j)).map
        (fun px => (s.1, { s.2 with pixel := px })))
    (hd : ∀ i j : Int, 0 ≤ i → i < rows → 0 ≤ j → j < cols →
      0 ≤ dI i j ∧ dI i j < dst.pixel.length)
    (hinj : ∀ i j i' j' : Int, 0 ≤ i → i < rows → 0 ≤ j → j < cols →
      0 ≤ i' → i' < rows → 0 ≤ j' → j' < cols → dI i j = dI i' j' → i = i' ∧ j = j')
    (hF : ∀ i j : Int, 0 ≤ i → i < rows → 0 ≤ j → j < cols → F i j < 256)
    (hdb : ∀ p ∈ dst.pixel, p < 256) :
    ∃ s', forRange rows (fun i s => forRange (bnd s) (fun j s => body i j s) s)
        (src, dst) = some s' ∧
      FillInv src dst dI F (fun i j => 0 ≤ i ∧ i < rows ∧ 0 ≤ j ∧ j < cols) s' := by
  apply forRange_inv
    (fun k s => FillInv src dst dI F (fun i j => 0 ≤ i ∧ i < (k : Int) ∧ 0 ≤ j ∧ j < cols) s)
  · exact ⟨rfl, rfl, rfl, rfl, rfl, fun i j h => by omega, fun k _ => rfl, hdb⟩
  · intro k t hk hP
    have hb := hbnd t hP.src_eq
    show ∃ t', forRange (bnd t) _ t = some t' ∧ _
    rw [hb]
    have hin := forRange_inv
      (fun m u => FillInv src dst dI F
        (fun i j => (0 ≤ i ∧ i < (k : Int) ∧ 0 ≤ j ∧ j < cols) ∨
          (i = (k : Int) ∧ 0 ≤ j ∧ j < (m : Int))) u)
      cols (fun j s => body (k : Int) j s) t
      (hP.congrDone (fun i j => by constructor <;> intro h <;> omega))
      (by
        intro m u hm hQ
        have hkr : ((k : Int)) < rows := by exact_mod_cast hk
        have hmc : ((m : Int)) < cols := by exact_mod_cast hm
        have hfresh : ∀ i' j' : Int, ((0 ≤ i' ∧ i' < (k : Int) ∧ 0 ≤ j' ∧ j' < cols) ∨
            (i' = (k : Int) ∧ 0 ≤ j' ∧ j' < (m : Int))) → dI i' j' ≠ dI (k : Int) (m : Int) := by
          intro i' j' hdone heq
          have := hinj i' j' (k : Int) (m : Int)
          rcases hdone with ⟨h1, h2, h3, h4⟩ | ⟨h1, h2, h3⟩
          · have := this h1 (by omega) h3 h4 (by omega) hkr (by omega) hmc heq
            omega
          · have := this (by omega) (by omega) h2 (by omega) (by omega) hkr (by omega) hmc heq
            omega
        show ∃ t', body (k : Int) (m : Int) u = some t' ∧ _
        rw [hbody (k : Int) (m : Int) u _ (by omega) hkr (by omega) hmc hQ hfresh]
        obtain ⟨u', hu', hQ'⟩ := fill_step src dst dI F _ u (k : Int) (m : Int) hQ
          (hd _ _ (by omega) hkr (by omega) hmc) (hF _ _ (by omega) hkr (by omega) hmc) hfresh
        exact ⟨u', hu', hQ'.congrDone (fun i j => by
          constructor <;> intro h <;> push_cast at h ⊢ <;> omega)⟩)
    obtain ⟨t', ht', hQ⟩ := hin
    exact ⟨t', ht', hQ.congrDone (fun i j => by
      constructor <;> intro h <;> push_cast at h ⊢ <;> omega)⟩

/-! ## Blending -/

/-- For `alpha` in `[0,1]` the blend of two bytes is a finite double between 0
and 256. -/
theorem blend_bounds (alpha : Double) (h0 : Double.le Double.zero alpha = true)
    (h1 : Double.le alpha Double.one = true) (d c : Nat) (hd : d < 256) (hc : c < 256) :
    ∃ n : Int, blend alpha d c = .finite n ∧ 0 ≤ n ∧ n / (Double.scale : Int) ≤ 255 := by
  cases alpha with
  | nan => simp [Double.le] at h0
  | inf neg =>
    simp [Double.le, Double.zero] at h0
    subst h0
    simp [Double.le, Double.one] at h1
  | finite a =>
    have ha0 : 0 ≤ a := by simpa [Double.le, Double.zero] using h0
    have ha1 : a ≤ (Double.scale : Int) := by simpa [Double.le, Double.one] using h1
    have hva0 := Double.val_nonneg a ha0
    have hva1 : Double.val (.finite a) ≤ 1 := by
      rw [Double.val_finite, div_le_one Double.scale_cast_pos]
      exact_mod_cast ha1
    have hone : Double.val (.finite (Double.scale : Int)) = 1 := Double.val_one
    have he0 : (0 : ℚ) ≤ 1 / 2 ^ 52 := by positivity
    have he1 : (1 : ℚ) / 2 ^ 52 ≤ 1 / 1000000 := by norm_num
    -- 1.0 - alpha
    obtain ⟨n1, e1, hn1, b1⟩ := Double.add_val_le (Double.scale : Int) (-a) 1 (by omega)
      (by rw [hone, Double.val_neg]; linarith) (by norm_num)
    rw [hone, Double.val_neg] at b1
    -- the conversions of the two pixels
    have ed := Double.ofInt_byte (d : Int) (by omega) (by omega)
    have ec := Double.ofInt_byte (c : Int) (by omega) (by omega)
    have hvd := Double.val_scaled (d : Int)
    have hvc := Double.val_scaled (c : Int)
    rw [Int.cast_natCast] at hvd hvc
    have hd0 : (0 : ℚ) ≤ (d : ℚ) := by positivity
    have hc0 : (0 : ℚ) ≤ (c : ℚ) := by positivity
    have hd1 : (d : ℚ) ≤ 255 := by
      have : d ≤ 255 := by omega
      exact_mod_cast this
    have hc1 : (c : ℚ) ≤ 255 := by
      have : c ≤ 255 := by omega
      exact_mod_cast this
    have hv1 := Double.val_nonneg n1 hn1
    have hx1 : Double.val (.finite n1) * (d : ℚ) ≤ Double.val (.finite n1) * 255 :=
      mul_le_mul_of_nonneg_left hd1 hv1
    have hx3 : Double.val (.finite a) * (c : ℚ) ≤ Double.val (.finite a) * 255 :=
      mul_le_mul_of_nonneg_left hc1 hva0
    generalize (1 : ℚ) / 2 ^ 52 = ε at *
    -- (1.0 - alpha) * d
    obtain ⟨n2, e2, hn2, b2⟩ := Double.mul_val_le n1 ((d : Int) * (Double.scale : Int)) 256 hn1
      (mul_nonneg (by omega) (Int.natCast_nonneg _))
      (by rw [hvd]; linarith) (by norm_num)
    rw [hvd] at b2
    -- alpha * c
    obtain ⟨n3, e3, hn3, b3⟩ := Double.mul_val_le a ((c : Int) * (Double.scale : Int)) 255 ha0
      (mul_nonneg (by omega) (Int.natCast_nonneg _))
      (by rw [hvc]; linarith) (by norm_num)
    rw [hvc] at b3
    -- the sum
    obtain ⟨n4, e4, hn4, b4⟩ := Double.add_val_le n2 n3 256 (by omega)
      (by linarith) (by norm_num)
    refine ⟨n4, ?_, hn4, ?_⟩
    · unfold blend Double.sub Double.one
      rw [ed, ec]
      show Double.add (Double.mul (Double.add _ (.finite (-a))) _) _ = _
      rw [e1, e2, e3, e4]
    · have hlt : Double.val (.finite n4) < 256 := by linarith
      rw [Double.val_finite, div_lt_iff₀ Double.scale_cast_pos] at hlt
      have hlt' : n4 < 256 * (Double.scale : Int) := by exact_mod_cast hlt
      have := Int.ediv_lt_of_lt_mul Double.scale_int_pos hlt'
      omega

theorem toUint8_lt (v : Int) : toUint8 v < 256 := by
  unfold toUint8
  omega

/-- For `alpha` in `[0,1]` the conversion of the blend to `uint8` is defined. -/
theorem blend_conv (alpha : Double) (h0 : Double.le Double.zero alpha = true)
    (h1 : Double.le alpha Double.one = true) (d c : Nat) (hd : d < 256) (hc : c < 256) :
    ∃ v, doubleToUint8 (blend alpha d c) = some v ∧ v < 256 := by
  obtain ⟨n, hn, hn0, hn1⟩ := blend_bounds alpha h0 h1 d c hd hc
  have hq : 0 ≤ n / (Double.scale : Int) := Int.ediv_nonneg hn0 (le_of_lt Double.scale_int_pos)
  refine ⟨_, by rw [hn]; exact doubleToUint8_finite n hn0 hn1, ?_⟩
  omega

/-- The result of `ImageBlend` on well-formed images when the source fits and
`alpha` is in `[0,1]`: the pair returned is (source, destination after the
call). -/
theorem ImageBlend_spec (img1 : Image) (x y : Int) (img2 : Image) (alpha : Double)
    (hwf1 : img1.wf) (hwf2 : img2.wf)
    (hrect : ImageValidRect img1 x y img2.width img2.height = true)
    (h0 : Double.le Double.zero alpha = true) (h1 : Double.le alpha Double.one = true) :
    ∃ r, ImageBlend img1 x y img2 alpha = some (img2, r) ∧
      r.width = img1.width ∧ r.height = img1.height ∧ r.maxval = img1.maxval ∧
      (r.pixel.length : Int) = r.width * r.height ∧ (∀ p ∈ r.pixel, p < 256) ∧
      (∀ j i : Int, 0 ≤ j → j < img2.width → 0 ≤ i → i < img2.height →
        ∃ d c, img1.pix (x + j) (y + i) = some d ∧ img2.pix j i = some c ∧
          r.pix (x + j) (y + i) = some (blendValue alpha img2.maxval d c)) ∧
      (∀ px py : Int, 0 ≤ px → px < img1.width → 0 ≤ py → py < img1.height →
        ¬ (x ≤ px ∧ px < x + img2.width ∧ y ≤ py ∧ py < y + img2.height) →
        r.pix px py = img1.pix px py) := by
  obtain ⟨hw1, hh1, _, _, hlen1, hb1⟩ := hwf1
  obtain ⟨hw2, hh2, _, _, hlen2, hb2⟩ := hwf2
  obtain ⟨hx0, hy0, hxw, hyh⟩ := (ImageValidRect_iff img1 x y _ _).mp hrect
  have hsrc : ∀ i j : Int, 0 ≤ i → i < img2.height.toNat → 0 ≤ j → j < img2.width.toNat →
      ∃ c, rd img2.pixel (i * img2.width + j) = some c ∧ c < 256 := by
    intro i j hi0 hi hj0 hj
    have := idx_bound i j img2.height img2.width hi0 (by omega) hj0 (by omega)
    obtain ⟨c, hc, hcm⟩ := rd_of_lt img2.pixel _ this.1
      (by rw [hlen2, mul_comm img2.width]; exact this.2)
    exact ⟨c, hc, hb2 c hcm⟩
  have hdst : ∀ i j : Int, 0 ≤ i → i < img2.height.toNat → 0 ≤ j → j < img2.width.toNat →
      (0 ≤ (y + i) * img1.width + (x + j) ∧
        (y + i) * img1.width + (x + j) < img1.pixel.length) ∧
      ∃ d, rd img1.pixel ((y + i) * img1.width + (x + j)) = some d ∧ d < 256 := by
    intro i j hi0 hi hj0 hj
    have := idx_bound (y + i) (x + j) img1.height img1.width (by omega) (by omega)
      (by omega) (by omega)
    have hlt : (y + i) * img1.width + (x + j) < img1.pixel.length := by
      rw [hlen1, mul_comm img1.width]; exact this.2
    obtain ⟨d, hd, hdm⟩ := rd_of_lt img1.pixel _ this.1 hlt
    exact ⟨⟨this.1, hlt⟩, d, hd, hb1 d hdm⟩
  obtain ⟨s', hs', hinv⟩ := fill2D_spec img2 img1 img2.height.toNat img2.width.toNat
    (fun i j => (y + i) * img1.width + (x + j))
    (fun i j => blendValue alpha img2.maxval
      ((rd img1.pixel ((y + i) * img1.width + (x + j))).getD 0)
      ((rd img2.pixel (i * img2.width + j)).getD 0))
    (fun s => s.1.width.toNat)
    (fun i j s =>
      (rd s.2.pixel ((y + i) * s.2.width + (x + j))).bind (fun d =>
        (rd s.1.pixel (i * s.1.width + j)).bind (fun c =>
          (doubleToUint8 (Double.add
              (Double.mul (Double.sub Double.one alpha) (Double.ofInt d))
              (Double.mul alpha (Double.ofInt c)))).bind (fun blendedValue =>
            (wr s.2.pixel ((y + i) * s.2.width + (x + j))
              (if (blendedValue : Int) ≥ s.1.maxval then toUint8 s.1.maxval
                else blendedValue)).map (fun px => (s.1, { s.2 with pixel := px }))))))
    (by intro s h; subst h; rfl)
    (by
      intro i j s Done hi0 hi hj0 hj hinv hfresh
      obtain ⟨c, hc, hc256⟩ := hsrc i j hi0 hi hj0 hj
      obtain ⟨_, d, hd, hd256⟩ := hdst i j hi0 hi hj0 hj
      have hfr := hinv.frame ((y + i) * img1.width + (x + j))
        (fun i' j' hdone => Ne.symm (hfresh i' j' hdone))
      obtain ⟨v, hv, _⟩ := blend_conv alpha h0 h1 d c hd256 hc256
      have hv' := hv
      unfold blend at hv'
      simp only [hinv.src_eq, hinv.width_eq, hfr, hd, hc, Option.some_bind, Option.getD_some,
        hv', blendValue, hv])
    (by intro i j hi0 hi hj0 hj; exact (hdst i j hi0 hi hj0 hj).1)
    (by
      intro i j i' j' hi0 hi hj0 hj hi0' hi' hj0' hj' heq
      have := idx_inj (y + i) (x + j) (y + i') (x + j') img1.width
        (by omega) (by omega) (by omega) (by omega) heq
      omega)
    (by
      intro i j hi0 hi hj0 hj
      obtain ⟨c, hc, hc256⟩ := hsrc i j hi0 hi hj0 hj
      obtain ⟨_, d, hd, hd256⟩ := hdst i j hi0 hi hj0 hj
      obtain ⟨v, hv, hv256⟩ := blend_conv alpha h0 h1 d c hd256 hc256
      simp only [hd, hc, Option.getD_some, blendValue, hv]
      split
      · exact toUint8_lt _
      · exact hv256)
    hb1
  refine ⟨s'.2, ?_, hinv.width_eq, hinv.height_eq, hinv.maxval_eq, ?_, hinv.bytes, ?_, ?_⟩
  · have : s' = (img2, s'.2) := by rw [← hinv.src_eq]
    rw [← this]
    simp only [ImageBlend, hrect, if_true]
    exact hs'
  · rw [hinv.length_eq, hinv.width_eq, hinv.height_eq, hlen1]
  · intro j i hj0 hj hi0 hi
    obtain ⟨c, hc, _⟩ := hsrc i j hi0 (by omega) hj0 (by omega)
    obtain ⟨_, d, hd, _⟩ := hdst i j hi0 (by omega) hj0 (by omega)
    refine ⟨d, c, hd, hc, ?_⟩
    have := hinv.filled i j ⟨hi0, by omega, hj0, by omega⟩
    simp only [hd, hc, Option.getD_some] at this
    simp only [Image.pix, hinv.width_eq]
    exact this
  · intro px py hpx0 hpx hpy0 hpy hout
    simp only [Image.pix, hinv.width_eq]
    apply hinv.frame
    intro i j hdone heq
    obtain ⟨hi0, hi, hj0, hj⟩ := hdone
    have := idx_inj py px (y + i) (x + j) img1.width hpx0 hpx (by omega) (by omega) heq
    omega

/-- The value that `ImageBlend` stores for `alpha` in `[0,1]`: the blend is a
finite double, and the value is its integral part clamped to `[0, maxval2]`. -/
theorem blendValue_eq (alpha : Double) (maxval2 : Int) (d c : Nat)
    (h0 : Double.le Double.zero alpha = true) (h1 : Double.le alpha Double.one = true)
    (hd : d < 256) (hc : c < 256) (hm0 : 0 < maxval2) (hm1 : maxval2 ≤ 255) :
    (blend alpha d c).isFinite = true ∧
    (blendValue alpha maxval2 d c : Int) =
      max 0 (min ⌊(blend alpha d c).val⌋ maxval2) := by
  obtain ⟨n, hn, hn0, hn1⟩ := blend_bounds alpha h0 h1 d c hd hc
  have hq : 0 ≤ n / (Double.scale : Int) := Int.ediv_nonneg hn0 (le_of_lt Double.scale_int_pos)
  have hmv : (toUint8 maxval2 : Int) = maxval2 := toUint8_of_byte _ (le_of_lt hm0) hm1
  unfold blendValue
  rw [hn, doubleToUint8_finite n hn0 hn1, Double.floor_val]
  refine ⟨rfl, ?_⟩
  show ((if ((n / (Double.scale : Int)).toNat : Int) ≥ maxval2 then toUint8 maxval2
    else (n / (Double.scale : Int)).toNat : Nat) : Int) = _
  have ht : ((n / (Double.scale : Int)).toNat : Int) = n / (Double.scale : Int) :=
    Int.toNat_of_nonneg hq
  by_cases hge : ((n / (Double.scale : Int)).toNat : Int) ≥ maxval2
  · rw [if_pos hge, hmv, min_eq_right (by omega), max_eq_right (le_of_lt hm0)]
  · rw [if_neg hge, ht, min_eq_left (by omega), max_eq_right hq]

set_option exponentiation.threshold 5000 in
set_option maxRecDepth 4000 in
/-- With alpha `0.3` (the double `5404319552844595 / 2^54`) the blend of the
pixels 3 and 3 is 2: the rounded sum of the two rounded products is below 3,
although `0.7 * 3 + 0.3 * 3` is 3. -/
theorem ImageBlend_zero_point_three :
    ImageBlend ⟨1, 1, 255, [3]⟩ 0 0 ⟨1, 1, 255, [3]⟩ (Double.lit 5404319552844595 54) =
      some (⟨1, 1, 255, [3]⟩, ⟨1, 1, 255, [2]⟩) ∧
    ⌊(1 - Double.val (Double.lit 5404319552844595 54)) * (3 : ℚ) +
      Double.val (Double.lit 5404319552844595 54) * (3 : ℚ)⌋ = 3 := by
  refine ⟨by decide, ?_⟩
  rw [Double.val_lit _ _ (by norm_num), Int.floor_eq_iff]
  norm_num

/-! ## The mean filter -/

/-- Two nested loops that add `v k l` to a first and `c k l` to a second
accumulator compute the two double sums. -/
theorem accum2D_spec (n1 n2 : Nat) (v c : Nat → Nat → Nat)
    (body : Int → Int → Nat × Nat → Option (Nat × Nat))
    (hbody : ∀ (k l : Nat) (acc : Nat × Nat), k < n1 → l < n2 →
      body (k : Int) (l : Int) acc = some (acc.1 + v k l, acc.2 + c k l)) :
    forRange n1 (fun ki acc => forRange n2 (fun kj acc => body ki kj acc) acc) (0, 0) =
      some (Finset.sum (Finset.range n1) (fun k => Finset.sum (Finset.range n2) (fun l => v k l)),
        Finset.sum (Finset.range n1) (fun k => Finset.sum (Finset.range n2) (fun l => c k l))) := by
  obtain ⟨t, ht, hP⟩ := forRange_inv
    (fun (k : Nat) (acc : Nat × Nat) => acc =
      (Finset.sum (Finset.range k) (fun k => Finset.sum (Finset.range n2) (fun l => v k l)),
        Finset.sum (Finset.range k) (fun k => Finset.sum (Finset.range n2) (fun l => c k l))))
    n1 (fun ki acc => forRange n2 (fun kj acc => body ki kj acc) acc) (0, 0)
    (by simp)
    (by
      intro k acc hk hacc
      obtain ⟨u, hu, hQ⟩ := forRange_inv
        (fun (m : Nat) (a : Nat × Nat) => a =
          (acc.1 + Finset.sum (Finset.range m) (fun l => v k l),
            acc.2 + Finset.sum (Finset.range m) (fun l => c k l)))
        n2 (fun kj a => body (k : Int) kj a) acc
        (by simp)
        (by
          intro m a hm ha
          refine ⟨_, hbody k m a hk hm, ?_⟩
          simp only [ha, Finset.sum_range_succ, add_assoc])
      refine ⟨u, hu, ?_⟩
      simp only [hQ, hacc, Finset.sum_range_succ])
  rw [ht, hP]

theorem sum_Icc_neg (d : Int) (f : Int → Nat) :
    Finset.sum (Finset.Icc (-d) d) f =
      Finset.sum (Finset.range (2 * d + 1).toNat) (fun k => f (-d + (k : Int))) := by
  have h : d + 1 - -d = 2 * d + 1 := by ring
  rw [Int.Icc_eq_finset_map, Finset.sum_map, h]
  rfl

/-- The two inner loops of `ImageBlur` compute the sum and the number of the
pixels of the window that lie inside the image. -/
theorem blurWindow_spec (img : Image) (hwf : img.wf) (x y dx dy : Int) :
    forRange (2 * dy + 1).toNat
      (fun ki (acc : Nat × Nat) => forRange (2 * dx + 1).toNat
        (fun kj acc =>
          if x + (-dx + kj) ≥ 0 ∧ x + (-dx + kj) < img.width ∧
              y + (-dy + ki) ≥ 0 ∧ y + (-dy + ki) < img.height then
            (rd img.pixel ((y + (-dy + ki)) * img.width + (x + (-dx + kj)))).map
              (fun p => (acc.1 + p, acc.2 + 1))
          else some acc)
        acc)
      (0, 0) = some (windowSum img x y dx dy, windowCount img x y dx dy) := by
  obtain ⟨hw, hh, _, _, hlen, _⟩ := hwf
  rw [accum2D_spec (2 * dy + 1).toNat (2 * dx + 1).toNat
    (fun k l => if 0 ≤ x + (-dx + (l : Int)) ∧ x + (-dx + (l : Int)) < img.width ∧
        0 ≤ y + (-dy + (k : Int)) ∧ y + (-dy + (k : Int)) < img.height then
      (img.pix (x + (-dx + (l : Int))) (y + (-dy + (k : Int)))).getD 0 else 0)
    (fun k l => if 0 ≤ x + (-dx + (l : Int)) ∧ x + (-dx + (l : Int)) < img.width ∧
        0 ≤ y + (-dy + (k : Int)) ∧ y + (-dy + (k : Int)) < img.height then 1 else 0)]
  · have e1 : windowSum img x y dx dy = Finset.sum (Finset.range (2 * dy + 1).toNat)
        (fun k => Finset.sum (Finset.range (2 * dx + 1).toNat) (fun l =>
          if 0 ≤ x + (-dx + (l : Int)) ∧ x + (-dx + (l : Int)) < img.width ∧
              0 ≤ y + (-dy + (k : Int)) ∧ y + (-dy + (k : Int)) < img.height then
            (img.pix (x + (-dx + (l : Int))) (y + (-dy + (k : Int)))).getD 0 else 0)) := by
      unfold windowSum
      rw [sum_Icc_neg dy]
      exact Finset.sum_congr rfl (fun k _ => sum_Icc_neg dx _)
    have e2 : windowCount img x y dx dy = Finset.sum (Finset.range (2 * dy + 1).toNat)
        (fun k => Finset.sum (Finset.range (2 * dx + 1).toNat) (fun l =>
          if 0 ≤ x + (-dx + (l : Int)) ∧ x + (-dx + (l : Int)) < img.width ∧
              0 ≤ y + (-dy + (k : Int)) ∧ y + (-dy + (k : Int)) < img.height then 1 else 0)) := by
      unfold windowCount
      rw [sum_Icc_neg dy]
      exact Finset.sum_congr rfl (fun k _ => sum_Icc_neg dx _)
    rw [e1, e2]
  · intro k l acc _ _
    by_cases hin : 0 ≤ x + (-dx + (l : Int)) ∧ x + (-dx + (l : Int)) < img.width ∧
        0 ≤ y + (-dy + (k : Int)) ∧ y + (-dy + (k : Int)) < img.height
    · have hb := idx_bound (y + (-dy + (k : Int))) (x + (-dx + (l : Int))) img.height img.width
        hin.2.2.1 hin.2.2.2 hin.1 hin.2.1
      obtain ⟨p, hp, _⟩ := rd_of_lt img.pixel _ hb.1
        (by rw [hlen, mul_comm img.width]; exact hb.2)
      have hc : x + (-dx + (l : Int)) ≥ 0 ∧ x + (-dx + (l : Int)) < img.width ∧
          y + (-dy + (k : Int)) ≥ 0 ∧ y + (-dy + (k : Int)) < img.height := hin
      simp only [if_pos hc, if_pos hin, Image.pix, hp, Option.map_some', Option.getD_some]
    · have hc : ¬ (x + (-dx + (l : Int)) ≥ 0 ∧ x + (-dx + (l : Int)) < img.width ∧
          y + (-dy + (k : Int)) ≥ 0 ∧ y + (-dy + (k : Int)) < img.height) := hin
      simp only [if_neg hc, if_neg hin, Nat.add_zero]

/-- The window of a pixel of the image contains the pixel itself, and the sum
over the window is at most 255 times the count. -/
theorem window_bounds (img : Image) (hwf : img.wf) (x y dx dy : Int)
    (hx0 : 0 ≤ x) (hx : x < img.width) (hy0 : 0 ≤ y) (hy : y < img.height)
    (hdx : 0 ≤ dx) (hdy : 0 ≤ dy) :
    0 < windowCount img x y dx dy ∧
    windowSum img x y dx dy ≤ 255 * windowCount img x y dx dy := by
  obtain ⟨hw, hh, _, _, hlen, hb⟩ := hwf
  constructor
  · have h1 : (Finset.sum (Finset.Icc (-dx) dx) (fun j =>
        if 0 ≤ x + j ∧ x + j < img.width ∧ 0 ≤ y + 0 ∧ y + 0 < img.height then 1 else 0))
        ≤ windowCount img x y dx dy :=
      Finset.single_le_sum
        (f := fun i => Finset.sum (Finset.Icc (-dx) dx) (fun j =>
          if 0 ≤ x + j ∧ x + j < img.width ∧ 0 ≤ y + i ∧ y + i < img.height then 1 else 0))
        (fun _ _ => Nat.zero_le _) (Finset.mem_Icc.mpr ⟨by omega, hdy⟩)
    have h2 : (if 0 ≤ x + 0 ∧ x + 0 < img.width ∧ 0 ≤ y + 0 ∧ y + 0 < img.height
        then 1 else 0) ≤ Finset.sum (Finset.Icc (-dx) dx) (fun j =>
        if 0 ≤ x + j ∧ x + j < img.width ∧ 0 ≤ y + 0 ∧ y + 0 < img.height then 1 else 0) :=
      Finset.single_le_sum
        (f := fun j => if 0 ≤ x + j ∧ x + j < img.width ∧ 0 ≤ y + 0 ∧ y + 0 < img.height
          then 1 else 0)
        (fun _ _ => Nat.zero_le _) (Finset.mem_Icc.mpr ⟨by omega, hdx⟩)
    rw [if_pos (by omega)] at h2
    omega
  · unfold windowSum windowCount
    rw [Finset.mul_sum]
    apply Finset.sum_le_sum
    intro i _
    rw [Finset.mul_sum]
    apply Finset.sum_le_sum
    intro j _
    by_cases hin : 0 ≤ x + j ∧ x + j < img.width ∧ 0 ≤ y + i ∧ y + i < img.height
    · have hb' := idx_bound (y + i) (x + j) img.height img.width hin.2.2.1 hin.2.2.2
        hin.1 hin.2.1
      obtain ⟨p, hp, hpm⟩ := rd_of_lt img.pixel _ hb'.1
        (by rw [hlen, mul_comm img.width]; exact hb'.2)
      have := hb p hpm
      simp only [if_pos hin, Image.pix, hp, Option.getD_some]
      omega
    · simp only [if_neg hin]
      omega

theorem meanToUint8_of_le (sum count : Nat) (hc : 0 < count) (hs : sum ≤ 255 * count) :
    meanToUint8 sum count = some (sum / count) := by
  have hq : sum / count ≤ 255 := Nat.div_le_of_le_mul (by rw [mul_comm]; exact hs)
  have ht : Int.tdiv (sum : Int) (count : Int) = ((sum / count : Nat) : Int) := by
    rw [Int.tdiv_eq_ediv (by omega) (by omega), Int.natCast_div]
  have hne : ¬ count = 0 := by omega
  have hr : (0 : Int) ≤ ((sum / count : Nat) : Int) ∧ ((sum / count : Nat) : Int) ≤ 255 :=
    ⟨Int.natCast_nonneg _, by exact_mod_cast hq⟩
  unfold meanToUint8 truncToUint8
  rw [if_neg hne, ht, if_pos hr, Int.toNat_ofNat]

theorem ImageCreate_spec_maxval (w h m : Int) (garbage : Nat → Nat) (hw : 0 ≤ w) (hh : 0 ≤ h)
    (hm0 : 0 < m) (hm1 : m ≤ 255) :
    ∃ c, ImageCreate w h m garbage = some c ∧ c.width = w ∧ c.height = h ∧
      c.maxval = m ∧ (c.pixel.length : Int) = w * h ∧ ∀ p ∈ c.pixel, p < 256 := by
  refine ⟨{ width := w, height := h, maxval := m,
             pixel := (List.range (w * h).toNat).map (fun i => garbage i % 256) },
    by simp [ImageCreate, hw, hh, hm0, hm1, PixMax], rfl, rfl, rfl, ?_, ?_⟩
  · have := mul_nonneg hw hh
    simp only [List.length_map, List.length_range]
    omega
  · intro p hp
    simp only [List.mem_map, List.mem_range] at hp
    obtain ⟨i, _, rfl⟩ := hp
    omega

/-- The last loop of `ImageBlur` copies the whole pixel array of the temporary
image `b` into `a`. -/
theorem copyBack_spec (a b : Image) (n : Nat) (hn : n = a.pixel.length)
    (hlen : a.pixel.length = b.pixel.length) :
    forRange n
      (fun i (t : Image × Image) => (rd t.2.pixel i).bind (fun v =>
        (wr t.1.pixel i v).map (fun px => ({ t.1 with pixel := px }, t.2))))
      (a, b) = some ({ a with pixel := b.pixel }, b) := by
  obtain ⟨t, ht, h2, hw, hh, hm, hl, hpix⟩ := forRange_inv
    (fun (k : Nat) (t : Image × Image) => t.2 = b ∧ t.1.width = a.width ∧
      t.1.height = a.height ∧ t.1.maxval = a.maxval ∧ t.1.pixel.length = a.pixel.length ∧
      ∀ i : Int, 0 ≤ i → i < (k : Int) → rd t.1.pixel i = rd b.pixel i)
    n
    (fun i (t : Image × Image) => (rd t.2.pixel i).bind (fun v =>
      (wr t.1.pixel i v).map (fun px => ({ t.1 with pixel := px }, t.2))))
    (a, b)
    ⟨rfl, rfl, rfl, rfl, rfl, fun i h0 h1 => by omega⟩
    (by
      intro k t hk ⟨h2, hw, hh, hm, hl, hpix⟩
      have hk0 : (0 : Int) ≤ k := by omega
      obtain ⟨v, hv, _⟩ := rd_of_lt b.pixel k hk0 (by omega)
      have hk2 : (k : Int) < t.1.pixel.length := by omega
      refine ⟨({ t.1 with pixel := t.1.pixel.set (k : Int).toNat v }, t.2), ?_,
        h2, hw, hh, hm, ?_, ?_⟩
      · simp only [h2, hv, Option.some_bind, wr_of_lt _ _ _ hk0 hk2, Option.map_some']
      · simp [hl]
      · intro i hi0 hi
        show rd (t.1.pixel.set (k : Int).toNat v) i = rd b.pixel i
        by_cases hik : i = (k : Int)
        · subst hik
          rw [rd_set_self _ _ _ hk0 hk2, hv]
        · rw [rd_set_ne _ _ _ _ hk0 hik]
          exact hpix i hi0 (by push_cast at hi; omega))
  rw [ht]
  have hp : t.1.pixel = b.pixel := by
    apply list_ext_rd _ _ (by omega)
    intro i hi0 hi
    exact hpix i hi0 (by omega)
  obtain ⟨t1, t2⟩ := t
  cases t1
  cases a
  simp only [Image.mk.injEq, Option.some.injEq, Prod.mk.injEq] at *
  exact ⟨⟨hw, hh, hm, hp⟩, h2⟩

/-- The result of `ImageBlur` on a well-formed image, for `dx, dy >= 0`: every
pixel becomes the integer quotient of the sum by the count of its window,
computed on the image as it was before the call. -/
theorem ImageBlur_spec (img : Image) (dx dy : Int) (garbage : Nat → Nat) (hwf : img.wf)
    (hdx : 0 ≤ dx) (hdy : 0 ≤ dy) :
    ∃ r, ImageBlur img dx dy garbage = some r ∧
      r.width = img.width ∧ r.height = img.height ∧ r.maxval = img.maxval ∧
      (r.pixel.length : Int) = r.width * r.height ∧ (∀ p ∈ r.pixel, p < 256) ∧
      ∀ x y : Int, 0 ≤ x → x < img.width → 0 ≤ y → y < img.height →
        0 < windowCount img x y dx dy ∧
        r.pix x y = some (windowSum img x y dx dy / windowCount img x y dx dy) := by
  have hwf' := hwf
  obtain ⟨hw, hh, hm0, hm1, hlen, hb⟩ := hwf
  have hmax : ((toUint8 img.maxval : Nat) : Int) = img.maxval :=
    toUint8_of_byte _ (le_of_lt hm0) hm1
  obtain ⟨c, hc, hcw, hch, hcm, hcl, hcb⟩ := ImageCreate_spec_maxval img.width img.height
    (toUint8 img.maxval) garbage hw hh (by omega) (by unfold PixMax at hm1; omega)
  obtain ⟨s', hs', hinv⟩ := fill2D_spec img c img.height.toNat img.width.toNat
    (fun y x => y * img.width + x)
    (fun y x => windowSum img x y dx dy / windowCount img x y dx dy)
    (fun s => s.1.width.toNat)
    (fun y x s =>
      (forRange (2 * dy + 1).toNat
        (fun ki (acc : Nat × Nat) => forRange (2 * dx + 1).toNat
          (fun kj acc =>
            if x + (-dx + kj) ≥ 0 ∧ x + (-dx + kj) < s.1.width ∧
                y + (-dy + ki) ≥ 0 ∧ y + (-dy + ki) < s.1.height then
              (rd s.1.pixel ((y + (-dy + ki)) * s.1.width + (x + (-dx + kj)))).map
                (fun p => (acc.1 + p, acc.2 + 1))
            else some acc)
          acc)
        (0, 0)).bind (fun acc =>
          (meanToUint8 acc.1 acc.2).bind (fun v =>
            (wr s.2.pixel (y * s.1.width + x) v).map
              (fun px => (s.1, { s.2 with pixel := px })))))
    (by intro s h; subst h; rfl)
    (by
      intro y x s Done hy0 hy hx0 hx hinv _
      obtain ⟨s1, s2⟩ := s
      have h1 : s1 = img := hinv.src_eq
      subst h1
      obtain ⟨hcnt, hsum⟩ := window_bounds s1 hwf' x y dx dy hx0 (by omega) hy0 (by omega)
        hdx hdy
      simp only [blurWindow_spec s1 hwf' x y dx dy, Option.some_bind,
        meanToUint8_of_le _ _ hcnt hsum])
    (by
      intro i j hi0 hi hj0 hj
      have := idx_bound i j img.height img.width hi0 (by omega) hj0 (by omega)
      rw [hcl, mul_comm img.width]; exact this)
    (by
      intro i j i' j' hi0 hi hj0 hj hi0' hi' hj0' hj' heq
      exact idx_inj i j i' j' img.width hj0 (by omega) hj0' (by omega) heq)
    (by
      intro y x hy0 hy hx0 hx
      obtain ⟨hcnt, hsum⟩ := window_bounds img hwf' x y dx dy hx0 (by omega) hy0 (by omega)
        hdx hdy
      have : windowSum img x y dx dy / windowCount img x y dx dy ≤ 255 :=
        Nat.div_le_of_le_mul (by rw [mul_comm]; exact hsum)
      exact Nat.lt_succ_of_le this)
    hcb
  have hs1 : s'.1 = img := hinv.src_eq
  have hl2 : s'.2.pixel.length = img.pixel.length := by
    have := hinv.length_eq
    omega
  have hcopy := copyBack_spec img s'.2 (img.width * img.height).toNat (by omega) hl2.symm
  refine ⟨{ img with pixel := s'.2.pixel }, ?_, rfl, rfl, rfl, ?_, hinv.bytes, ?_⟩
  · have hs'' : s' = (img, s'.2) := by rw [← hs1]
    unfold ImageBlur
    simp only [hc, Option.some_bind]
    rw [show (forRange img.height.toNat _ (img, c)) = some s' from hs']
    simp only [Option.some_bind, hs1]
    rw [hs'', hcopy]
    rfl
  · show (s'.2.pixel.length : Int) = img.width * img.height
    omega
  · intro x y hx0 hx hy0 hy
    obtain ⟨hcnt, _⟩ := window_bounds img hwf' x y dx dy hx0 hx hy0 hy hdx hdy
    refine ⟨hcnt, ?_⟩
    exact hinv.filled y x ⟨hy0, by omega, hx0, by omega⟩

/-! ## Pixel statistics -/

/-- The result of `ImageStats` on a well-formed image. -/
theorem ImageStats_spec (img : Image) (hwf : img.wf) :
    ∃ mn mx, ImageStats img = some (mn, mx) ∧
      (∀ i : Int, 0 ≤ i → i < img.width * img.height →
        ∃ p, rd img.pixel i = some p ∧ mn ≤ p ∧ p ≤ mx) ∧
      (0 < img.width * img.height →
        (∃ i : Int, 0 ≤ i ∧ i < img.width * img.height ∧ rd img.pixel i = some mn) ∧
        (∃ i : Int, 0 ≤ i ∧ i < img.width * img.height ∧ rd img.pixel i = some mx)) ∧
      (img.width * img.height = 0 → mn = 255 ∧ mx = 0) := by
  obtain ⟨hw, hh, _, _, hlen, hb⟩ := hwf
  have hwh : 0 ≤ img.width * img.height := mul_nonneg hw hh
  obtain ⟨s, hs, h1, h2, h3⟩ := forRange_inv
    (fun (k : Nat) (s : Nat × Nat) =>
      (∀ i : Int, 0 ≤ i → i < (k : Int) → ∃ p, rd img.pixel i = some p ∧ s.1 ≤ p ∧ p ≤ s.2) ∧
      (k = 0 → s = (255, 0)) ∧
      (0 < k → (∃ i : Int, 0 ≤ i ∧ i < (k : Int) ∧ rd img.pixel i = some s.1) ∧
        (∃ i : Int, 0 ≤ i ∧ i < (k : Int) ∧ rd img.pixel i = some s.2)))
    (img.width * img.height).toNat
    (fun i (s : Nat × Nat) => (rd img.pixel i).map (fun pixelGV =>
      ((if pixelGV < s.1 then pixelGV else s.1), (if pixelGV > s.2 then pixelGV else s.2))))
    (255, 0)
    ⟨fun i h0 h1 => by omega, fun _ => rfl, fun h => by omega⟩
    (by
      intro k s hk ⟨hbnd, hzero, hwit⟩
      have hk0 : (0 : Int) ≤ k := by omega
      obtain ⟨p, hp, hpm⟩ := rd_of_lt img.pixel k hk0 (by omega)
      have hp256 := hb p hpm
      refine ⟨((if p < s.1 then p else s.1), (if p > s.2 then p else s.2)),
        by simp only [hp, Option.map_some'], ?_, fun h => by omega, fun _ => ⟨?_, ?_⟩⟩
      · intro i hi0 hi
        by_cases hik : i = (k : Int)
        · subst hik
          refine ⟨p, hp, ?_, ?_⟩
          · show (if p < s.1 then p else s.1) ≤ p
            split <;> omega
          · show p ≤ (if p > s.2 then p else s.2)
            split <;> omega
        · obtain ⟨q, hq, hq1, hq2⟩ := hbnd i hi0 (by push_cast at hi; omega)
          refine ⟨q, hq, ?_, ?_⟩
          · show (if p < s.1 then p else s.1) ≤ q
            split <;> omega
          · show q ≤ (if p > s.2 then p else s.2)
            split <;> omega
      · show ∃ i : Int, 0 ≤ i ∧ i < ((k + 1 : Nat) : Int) ∧
          rd img.pixel i = some (if p < s.1 then p else s.1)
        by_cases hlt : p < s.1
        · exact ⟨k, hk0, by push_cast; omega, by rw [if_pos hlt]; exact hp⟩
        · rw [if_neg hlt]
          by_cases hkz : k = 0
          · have hs := hzero hkz
            have hs1 : s.1 = 255 := by rw [hs]
            exact ⟨k, hk0, by push_cast; omega, by rw [hp]; congr 1; omega⟩
          · obtain ⟨⟨i, hi0, hi, hri⟩, _⟩ := hwit (by omega)
            exact ⟨i, hi0, by push_cast; omega, hri⟩
      · show ∃ i : Int, 0 ≤ i ∧ i < ((k + 1 : Nat) : Int) ∧
          rd img.pixel i = some (if p > s.2 then p else s.2)
        by_cases hgt : p > s.2
        · exact ⟨k, hk0, by push_cast; omega, by rw [if_pos hgt]; exact hp⟩
        · rw [if_neg hgt]
          by_cases hkz : k = 0
          · have hs := hzero hkz
            have hs2 : s.2 = 0 := by rw [hs]
            exact ⟨k, hk0, by push_cast; omega, by rw [hp]; congr 1; omega⟩
          · obtain ⟨_, ⟨i, hi0, hi, hri⟩⟩ := hwit (by omega)
            exact ⟨i, hi0, by push_cast; omega, hri⟩)
  refine ⟨s.1, s.2, hs, ?_, ?_, ?_⟩
  · intro i hi0 hi
    exact h1 i hi0 (by omega)
  · intro hpos
    obtain ⟨⟨i, hi0, hi, hri⟩, ⟨j, hj0, hj, hrj⟩⟩ := h3 (by omega)
    exact ⟨⟨i, hi0, by omega, hri⟩, ⟨j, hj0, by omega, hrj⟩⟩
  · intro hz
    have := h2 (by omega)
    rw [this]
    exact ⟨rfl, rfl⟩

/-! ## The mean filter with an empty margin -/

/-- With `dx = dy = 0` the window of a pixel of the image is the pixel. -/
theorem window_zero (img : Image) (x y : Int)
    (hx0 : 0 ≤ x) (hx : x < img.width) (hy0 : 0 ≤ y) (hy : y < img.height) :
    windowSum img x y 0 0 = (img.pix x y).getD 0 ∧ windowCount img x y 0 0 = 1 := by
  have hin : 0 ≤ x ∧ x < img.width ∧ 0 ≤ y ∧ y < img.height := ⟨hx0, hx, hy0, hy⟩
  unfold windowSum windowCount
  simp only [neg_zero, Finset.Icc_self, Finset.sum_singleton, add_zero, if_pos hin]
  trivial

/-- A position inside a well-formed image holds a pixel. -/
theorem pix_some (img : Image) (hwf : img.wf) (x y : Int)
    (hx0 : 0 ≤ x) (hx : x < img.width) (hy0 : 0 ≤ y) (hy : y < img.height) :
    ∃ v, img.pix x y = some v ∧ v < 256 := by
  obtain ⟨_, _, _, _, hlen, hb⟩ := hwf
  have hi := idx_bound y x img.height img.width hy0 hy hx0 hx
  obtain ⟨v, hv, hvm⟩ := rd_of_lt img.pixel _ hi.1 (by rw [hlen, mul_comm img.width]; exact hi.2)
  exact ⟨v, hv, hb v hvm⟩

/-! ## The claims -/

set_option maxRecDepth 100000 in
/-- C1 (code bug). The raster scan documented with the data structure stores
position `(22,1)` of a 100-pixel wide image at index 122 and `(33,0)` at index
33, i.e. at `y*width + x`.  `G` computes `(y-1)*width + x`: for `(22,1)` it
returns 22, and for `(33,0)` its second assertion fails, so that
`ImageGetPixel` reads the wrong pixel in the first case and aborts in the
second. -/
theorem C1_G_is_one_row_off :
    G ⟨100, 2, 255, List.range 200⟩ 22 1 = some 22 ∧
    G ⟨100, 2, 255, List.range 200⟩ 33 0 = none ∧
    ImageGetPixel ⟨100, 2, 255, List.range 200⟩ 22 1 = some 22 ∧
    Image.pix ⟨100, 2, 255, List.range 200⟩ 22 1 = some 122 ∧
    ImageGetPixel ⟨100, 2, 255, List.range 200⟩ 33 0 = none := by
  decide

/-- C2. For every well-formed buffer `B` (width and height at least 0, maxval
in `[1,255]`, `width*height` pixel bytes), `ImageSave` succeeds, and `ImageLoad`
on the bytes it has written succeeds and returns `B` itself: the same width,
height, maxval and pixel sequence. -/
theorem C2_save_then_load (B : Image) (garbage : Nat → Nat) (hwf : B.wf) :
    ∃ file, ImageSave B = some file ∧ ImageLoad file garbage = some B := by
  obtain ⟨hw, hh, hm0, hm1, hlen, hb⟩ := hwf
  have hwh : 0 ≤ B.width * B.height := mul_nonneg hw hh
  have htake : B.pixel.take (B.width * B.height).toNat = B.pixel :=
    List.take_of_length_le (by omega)
  have hmax : ((toUint8 B.maxval : Nat) : Int) = B.maxval :=
    toUint8_of_byte _ (le_of_lt hm0) hm1
  have hpm : printNat (toUint8 B.maxval) = printInt B.maxval := by
    unfold printInt
    rw [if_neg (by omega)]
    congr 1
    omega
  refine ⟨80 :: 53 :: 10 :: (printInt B.width ++ 32 :: (printInt B.height ++
    10 :: (printInt B.maxval ++ 10 :: B.pixel))), ?_, ?_⟩
  · unfold ImageSave
    simp only [htake, hpm]
    rw [if_pos ⟨hwh, by omega⟩]
    simp [List.append_assoc]
  · have h0 : scanMagic (80 :: 53 :: 10 :: (printInt B.width ++ 32 :: (printInt B.height ++
        10 :: (printInt B.maxval ++ 10 :: B.pixel)))) =
        some (53, printInt B.width ++ 32 :: (printInt B.height ++
          10 :: (printInt B.maxval ++ 10 :: B.pixel))) := by
      simp only [scanMagic, scanChar, if_true, Option.map_some']
      rw [skipSpace_sep_printInt 10 B.width hw _ (by decide)]
    have h1 := fun fuel => scanIntSp_printInt fuel B.width B.height hw hh 32
      (10 :: (printInt B.maxval ++ 10 :: B.pixel)) (by decide) (by decide)
    have h2 := fun fuel => scanIntSp_printInt fuel B.height B.maxval hh (le_of_lt hm0) 10
      (10 :: B.pixel) (by decide) (by decide)
    have h3 : ∀ fuel, scanInt (skipComments fuel (printInt B.maxval ++ 10 :: B.pixel)).2 =
        some (B.maxval, 10 :: B.pixel) := by
      intro fuel
      rw [skipComments_printInt fuel _ (le_of_lt hm0)]
      exact scanInt_printInt _ (le_of_lt hm0) 10 _ (by decide)
    have hc : ImageCreate B.width B.height (toUint8 B.maxval) garbage =
        some { width := B.width, height := B.height, maxval := B.maxval,
               pixel := (List.range (B.width * B.height).toNat).map
                 (fun i => garbage i % 256) } := by
      simp [ImageCreate, hw, hh, hmax, hm0, hm1]
    have hs10 : isspace 10 = true := by decide
    have hlen' : B.pixel.length = (B.width * B.height).toNat := by omega
    simp only [ImageLoad, h0, Option.some_bind, if_true, h1, h2, h3, ge_iff_le, hw, hh,
      hm0, hm1, and_self, scanChar, hs10, hc, htake, hlen']
    simp only [← hlen', List.drop_of_length_le, List.length_map, List.length_range, le_refl,
      List.append_nil]

theorem C2_save_then_load_witness :
    Image.wf ⟨3, 2, 100, [1, 2, 3, 4, 5, 6]⟩ ∧
    ∃ file, ImageSave ⟨3, 2, 100, [1, 2, 3, 4, 5, 6]⟩ = some file ∧
      ImageLoad file (fun _ => 7) = some ⟨3, 2, 100, [1, 2, 3, 4, 5, 6]⟩ :=
  ⟨by decide, C2_save_then_load ⟨3, 2, 100, [1, 2, 3, 4, 5, 6]⟩ (fun _ => 7) (by decide)⟩

/-- C3 (code bug). `ImageNegative` subtracts from the constant 255 and not
from the image's maxval: in an image of maxval 100 the pixels 30 and 100
become 225 and 155, not 70 and 0. -/
theorem C3_ImageNegative_subtracts_from_255 :
    ImageNegative ⟨2, 1, 100, [30, 100]⟩ = some ⟨2, 1, 100, [225, 155]⟩ := by
  decide

/-- C4. On a well-formed image `ImageThreshold` returns; width, height and
maxval are unchanged, and at every pixel index a previous value below `thr`
has become 0 and a previous value at or above `thr` has become maxval, so
every pixel is 0 or maxval. -/
theorem C4_ImageThreshold (img : Image) (thr : Nat) (hwf : img.wf) :
    ∃ r, ImageThreshold img thr = some r ∧
      r.width = img.width ∧ r.height = img.height ∧ r.maxval = img.maxval ∧
      ∀ i : Int, 0 ≤ i → i < img.width * img.height →
        ∃ p q, rd img.pixel i = some p ∧ rd r.pixel i = some q ∧
          (p < thr → q = 0) ∧ (thr ≤ p → (q : Int) = img.maxval) ∧
          (q = 0 ∨ (q : Int) = img.maxval) := by
  obtain ⟨r, hr, h1, h2, h3, h4⟩ := ImageThreshold_spec img thr hwf
  obtain ⟨_, _, hm0, hm1, hlen, _⟩ := hwf
  refine ⟨r, hr, h1, h2, h3, ?_⟩
  intro i hi0 hi
  obtain ⟨p, hp, _⟩ := rd_of_lt img.pixel i hi0 (by omega)
  have hmax : (toUint8 img.maxval : Int) = img.maxval :=
    toUint8_of_byte _ (le_of_lt hm0) hm1
  refine ⟨p, if p < thr then 0 else toUint8 img.maxval, hp, ?_, ?_, ?_, ?_⟩
  · rw [h4, rd_map, hp]; rfl
  · intro hlt; rw [if_pos hlt]
  · intro hge; rw [if_neg (by omega)]; exact hmax
  · by_cases hlt : p < thr
    · left; rw [if_pos hlt]
    · right; rw [if_neg hlt]; exact hmax

theorem C4_ImageThreshold_witness :
    Image.wf ⟨2, 1, 100, [30, 100]⟩ ∧
    ∃ r, ImageThreshold ⟨2, 1, 100, [30, 100]⟩ 50 = some r ∧
      r.width = 2 ∧ r.height = 1 ∧ r.maxval = 100 ∧
      ∀ i : Int, 0 ≤ i → i < 2 * 1 →
        ∃ p q, rd [30, 100] i = some p ∧ rd r.pixel i = some q ∧
          (p < 50 → q = 0) ∧ (50 ≤ p → (q : Int) = 100) ∧
          (q = 0 ∨ (q : Int) = 100) :=
  ⟨by decide, C4_ImageThreshold ⟨2, 1, 100, [30, 100]⟩ 50 (by decide)⟩

/-- C5. On a well-formed image `ImageRotate` returns a new image whose width
is the source height and whose height is the source width; for every source
position `(x,y)` the new pixel at `(y, width - 1 - x)` is the source pixel at
`(x,y)`; and the source image is the same after the call. -/
theorem C5_ImageRotate (img : Image) (garbage : Nat → Nat) (hwf : img.wf) :
    ∃ r, ImageRotate img garbage = some (img, r) ∧
      r.width = img.height ∧ r.height = img.width ∧
      ∀ x y : Int, 0 ≤ x → x < img.width → 0 ≤ y → y < img.height →
        ∃ v, img.pix x y = some v ∧ r.pix y (img.width - 1 - x) = some v := by
  obtain ⟨r, hr, h1, h2, _, _, _, h6⟩ := ImageRotate_spec img garbage hwf
  exact ⟨r, hr, h1, h2, h6⟩

theorem C5_ImageRotate_witness :
    Image.wf ⟨3, 2, 100, [1, 2, 3, 4, 5, 6]⟩ ∧
    ∃ r, ImageRotate ⟨3, 2, 100, [1, 2, 3, 4, 5, 6]⟩ (fun _ => 7) =
        some (⟨3, 2, 100, [1, 2, 3, 4, 5, 6]⟩, r) ∧
      r.width = 2 ∧ r.height = 3 ∧
      ∀ x y : Int, 0 ≤ x → x < 3 → 0 ≤ y → y < 2 →
        ∃ v, Image.pix ⟨3, 2, 100, [1, 2, 3, 4, 5, 6]⟩ x y = some v ∧
          r.pix y (3 - 1 - x) = some v :=
  ⟨by decide, C5_ImageRotate ⟨3, 2, 100, [1, 2, 3, 4, 5, 6]⟩ (fun _ => 7) (by decide)⟩

/-- C6. Four successive calls of `ImageRotate`, starting from a well-formed
image `B` (of any dimensions, zero included), all return, and the fourth result
has the width, the height and the whole pixel array of `B`. -/
theorem C6_ImageRotate_four_times (B : Image) (g1 g2 g3 g4 : Nat → Nat) (hwf : B.wf) :
    ∃ r1 r2 r3 r4, ImageRotate B g1 = some (B, r1) ∧ ImageRotate r1 g2 = some (r1, r2) ∧
      ImageRotate r2 g3 = some (r2, r3) ∧ ImageRotate r3 g4 = some (r3, r4) ∧
      r4.width = B.width ∧ r4.height = B.height ∧ r4.pixel = B.pixel ∧
      ∀ x y : Int, 0 ≤ x → x < B.width → 0 ≤ y → y < B.height →
        ∃ v, B.pix x y = some v ∧ r4.pix x y = some v := by
  obtain ⟨r1, e1, w1, h1, m1, l1, b1, p1⟩ := ImageRotate_spec B g1 hwf
  have hB := hwf
  obtain ⟨hw, hh, _, _, hlen, _⟩ := hwf
  have wf1 : r1.wf := ⟨by omega, by omega, by omega, by simp [m1, PixMax], l1, b1⟩
  obtain ⟨r2, e2, w2, h2, m2, l2, b2, p2⟩ := ImageRotate_spec r1 g2 wf1
  have wf2 : r2.wf := ⟨by omega, by omega, by omega, by simp [m2, PixMax], l2, b2⟩
  obtain ⟨r3, e3, w3, h3, m3, l3, b3, p3⟩ := ImageRotate_spec r2 g3 wf2
  have wf3 : r3.wf := ⟨by omega, by omega, by omega, by simp [m3, PixMax], l3, b3⟩
  obtain ⟨r4, e4, w4, h4, m4, l4, b4, p4⟩ := ImageRotate_spec r3 g4 wf3
  have hpix : ∀ x y : Int, 0 ≤ x → x < B.width → 0 ≤ y → y < B.height →
      ∃ v, B.pix x y = some v ∧ r4.pix x y = some v := by
    intro x y hx0 hx hy0 hy
    obtain ⟨v, hv, q1⟩ := p1 x y hx0 hx hy0 hy
    obtain ⟨v2, hv2, q2⟩ := p2 y (B.width - 1 - x) hy0 (by omega) (by omega) (by omega)
    obtain ⟨v3, hv3, q3⟩ := p3 (B.width - 1 - x) (r1.width - 1 - y)
      (by omega) (by omega) (by omega) (by omega)
    obtain ⟨v4, hv4, q4⟩ := p4 (r1.width - 1 - y) (r2.width - 1 - (B.width - 1 - x))
      (by omega) (by omega) (by omega) (by omega)
    have ex : r2.width - 1 - (B.width - 1 - x) = x := by omega
    have ey : r3.width - 1 - (r1.width - 1 - y) = y := by omega
    rw [ex] at hv4 q4
    rw [ey] at q4
    rw [ex] at q3
    refine ⟨v, hv, ?_⟩
    rw [q4, ← hv4, q3, ← hv3, q2, ← hv2, q1]
  have hw4 : r4.width = B.width := by omega
  have hh4 : r4.height = B.height := by omega
  refine ⟨r1, r2, r3, r4, e1, e2, e3, e4, hw4, hh4, ?_, hpix⟩
  symm
  apply pixel_eq_of_pix_eq B r4 hw4.symm hw hlen (by rw [l4, hw4, hh4])
  intro x y hx0 hx hy0 hy
  obtain ⟨v, hv, hv'⟩ := hpix x y hx0 hx hy0 hy
  rw [hv, hv']

theorem C6_ImageRotate_four_times_witness :
    Image.wf ⟨3, 2, 100, [1, 2, 3, 4, 5, 6]⟩ ∧
    ∃ r1 r2 r3 r4,
      ImageRotate ⟨3, 2, 100, [1, 2, 3, 4, 5, 6]⟩ (fun _ => 7) =
        some (⟨3, 2, 100, [1, 2, 3, 4, 5, 6]⟩, r1) ∧
      ImageRotate r1 (fun _ => 8) = some (r1, r2) ∧
      ImageRotate r2 (fun _ => 9) = some (r2, r3) ∧
      ImageRotate r3 (fun _ => 10) = some (r3, r4) ∧
      r4.width = 3 ∧ r4.height = 2 ∧ r4.pixel = [1, 2, 3, 4, 5, 6] ∧
      ∀ x y : Int, 0 ≤ x → x < 3 → 0 ≤ y → y < 2 →
        ∃ v, Image.pix ⟨3, 2, 100, [1, 2, 3, 4, 5, 6]⟩ x y = some v ∧
          r4.pix x y = some v :=
  ⟨by decide, C6_ImageRotate_four_times ⟨3, 2, 100, [1, 2, 3, 4, 5, 6]⟩
    (fun _ => 7) (fun _ => 8) (fun _ => 9) (fun _ => 10) (by decide)⟩

/-- C7. On a well-formed image and a rectangle `(x,y,w,h)` that
`ImageValidRect` accepts, with `w >= 0` and `h >= 0`, `ImageCrop` returns a new
image of width `w` and height `h` whose pixel at `(i,j)`, for `0 <= i < w` and
`0 <= j < h`, is the source pixel at `(x+i, y+j)`; the source image is the same
after the call. -/
theorem C7_ImageCrop (img : Image) (x y w h : Int) (garbage : Nat → Nat) (hwf : img.wf)
    (hrect : ImageValidRect img x y w h = true) (hw0 : 0 ≤ w) (hh0 : 0 ≤ h) :
    ∃ r, ImageCrop img x y w h garbage = some (img, r) ∧
      r.width = w ∧ r.height = h ∧
      ∀ i j : Int, 0 ≤ i → i < w → 0 ≤ j → j < h →
        ∃ v, img.pix (x + i) (y + j) = some v ∧ r.pix i j = some v := by
  obtain ⟨r, hr, h1, h2, _, _, _, h6⟩ := ImageCrop_spec img x y w h garbage hwf hrect hw0 hh0
  exact ⟨r, hr, h1, h2, h6⟩

theorem C7_ImageCrop_witness :
    Image.wf ⟨3, 2, 100, [1, 2, 3, 4, 5, 6]⟩ ∧
    ImageValidRect ⟨3, 2, 100, [1, 2, 3, 4, 5, 6]⟩ 1 0 2 2 = true ∧
    (0 : Int) ≤ 2 ∧ (0 : Int) ≤ 2 ∧
    ∃ r, ImageCrop ⟨3, 2, 100, [1, 2, 3, 4, 5, 6]⟩ 1 0 2 2 (fun _ => 7) =
        some (⟨3, 2, 100, [1, 2, 3, 4, 5, 6]⟩, r) ∧
      r.width = 2 ∧ r.height = 2 ∧
      ∀ i j : Int, 0 ≤ i → i < 2 → 0 ≤ j → j < 2 →
        ∃ v, Image.pix ⟨3, 2, 100, [1, 2, 3, 4, 5, 6]⟩ (1 + i) (0 + j) = some v ∧
          r.pix i j = some v :=
  ⟨by decide, by decide, by decide, by decide,
    C7_ImageCrop ⟨3, 2, 100, [1, 2, 3, 4, 5, 6]⟩ 1 0 2 2 (fun _ => 7)
      (by decide) (by decide) (by decide) (by decide)⟩

/-- C8 (code bug). `ImageRotate`, `ImageMirror` and `ImageCrop` create their
result with the constant maxval 255: from a source image of maxval 100 each
returns an image of maxval 255. -/
theorem C8_geometry_results_have_maxval_255 :
    (ImageRotate ⟨3, 2, 100, [1, 2, 3, 4, 5, 6]⟩ (fun _ => 0)).map (fun s => s.2.maxval)
      = some 255 ∧
    (ImageMirror ⟨3, 2, 100, [1, 2, 3, 4, 5, 6]⟩ (fun _ => 0)).map (fun s => s.2.maxval)
      = some 255 ∧
    (ImageCrop ⟨3, 2, 100, [1, 2, 3, 4, 5, 6]⟩ 1 0 2 2 (fun _ => 0)).map (fun s => s.2.maxval)
      = some 255 := by
  decide

/-- C9. When both images are well-formed and `ImageValidRect(dst, x, y,
src.width, src.height)` holds, `ImagePaste` returns, and afterwards the
destination pixel at `(x+j, y+i)` is the source pixel at `(j,i)` for every
`0 <= j < src.width` and `0 <= i < src.height`, whatever the two maxvals. -/
theorem C9_ImagePaste (dst : Image) (x y : Int) (src : Image)
    (hwf1 : dst.wf) (hwf2 : src.wf)
    (hrect : ImageValidRect dst x y src.width src.height = true) :
    ∃ d, ImagePaste dst x y src = some (src, d) ∧
      ∀ j i : Int, 0 ≤ j → j < src.width → 0 ≤ i → i < src.height →
        ∃ v, src.pix j i = some v ∧ d.pix (x + j) (y + i) = some v := by
  obtain ⟨d, hd, _, _, _, _, _, h6, _⟩ := ImagePaste_spec dst x y src hwf1 hwf2 hrect
  exact ⟨d, hd, h6⟩

theorem C9_ImagePaste_witness :
    Image.wf ⟨3, 2, 255, [0, 0, 0, 0, 0, 0]⟩ ∧ Image.wf ⟨2, 2, 100, [2, 3, 5, 6]⟩ ∧
    ImageValidRect ⟨3, 2, 255, [0, 0, 0, 0, 0, 0]⟩ 1 0 2 2 = true ∧
    ∃ d, ImagePaste ⟨3, 2, 255, [0, 0, 0, 0, 0, 0]⟩ 1 0 ⟨2, 2, 100, [2, 3, 5, 6]⟩ =
        some (⟨2, 2, 100, [2, 3, 5, 6]⟩, d) ∧
      ∀ j i : Int, 0 ≤ j → j < 2 → 0 ≤ i → i < 2 →
        ∃ v, Image.pix ⟨2, 2, 100, [2, 3, 5, 6]⟩ j i = some v ∧
          d.pix (1 + j) (0 + i) = some v :=
  ⟨by decide, by decide, by decide,
    C9_ImagePaste ⟨3, 2, 255, [0, 0, 0, 0, 0, 0]⟩ 1 0 ⟨2, 2, 100, [2, 3, 5, 6]⟩
      (by decide) (by decide) (by decide)⟩

/-- C10. Let `B` be a well-formed image, `(x,y,w,h)` a rectangle valid inside
`B`, and `Z` a well-formed image of the dimensions of `B`, whatever its pixels
(in particular a zero-filled one).  Then
`ImageCrop(B,x,y,w,h)` returns an image `c`, `ImagePaste(Z,x,y,c)` returns, and
the resulting image has at every position inside the rectangle the pixel of
`B`. -/
theorem C10_crop_then_paste (B Z : Image) (x y w h : Int) (garbage : Nat → Nat)
    (hwfB : B.wf) (hwfZ : Z.wf) (hZw : Z.width = B.width) (hZh : Z.height = B.height)
    (hrect : ImageValidRect B x y w h = true) (hw0 : 0 ≤ w) (hh0 : 0 ≤ h) :
    ∃ c d, ImageCrop B x y w h garbage = some (B, c) ∧ ImagePaste Z x y c = some (c, d) ∧
      d.width = B.width ∧ d.height = B.height ∧
      ∀ px py : Int, x ≤ px → px < x + w → y ≤ py → py < y + h →
        ∃ v, B.pix px py = some v ∧ d.pix px py = some v := by
  obtain ⟨c, hc, cw, ch, cm, cl, cb, cp⟩ := ImageCrop_spec B x y w h garbage hwfB hrect hw0 hh0
  have wfc : c.wf := ⟨by omega, by omega, by omega, by simp [cm, PixMax], cl, cb⟩
  have hrect' : ImageValidRect Z x y c.width c.height = true := by
    rw [ImageValidRect_iff] at hrect ⊢
    rw [cw, ch, hZw, hZh]; exact hrect
  obtain ⟨d, hd, dw, dh, _, _, _, dp, _⟩ := ImagePaste_spec Z x y c hwfZ wfc hrect'
  refine ⟨c, d, hc, hd, by omega, by omega, ?_⟩
  intro px py hx0 hx hy0 hy
  obtain ⟨v, hv, hv'⟩ := cp (px - x) (py - y) (by omega) (by omega) (by omega) (by omega)
  obtain ⟨u, hu, hu'⟩ := dp (px - x) (py - y) (by omega) (by omega) (by omega) (by omega)
  have ex : x + (px - x) = px := by omega
  have ey : y + (py - y) = py := by omega
  rw [ex, ey] at hv hu'
  refine ⟨v, hv, ?_⟩
  rw [hu', ← hu, hv']

theorem C10_crop_then_paste_witness :
    Image.wf ⟨3, 2, 100, [1, 2, 3, 4, 5, 6]⟩ ∧ Image.wf ⟨3, 2, 100, [0, 0, 0, 0, 0, 0]⟩ ∧
    ImageValidRect ⟨3, 2, 100, [1, 2, 3, 4, 5, 6]⟩ 1 0 2 2 = true ∧
    ∃ c d, ImageCrop ⟨3, 2, 100, [1, 2, 3, 4, 5, 6]⟩ 1 0 2 2 (fun _ => 7) =
        some (⟨3, 2, 100, [1, 2, 3, 4, 5, 6]⟩, c) ∧
      ImagePaste ⟨3, 2, 100, [0, 0, 0, 0, 0, 0]⟩ 1 0 c = some (c, d) ∧
      d.width = 3 ∧ d.height = 2 ∧
      ∀ px py : Int, 1 ≤ px → px < 1 + 2 → 0 ≤ py → py < 0 + 2 →
        ∃ v, Image.pix ⟨3, 2, 100, [1, 2, 3, 4, 5, 6]⟩ px py = some v ∧
          d.pix px py = some v :=
  ⟨by decide, by decide, by decide,
    C10_crop_then_paste ⟨3, 2, 100, [1, 2, 3, 4, 5, 6]⟩ ⟨3, 2, 100, [0, 0, 0, 0, 0, 0]⟩
      1 0 2 2 (fun _ => 7) (by decide) (by decide) rfl rfl (by decide) (by decide)
      (by decide)⟩

/-- C11. Let `dst` and `src` be well-formed, `(x,y)` a valid position of `dst`
and `src` fit inside `dst` at `(x,y)`.  Then `ImageMatchSubImage` returns 1 or
0, and it returns 1 if and only if `dst(x+i, y+j) = src(i,j)` for every `(i,j)`
inside `src`. -/
theorem C11_ImageMatchSubImage (dst : Image) (x y : Int) (src : Image)
    (hwf1 : dst.wf) (hwf2 : src.wf) (hpos : ImageValidPos dst x y = true)
    (hfw : x + src.width ≤ dst.width) (hfh : y + src.height ≤ dst.height) :
    (ImageMatchSubImage dst x y src = some 1 ∨ ImageMatchSubImage dst x y src = some 0) ∧
    (ImageMatchSubImage dst x y src = some 1 ↔
      ∀ i j : Int, 0 ≤ i → i < src.width → 0 ≤ j → j < src.height →
        dst.pix (x + i) (y + j) = src.pix i j) := by
  rcases ImageMatchSubImage_spec dst x y src hwf1 hwf2 hpos hfw hfh with
    ⟨h1, hall⟩ | ⟨h0, i, j, hi0, hi, hj0, hj, hne⟩
  · exact ⟨Or.inl h1, fun _ => hall, fun _ => h1⟩
  · refine ⟨Or.inr h0, fun h => ?_, fun h => absurd (h i j hi0 hi hj0 hj) hne⟩
    rw [h0] at h
    simp at h

theorem C11_ImageMatchSubImage_witness :
    Image.wf ⟨3, 2, 255, [1, 2, 3, 4, 5, 6]⟩ ∧ Image.wf ⟨2, 1, 255, [5, 6]⟩ ∧
    ImageValidPos ⟨3, 2, 255, [1, 2, 3, 4, 5, 6]⟩ 1 1 = true ∧
    (ImageMatchSubImage ⟨3, 2, 255, [1, 2, 3, 4, 5, 6]⟩ 1 1 ⟨2, 1, 255, [5, 6]⟩ = some 1 ∨
      ImageMatchSubImage ⟨3, 2, 255, [1, 2, 3, 4, 5, 6]⟩ 1 1 ⟨2, 1, 255, [5, 6]⟩ = some 0) ∧
    (ImageMatchSubImage ⟨3, 2, 255, [1, 2, 3, 4, 5, 6]⟩ 1 1 ⟨2, 1, 255, [5, 6]⟩ = some 1 ↔
      ∀ i j : Int, 0 ≤ i → i < 2 → 0 ≤ j → j < 1 →
        Image.pix ⟨3, 2, 255, [1, 2, 3, 4, 5, 6]⟩ (1 + i) (1 + j) =
          Image.pix ⟨2, 1, 255, [5, 6]⟩ i j) :=
  ⟨by decide, by decide, by decide,
    C11_ImageMatchSubImage ⟨3, 2, 255, [1, 2, 3, 4, 5, 6]⟩ 1 1 ⟨2, 1, 255, [5, 6]⟩
      (by decide) (by decide) (by decide) (by decide) (by decide)⟩

/-- C12 (code bug). `ImageMatchSubImage` does not check that `img2` fits.  In
the 2x2 image `[1,2;3,4]`, at the valid position `(1,0)`, the 2x1 image `[2,3]`
does not fit; the function compares it with `pixel[1]` and `pixel[2]`, the
latter in the next row, and returns 1.  At `(1,1)` the 1x2 image `[4,9]` makes
it read `pixel[5]`, outside the array of 4 pixels. -/
theorem C12_ImageMatchSubImage_without_fit :
    ImageValidPos ⟨2, 2, 255, [1, 2, 3, 4]⟩ 1 0 = true ∧
    ImageMatchSubImage ⟨2, 2, 255, [1, 2, 3, 4]⟩ 1 0 ⟨2, 1, 255, [2, 3]⟩ = some 1 ∧
    ImageValidPos ⟨2, 2, 255, [1, 2, 3, 4]⟩ 1 1 = true ∧
    ImageMatchSubImage ⟨2, 2, 255, [1, 2, 3, 4]⟩ 1 1 ⟨1, 2, 255, [4, 9]⟩ = none ∧
    rd [1, 2, 3, 4] ((1 + 1) * 2 + (1 + 0)) = none := by
  decide

/-- C13. Let `dst` and `src` be well-formed.  Whenever `ImageLocateSubImage`
returns a value with `(*px, *py) = (px, py)`, the value is 1, `src` fits in
`dst` at `(px,py)`, `ImageMatchSubImage(dst, px, py, src)` returns 1, and it
returns 0 at every anchor of the scanned range (`0 <= x <= dst.width -
src.width`, `0 <= y <= dst.height - src.height`) that precedes `(px,py)` in
row-major order.  And whenever `ImageMatchSubImage` returns 1 at some anchor of
the scanned range, `ImageLocateSubImage` returns 1. -/
theorem C13_ImageLocateSubImage (dst src : Image) (px0 py0 : Int)
    (hwf1 : dst.wf) (hwf2 : src.wf) :
    (∀ r px py, ImageLocateSubImage dst px0 py0 src = some (some r, px, py) →
      r = 1 ∧ 0 ≤ px ∧ 0 ≤ py ∧ px + src.width ≤ dst.width ∧ py + src.height ≤ dst.height ∧
      ImageMatchSubImage dst px py src = some 1 ∧
      ∀ x y : Int, 0 ≤ x → x ≤ dst.width - src.width → 0 ≤ y → y ≤ dst.height - src.height →
        (y < py ∨ (y = py ∧ x < px)) → ImageMatchSubImage dst x y src = some 0) ∧
    ((∃ x y : Int, 0 ≤ x ∧ x ≤ dst.width - src.width ∧ 0 ≤ y ∧
        y ≤ dst.height - src.height ∧ ImageMatchSubImage dst x y src = some 1) →
      ∃ px py, ImageLocateSubImage dst px0 py0 src = some (some 1, px, py)) := by
  by_cases hne : 1 ≤ dst.width ∧ 1 ≤ dst.height
  · obtain ⟨s, hs, hI⟩ := ImageLocateSubImage_spec dst src px0 py0 hwf1 hwf2 hne.1 hne.2
    constructor
    · intro r px py h
      rw [hs] at h
      simp only [Option.some.injEq] at h
      subst h
      rcases hI with ⟨h1, _⟩ | ⟨qx, qy, h1, hx0, hx, hy0, hy, hm, hearlier⟩
      · simp at h1
      · simp only [Prod.mk.injEq, Option.some.injEq] at h1
        obtain ⟨hr, hpx, hpy⟩ := h1
        subst hr; subst hpx; subst hpy
        exact ⟨rfl, hx0, hy0, by omega, by omega, hm, hearlier⟩
    · rintro ⟨x, y, hx0, hx, hy0, hy, hm⟩
      rcases hI with ⟨_, h2⟩ | ⟨qx, qy, h1, _⟩
      · have := h2 x y ⟨hx0, hx, hy0, hy⟩
        rw [hm] at this
        simp at this
      · exact ⟨qx, qy, by rw [hs, h1]⟩
  · have he : dst.width ≤ 0 ∨ dst.height ≤ 0 := by omega
    constructor
    · intro r px py h
      have := locate_of_empty dst src px0 py0 _ he h
      simp at this
    · rintro ⟨x, y, _, _, _, _, hm⟩
      rw [match_none_of_empty dst src x y he] at hm
      simp at hm

set_option maxRecDepth 100000 in
theorem C13_ImageLocateSubImage_witness :
    Image.wf ⟨10, 10, 255,
      [0, 0, 0, 0, 0, 0, 0, 0, 0, 0,
       0, 0, 0, 0, 0, 0, 0, 0, 0, 0,
       0, 0, 0, 0, 0, 0, 0, 0, 0, 0,
       0, 0, 0, 0, 0, 0, 0, 0, 0, 0,
       0, 0, 0, 0, 0, 0, 0, 0, 0, 0,
       0, 0, 0, 0, 1, 2, 3, 0, 0, 0,
       0, 0, 0, 0, 4, 5, 6, 0, 0, 0,
       0, 0, 0, 0, 7, 8, 9, 0, 0, 0,
       0, 0, 0, 0, 0, 0, 0, 0, 0, 0,
       0, 0, 0, 0, 0, 0, 0, 0, 0, 0]⟩ ∧
    Image.wf ⟨3, 3, 255, [1, 2, 3, 4, 5, 6, 7, 8, 9]⟩ ∧
    ImageLocateSubImage ⟨10, 10, 255,
      [0, 0, 0, 0, 0, 0, 0, 0, 0, 0,
       0, 0, 0, 0, 0, 0, 0, 0, 0, 0,
       0, 0, 0, 0, 0, 0, 0, 0, 0, 0,
       0, 0, 0, 0, 0, 0, 0, 0, 0, 0,
       0, 0, 0, 0, 0, 0, 0, 0, 0, 0,
       0, 0, 0, 0, 1, 2, 3, 0, 0, 0,
       0, 0, 0, 0, 4, 5, 6, 0, 0, 0,
       0, 0, 0, 0, 7, 8, 9, 0, 0, 0,
       0, 0, 0, 0, 0, 0, 0, 0, 0, 0,
       0, 0, 0, 0, 0, 0, 0, 0, 0, 0]⟩ 0 0 ⟨3, 3, 255, [1, 2, 3, 4, 5, 6, 7, 8, 9]⟩ =
      some (some 1, 4, 5) ∧
    ((1 : Int) = 1 ∧ (0 : Int) ≤ 4 ∧ (0 : Int) ≤ 5 ∧ (4 : Int) + 3 ≤ 10 ∧ (5 : Int) + 3 ≤ 10 ∧
      ImageMatchSubImage ⟨10, 10, 255,
        [0, 0, 0, 0, 0, 0, 0, 0, 0, 0,
         0, 0, 0, 0, 0, 0, 0, 0, 0, 0,
         0, 0, 0, 0, 0, 0, 0, 0, 0, 0,
         0, 0, 0, 0, 0, 0, 0, 0, 0, 0,
         0, 0, 0, 0, 0, 0, 0, 0, 0, 0,
         0, 0, 0, 0, 1, 2, 3, 0, 0, 0,
         0, 0, 0, 0, 4, 5, 6, 0, 0, 0,
         0, 0, 0, 0, 7, 8, 9, 0, 0, 0,
         0, 0, 0, 0, 0, 0, 0, 0, 0, 0,
         0, 0, 0, 0, 0, 0, 0, 0, 0, 0]⟩ 4 5 ⟨3, 3, 255, [1, 2, 3, 4, 5, 6, 7, 8, 9]⟩ =
        some 1 ∧
      ∀ x y : Int, 0 ≤ x → x ≤ 10 - 3 → 0 ≤ y → y ≤ 10 - 3 →
        (y < 5 ∨ (y = 5 ∧ x < 4)) →
        ImageMatchSubImage ⟨10, 10, 255,
          [0, 0, 0, 0, 0, 0, 0, 0, 0, 0,
           0, 0, 0, 0, 0, 0, 0, 0, 0, 0,
           0, 0, 0, 0, 0, 0, 0, 0, 0, 0,
           0, 0, 0, 0, 0, 0, 0, 0, 0, 0,
           0, 0, 0, 0, 0, 0, 0, 0, 0, 0,
           0, 0, 0, 0, 1, 2, 3, 0, 0, 0,
           0, 0, 0, 0, 4, 5, 6, 0, 0, 0,
           0, 0, 0, 0, 7, 8, 9, 0, 0, 0,
           0, 0, 0, 0, 0, 0, 0, 0, 0, 0,
           0, 0, 0, 0, 0, 0, 0, 0, 0, 0]⟩ x y ⟨3, 3, 255, [1, 2, 3, 4, 5, 6, 7, 8, 9]⟩ =
          some 0) :=
  ⟨by decide, by decide, by decide,
    (C13_ImageLocateSubImage
      ⟨10, 10, 255,
        [0, 0, 0, 0, 0, 0, 0, 0, 0, 0,
         0, 0, 0, 0, 0, 0, 0, 0, 0, 0,
         0, 0, 0, 0, 0, 0, 0, 0, 0, 0,
         0, 0, 0, 0, 0, 0, 0, 0, 0, 0,
         0, 0, 0, 0, 0, 0, 0, 0, 0, 0,
         0, 0, 0, 0, 1, 2, 3, 0, 0, 0,
         0, 0, 0, 0, 4, 5, 6, 0, 0, 0,
         0, 0, 0, 0, 7, 8, 9, 0, 0, 0,
         0, 0, 0, 0, 0, 0, 0, 0, 0, 0,
         0, 0, 0, 0, 0, 0, 0, 0, 0, 0]⟩
      ⟨3, 3, 255, [1, 2, 3, 4, 5, 6, 7, 8, 9]⟩ 0 0 (by decide) (by decide)).1 1 4 5
      (by decide)⟩

set_option maxRecDepth 100000 in
/-- C14 (code bug). `ImageLocateSubImage` has no `return` statement after its
loops.  With a 10x10 image and an 11x1 image (larger than the first), and with
a 2x2 image in which the 2x1 image `[3,5]` does not occur, control reaches the
end of the function: no value is returned, where 0 is documented.  `*px` and
`*py` keep their initial values 7 and 8. -/
theorem C14_ImageLocateSubImage_returns_no_value :
    ImageLocateSubImage ⟨10, 10, 255, List.replicate 100 0⟩ 7 8
      ⟨11, 1, 255, List.replicate 11 0⟩ = some (none, 7, 8) ∧
    ImageLocateSubImage ⟨2, 2, 255, [1, 2, 3, 4]⟩ 7 8 ⟨2, 1, 255, [3, 5]⟩ =
      some (none, 7, 8) := by
  decide

/-- C15 (counterexample). Blurring the 3x1 image `[0, 1, 1]` with `dx = 1`,
`dy = 0` gives `[0, 0, 1]`: the window of the middle pixel holds the three
values of sum 2, whose mean 2/3 rounds to 1, but the pixel becomes 0. -/
theorem C15_ImageBlur_not_rounded :
    ImageBlur ⟨3, 1, 255, [0, 1, 1]⟩ 1 0 (fun _ => 0) = some ⟨3, 1, 255, [0, 0, 1]⟩ ∧
    windowSum ⟨3, 1, 255, [0, 1, 1]⟩ 1 0 1 0 = 2 ∧
    windowCount ⟨3, 1, 255, [0, 1, 1]⟩ 1 0 1 0 = 3 ∧
    round ((2 : ℚ) / 3) = 1 := by
  refine ⟨by decide, by decide, by decide, ?_⟩
  rw [round_eq, Int.floor_eq_iff]
  norm_num

/-- C15 (amended). On a well-formed image and for `dx >= 0`, `dy >= 0`,
`ImageBlur` returns an image of the same width, height and maxval in which the
pixel at each `(x,y)` is the floor of the mean (the integer quotient of the sum
by the count) of the values that the pixels `(x+j, y+i)`, `-dx <= j <= dx`,
`-dy <= i <= dy`, lying inside the image had before the call; the count is
never zero. -/
theorem C15_ImageBlur_floor (img : Image) (dx dy : Int) (garbage : Nat → Nat)
    (hwf : img.wf) (hdx : 0 ≤ dx) (hdy : 0 ≤ dy) :
    ∃ r, ImageBlur img dx dy garbage = some r ∧
      r.width = img.width ∧ r.height = img.height ∧ r.maxval = img.maxval ∧
      ∀ x y : Int, 0 ≤ x → x < img.width → 0 ≤ y → y < img.height →
        0 < windowCount img x y dx dy ∧
        ∃ q : Nat, r.pix x y = some q ∧
          q = windowSum img x y dx dy / windowCount img x y dx dy ∧
          (q : Int) = ⌊(windowSum img x y dx dy : ℚ) / (windowCount img x y dx dy : ℚ)⌋ := by
  obtain ⟨r, hr, h1, h2, h3, _, _, h6⟩ := ImageBlur_spec img dx dy garbage hwf hdx hdy
  refine ⟨r, hr, h1, h2, h3, ?_⟩
  intro x y hx0 hx hy0 hy
  obtain ⟨hcnt, hq⟩ := h6 x y hx0 hx hy0 hy
  refine ⟨hcnt, _, hq, rfl, ?_⟩
  have := Rat.floor_intCast_div_natCast (windowSum img x y dx dy : Int)
    (windowCount img x y dx dy)
  rw [Int.cast_natCast] at this
  rw [this, Int.natCast_div]

theorem C15_ImageBlur_floor_witness :
    Image.wf ⟨3, 2, 255, [10, 20, 30, 40, 50, 60]⟩ ∧ (0 : Int) ≤ 1 ∧
    ∃ r, ImageBlur ⟨3, 2, 255, [10, 20, 30, 40, 50, 60]⟩ 1 1 (fun _ => 7) = some r ∧
      r.width = 3 ∧ r.height = 2 ∧ r.maxval = 255 ∧
      ∀ x y : Int, 0 ≤ x → x < 3 → 0 ≤ y → y < 2 →
        0 < windowCount ⟨3, 2, 255, [10, 20, 30, 40, 50, 60]⟩ x y 1 1 ∧
        ∃ q : Nat, r.pix x y = some q ∧
          q = windowSum ⟨3, 2, 255, [10, 20, 30, 40, 50, 60]⟩ x y 1 1 /
            windowCount ⟨3, 2, 255, [10, 20, 30, 40, 50, 60]⟩ x y 1 1 ∧
          (q : Int) = ⌊(windowSum ⟨3, 2, 255, [10, 20, 30, 40, 50, 60]⟩ x y 1 1 : ℚ) /
            (windowCount ⟨3, 2, 255, [10, 20, 30, 40, 50, 60]⟩ x y 1 1 : ℚ)⌋ :=
  ⟨by decide, by decide,
    C15_ImageBlur_floor ⟨3, 2, 255, [10, 20, 30, 40, 50, 60]⟩ 1 1 (fun _ => 7)
      (by decide) (by decide) (by decide)⟩

set_option exponentiation.threshold 5000 in
set_option maxRecDepth 4000 in
/-- C16 (counterexample). Blending the source pixel 1 over the destination
pixel 0 with alpha 0.75 (both images of maxval 255) leaves 0, whereas
`round(0.25 * 0 + 0.75 * 1)` clamped to `[0, 255]` is 1: the blend is
truncated, not rounded to the nearest integer. -/
theorem C16_ImageBlend_not_rounded :
    ImageBlend ⟨1, 1, 255, [0]⟩ 0 0 ⟨1, 1, 255, [1]⟩ (Double.lit 3 2) =
      some (⟨1, 1, 255, [1]⟩, ⟨1, 1, 255, [0]⟩) ∧
    max 0 (min (round ((1 - Double.val (Double.lit 3 2)) * ((0 : Nat) : ℚ) +
      Double.val (Double.lit 3 2) * ((1 : Nat) : ℚ))) 255) = 1 := by
  refine ⟨by decide, ?_⟩
  have h : round ((1 - Double.val (Double.lit 3 2)) * ((0 : Nat) : ℚ) +
      Double.val (Double.lit 3 2) * ((1 : Nat) : ℚ)) = 1 := by
    rw [Double.val_lit 3 2 (by norm_num), round_eq, Int.floor_eq_iff]
    norm_num
  rw [h]
  decide

/-- C16 (amended). Let `dst` and `src` be well-formed images of the same
maxval, `(x,y)` a valid paste position and `alpha` a `double` with
`0.0 <= alpha <= 1.0`.  Then `ImageBlend` returns, and each covered destination
pixel equals `floor(b)` clamped to `[0, dst.maxval]`, where `b` is the finite
`double` that `(1.0 - alpha) * d + alpha * s` evaluates to in `double`
arithmetic (`blend alpha d s`, every operation rounded to nearest), and `d` and
`s` are the previous destination pixel and the source pixel. -/
theorem C16_ImageBlend_floor (dst : Image) (x y : Int) (src : Image) (alpha : Double)
    (hwf1 : dst.wf) (hwf2 : src.wf)
    (hrect : ImageValidRect dst x y src.width src.height = true)
    (hmax : src.maxval = dst.maxval)
    (h0 : Double.le Double.zero alpha = true) (h1 : Double.le alpha Double.one = true) :
    ∃ r, ImageBlend dst x y src alpha = some (src, r) ∧
      ∀ j i : Int, 0 ≤ j → j < src.width → 0 ≤ i → i < src.height →
        ∃ d s q, dst.pix (x + j) (y + i) = some d ∧ src.pix j i = some s ∧
          r.pix (x + j) (y + i) = some q ∧
          (blend alpha d s).isFinite = true ∧
          (q : Int) = max 0 (min ⌊(blend alpha d s).val⌋ dst.maxval) := by
  obtain ⟨r, hr, _, _, _, _, _, hcov, _⟩ :=
    ImageBlend_spec dst x y src alpha hwf1 hwf2 hrect h0 h1
  refine ⟨r, hr, ?_⟩
  intro j i hj0 hj hi0 hi
  obtain ⟨d, c, hd, hc, hq⟩ := hcov j i hj0 hj hi0 hi
  have hd256 : d < 256 := hwf1.2.2.2.2.2 d (rd_lt_of_some _ _ _ hd).2.2
  have hc256 : c < 256 := hwf2.2.2.2.2.2 c (rd_lt_of_some _ _ _ hc).2.2
  have hm0 : 0 < dst.maxval := hwf1.2.2.1
  have hm1 : dst.maxval ≤ 255 := hwf1.2.2.2.1
  obtain ⟨hfin, hval⟩ := blendValue_eq alpha dst.maxval d c h0 h1 hd256 hc256 hm0 hm1
  rw [hmax] at hq
  exact ⟨d, c, _, hd, hc, hq, hfin, hval⟩

set_option exponentiation.threshold 5000 in
set_option maxRecDepth 4000 in
theorem C16_ImageBlend_floor_witness :
    Image.wf ⟨3, 2, 255, [0, 10, 20, 30, 40, 50]⟩ ∧ Image.wf ⟨2, 2, 255, [2, 3, 5, 6]⟩ ∧
    ImageValidRect ⟨3, 2, 255, [0, 10, 20, 30, 40, 50]⟩ 1 0 2 2 = true ∧
    Double.le Double.zero (Double.lit 5404319552844595 54) = true ∧
    Double.le (Double.lit 5404319552844595 54) Double.one = true ∧
    ∃ r, ImageBlend ⟨3, 2, 255, [0, 10, 20, 30, 40, 50]⟩ 1 0 ⟨2, 2, 255, [2, 3, 5, 6]⟩
        (Double.lit 5404319552844595 54) = some (⟨2, 2, 255, [2, 3, 5, 6]⟩, r) ∧
      ∀ j i : Int, 0 ≤ j → j < 2 → 0 ≤ i → i < 2 →
        ∃ d s q, Image.pix ⟨3, 2, 255, [0, 10, 20, 30, 40, 50]⟩ (1 + j) (0 + i) = some d ∧
          Image.pix ⟨2, 2, 255, [2, 3, 5, 6]⟩ j i = some s ∧
          r.pix (1 + j) (0 + i) = some q ∧
          (blend (Double.lit 5404319552844595 54) d s).isFinite = true ∧
          (q : Int) = max 0 (min ⌊(blend (Double.lit 5404319552844595 54) d s).val⌋ 255) :=
  ⟨by decide, by decide, by decide, by decide, by decide,
    C16_ImageBlend_floor ⟨3, 2, 255, [0, 10, 20, 30, 40, 50]⟩ 1 0 ⟨2, 2, 255, [2, 3, 5, 6]⟩
      (Double.lit 5404319552844595 54) (by decide) (by decide) (by decide) rfl
      (by decide) (by decide)⟩

set_option exponentiation.threshold 5000 in
set_option maxRecDepth 4000 in
/-- C17 (code bug). With alpha 0 the blend of a destination pixel is the pixel
itself, but `ImageBlend` then replaces it by the maxval of the source image
when it reaches that maxval: the destination pixel 200 of an image of maxval
255, blended with alpha 0 with an image of maxval 100, becomes 100. -/
theorem C17_ImageBlend_alpha_zero_changes_dst :
    ImageValidRect ⟨1, 1, 255, [200]⟩ 0 0 1 1 = true ∧
    ImageBlend ⟨1, 1, 255, [200]⟩ 0 0 ⟨1, 1, 100, [50]⟩ Double.zero =
      some (⟨1, 1, 100, [50]⟩, ⟨1, 1, 255, [100]⟩) := by
  decide

set_option exponentiation.threshold 5000 in
set_option maxRecDepth 4000 in
/-- C18 (counterexample). With factor 0.75 the pixel 1 of an image of maxval
255 becomes 0, whereas `clamp(round(1 * 0.75), 0, 255)` is 1: the product is
truncated, not rounded to the nearest integer. -/
theorem C18_ImageBrighten_not_rounded :
    ImageBrighten ⟨1, 1, 255, [1]⟩ (Double.lit 3 2) = some ⟨1, 1, 255, [0]⟩ ∧
    max 0 (min (round ((1 : ℚ) * Double.val (Double.lit 3 2))) 255) = 1 := by
  refine ⟨by decide, ?_⟩
  have h : round ((1 : ℚ) * Double.val (Double.lit 3 2)) = 1 := by
    rw [Double.val_lit 3 2 (by norm_num), round_eq, Int.floor_eq_iff]
    norm_num
  rw [h]
  decide

/-- C18 (amended). On a well-formed image and for every `double` factor with
`factor >= 0.0`, `ImageBrighten` returns, and each pixel equals
`clamp(floor(P), 0, maxval)`, where `P` is the `double` product of its
previous value `p` and the factor (the product rounded to nearest, as the
multiplication of C delivers it): the product is truncated, and results above
maxval saturate at maxval; when the product is infinite or a NaN the pixel
becomes maxval. -/
theorem C18_ImageBrighten_floor (img : Image) (factor : Double) (hwf : img.wf)
    (hf : Double.le Double.zero factor = true) :
    ∃ r, ImageBrighten img factor = some r ∧
      r.width = img.width ∧ r.height = img.height ∧ r.maxval = img.maxval ∧
      ∀ i : Int, 0 ≤ i → i < img.width * img.height →
        ∃ p q, rd img.pixel i = some p ∧ rd r.pixel i = some q ∧
          (q : Int) =
            if (Double.mul (Double.ofInt p) factor).isFinite then
              max 0 (min ⌊(Double.mul (Double.ofInt p) factor).val⌋ img.maxval)
            else img.maxval := by
  obtain ⟨r, hr, h1, h2, h3, h4⟩ := ImageBrighten_spec img factor hwf hf
  obtain ⟨_, _, hm0, hm1, hlen, _⟩ := hwf
  refine ⟨r, hr, h1, h2, h3, ?_⟩
  intro i hi0 hi
  obtain ⟨p, hp, _⟩ := rd_of_lt img.pixel i hi0 (by omega)
  exact ⟨p, _, hp, by rw [h4, rd_map, hp]; rfl, brightenValue_eq img.maxval factor p hm0 hm1 hf⟩

set_option exponentiation.threshold 5000 in
set_option maxRecDepth 4000 in
theorem C18_ImageBrighten_floor_witness :
    Image.wf ⟨3, 1, 100, [1, 5, 90]⟩ ∧
    Double.le Double.zero (Double.lit 5404319552844595 52) = true ∧
    ∃ r, ImageBrighten ⟨3, 1, 100, [1, 5, 90]⟩ (Double.lit 5404319552844595 52) = some r ∧
      r.width = 3 ∧ r.height = 1 ∧ r.maxval = 100 ∧
      ∀ i : Int, 0 ≤ i → i < 3 * 1 →
        ∃ p q, rd [1, 5, 90] i = some p ∧ rd r.pixel i = some q ∧
          (q : Int) =
            if (Double.mul (Double.ofInt p) (Double.lit 5404319552844595 52)).isFinite then
              max 0 (min ⌊(Double.mul (Double.ofInt p)
                (Double.lit 5404319552844595 52)).val⌋ 100)
            else 100 :=
  ⟨by decide, by decide,
    C18_ImageBrighten_floor ⟨3, 1, 100, [1, 5, 90]⟩ (Double.lit 5404319552844595 52)
      (by decide) (by decide)⟩

/-- C19. On a well-formed image `B`, two successive calls of `ImageNegative`
return, and the image after the second call is `B`: the same width, height,
maxval and pixels. -/
theorem C19_ImageNegative_twice (B : Image) (hwf : B.wf) :
    ∃ r1 r2, ImageNegative B = some r1 ∧ ImageNegative r1 = some r2 ∧
      r2.width = B.width ∧ r2.height = B.height ∧ r2.maxval = B.maxval ∧
      r2.pixel = B.pixel ∧ r2 = B := by
  obtain ⟨r1, e1, w1, h1, m1, p1⟩ := ImageNegative_spec B hwf
  obtain ⟨hw, hh, hm0, hm1, hlen, hb⟩ := hwf
  have wf1 : r1.wf := by
    refine ⟨by omega, by omega, by omega, by omega, ?_, ?_⟩
    · rw [p1, List.length_map, w1, h1]; exact hlen
    · intro p hp
      rw [p1] at hp
      obtain ⟨q, _, rfl⟩ := List.mem_map.mp hp
      unfold toUint8
      omega
  obtain ⟨r2, e2, w2, h2, m2, p2⟩ := ImageNegative_spec r1 wf1
  have hpix : r2.pixel = B.pixel := by
    rw [p2, p1, List.map_map]
    conv_rhs => rw [← List.map_id B.pixel]
    apply List.map_congr_left
    intro p hp
    have := hb p hp
    simp only [Function.comp_apply, id_eq, toUint8]
    omega
  refine ⟨r1, r2, e1, e2, by omega, by omega, by omega, hpix, ?_⟩
  cases r2
  cases B
  simp only [Image.mk.injEq] at *
  exact ⟨by omega, by omega, by omega, hpix⟩

theorem C19_ImageNegative_twice_witness :
    Image.wf ⟨2, 1, 100, [30, 100]⟩ ∧
    ∃ r1 r2, ImageNegative ⟨2, 1, 100, [30, 100]⟩ = some r1 ∧ ImageNegative r1 = some r2 ∧
      r2.width = 2 ∧ r2.height = 1 ∧ r2.maxval = 100 ∧
      r2.pixel = [30, 100] ∧ r2 = ⟨2, 1, 100, [30, 100]⟩ :=
  ⟨by decide, C19_ImageNegative_twice ⟨2, 1, 100, [30, 100]⟩ (by decide)⟩

/-- C20. On a well-formed image `B`, `ImageMirror` returns an image in which
the source pixel `(x,y)` is at `(width-1-x, y)`, and mirroring that image again
returns an image with the width, the height and, at every position, the pixel
of `B`. -/
theorem C20_ImageMirror_twice (B : Image) (g1 g2 : Nat → Nat) (hwf : B.wf) :
    ∃ r1 r2, ImageMirror B g1 = some (B, r1) ∧ ImageMirror r1 g2 = some (r1, r2) ∧
      (∀ x y : Int, 0 ≤ x → x < B.width → 0 ≤ y → y < B.height →
        ∃ v, B.pix x y = some v ∧ r1.pix (B.width - 1 - x) y = some v) ∧
      r2.width = B.width ∧ r2.height = B.height ∧ r2.pixel = B.pixel ∧
      ∀ x y : Int, 0 ≤ x → x < B.width → 0 ≤ y → y < B.height →
        ∃ v, B.pix x y = some v ∧ r2.pix x y = some v := by
  obtain ⟨r1, e1, w1, h1, m1, l1, b1, p1⟩ := ImageMirror_spec B g1 hwf
  obtain ⟨hw, hh, _, _, hlen, _⟩ := hwf
  have wf1 : r1.wf := ⟨by omega, by omega, by omega, by simp [m1, PixMax], l1, b1⟩
  obtain ⟨r2, e2, w2, h2, m2, l2, b2, p2⟩ := ImageMirror_spec r1 g2 wf1
  have hpix : ∀ x y : Int, 0 ≤ x → x < B.width → 0 ≤ y → y < B.height →
      ∃ v, B.pix x y = some v ∧ r2.pix x y = some v := by
    intro x y hx0 hx hy0 hy
    obtain ⟨v, hv, q1⟩ := p1 x y hx0 hx hy0 hy
    obtain ⟨u, hu, q2⟩ := p2 (B.width - 1 - x) y (by omega) (by omega) hy0 (by omega)
    have ex : r1.width - 1 - (B.width - 1 - x) = x := by omega
    rw [ex] at q2
    refine ⟨v, hv, ?_⟩
    rw [q2, ← hu, q1]
  have hw2 : r2.width = B.width := by omega
  have hh2 : r2.height = B.height := by omega
  refine ⟨r1, r2, e1, e2, p1, hw2, hh2, ?_, hpix⟩
  symm
  apply pixel_eq_of_pix_eq B r2 hw2.symm hw hlen (by rw [l2, hw2, hh2])
  intro x y hx0 hx hy0 hy
  obtain ⟨v, hv, hv'⟩ := hpix x y hx0 hx hy0 hy
  rw [hv, hv']

theorem C20_ImageMirror_twice_witness :
    Image.wf ⟨3, 2, 100, [1, 2, 3, 4, 5, 6]⟩ ∧
    ∃ r1 r2, ImageMirror ⟨3, 2, 100, [1, 2, 3, 4, 5, 6]⟩ (fun _ => 7) =
        some (⟨3, 2, 100, [1, 2, 3, 4, 5, 6]⟩, r1) ∧
      ImageMirror r1 (fun _ => 8) = some (r1, r2) ∧
      (∀ x y : Int, 0 ≤ x → x < 3 → 0 ≤ y → y < 2 →
        ∃ v, Image.pix ⟨3, 2, 100, [1, 2, 3, 4, 5, 6]⟩ x y = some v ∧
          r1.pix (3 - 1 - x) y = some v) ∧
      r2.width = 3 ∧ r2.height = 2 ∧ r2.pixel = [1, 2, 3, 4, 5, 6] ∧
      ∀ x y : Int, 0 ≤ x → x < 3 → 0 ≤ y → y < 2 →
        ∃ v, Image.pix ⟨3, 2, 100, [1, 2, 3, 4, 5, 6]⟩ x y = some v ∧
          r2.pix x y = some v :=
  ⟨by decide, C20_ImageMirror_twice ⟨3, 2, 100, [1, 2, 3, 4, 5, 6]⟩ (fun _ => 7) (fun _ => 8)
    (by decide)⟩

/-- C21. On a well-formed image `B`, `ImageBlur(B, 0, 0)` returns, and the
image after the call is `B`: the same width, height, maxval and pixels. -/
theorem C21_ImageBlur_zero_is_identity (B : Image) (garbage : Nat → Nat) (hwf : B.wf) :
    ∃ r, ImageBlur B 0 0 garbage = some r ∧
      r.width = B.width ∧ r.height = B.height ∧ r.maxval = B.maxval ∧
      r.pixel = B.pixel ∧ r = B := by
  obtain ⟨r, hr, h1, h2, h3, h4, _, h6⟩ :=
    ImageBlur_spec B 0 0 garbage hwf (le_refl 0) (le_refl 0)
  have hpix : r.pixel = B.pixel := by
    symm
    apply pixel_eq_of_pix_eq B r h1.symm hwf.1 hwf.2.2.2.2.1 (by rw [h4, h1, h2])
    intro x y hx0 hx hy0 hy
    obtain ⟨v, hv, _⟩ := pix_some B hwf x y hx0 hx hy0 hy
    obtain ⟨hs, hc⟩ := window_zero B x y hx0 hx hy0 hy
    rw [(h6 x y hx0 hx hy0 hy).2, hs, hc, hv, Option.getD_some, Nat.div_one]
  refine ⟨r, hr, h1, h2, h3, hpix, ?_⟩
  cases r
  cases B
  simp only [Image.mk.injEq] at *
  exact ⟨h1, h2, h3, hpix⟩

theorem C21_ImageBlur_zero_is_identity_witness :
    Image.wf ⟨3, 2, 100, [10, 20, 30, 40, 50, 60]⟩ ∧
    ∃ r, ImageBlur ⟨3, 2, 100, [10, 20, 30, 40, 50, 60]⟩ 0 0 (fun _ => 7) = some r ∧
      r.width = 3 ∧ r.height = 2 ∧ r.maxval = 100 ∧
      r.pixel = [10, 20, 30, 40, 50, 60] ∧ r = ⟨3, 2, 100, [10, 20, 30, 40, 50, 60]⟩ :=
  ⟨by decide, C21_ImageBlur_zero_is_identity ⟨3, 2, 100, [10, 20, 30, 40, 50, 60]⟩
    (fun _ => 7) (by decide)⟩

/-- C22. On a well-formed image `ImageStats` returns a pair `(min, max)`.
When the image has at least one pixel, `min <= p <= max` for every pixel `p`,
and both `min` and `max` are the value of some pixel; when it has none, the
pair is `(255, 0)`. -/
theorem C22_ImageStats (img : Image) (hwf : img.wf) :
    ∃ mn mx, ImageStats img = some (mn, mx) ∧
      (0 < img.width * img.height →
        (∀ i : Int, 0 ≤ i → i < img.width * img.height →
          ∃ p, rd img.pixel i = some p ∧ mn ≤ p ∧ p ≤ mx) ∧
        (∃ i : Int, 0 ≤ i ∧ i < img.width * img.height ∧ rd img.pixel i = some mn) ∧
        (∃ i : Int, 0 ≤ i ∧ i < img.width * img.height ∧ rd img.pixel i = some mx)) ∧
      (img.width * img.height = 0 → mn = 255 ∧ mx = 0) := by
  obtain ⟨mn, mx, hs, h1, h2, h3⟩ := ImageStats_spec img hwf
  exact ⟨mn, mx, hs, fun hpos => ⟨h1, (h2 hpos).1, (h2 hpos).2⟩, h3⟩

theorem C22_ImageStats_witness :
    Image.wf ⟨3, 2, 255, [10, 20, 30, 40, 5, 60]⟩ ∧
    ∃ mn mx, ImageStats ⟨3, 2, 255, [10, 20, 30, 40, 5, 60]⟩ = some (mn, mx) ∧
      ((0 : Int) < 3 * 2 →
        (∀ i : Int, 0 ≤ i → i < 3 * 2 →
          ∃ p, rd [10, 20, 30, 40, 5, 60] i = some p ∧ mn ≤ p ∧ p ≤ mx) ∧
        (∃ i : Int, 0 ≤ i ∧ i < 3 * 2 ∧ rd [10, 20, 30, 40, 5, 60] i = some mn) ∧
        (∃ i : Int, 0 ≤ i ∧ i < 3 * 2 ∧ rd [10, 20, 30, 40, 5, 60] i = some mx)) ∧
      ((3 : Int) * 2 = 0 → mn = 255 ∧ mx = 0) :=
  ⟨by decide, C22_ImageStats ⟨3, 2, 255, [10, 20, 30, 40, 5, 60]⟩ (by decide)⟩

/-- C23. When both images are well-formed and `ImageValidRect(dst, x, y,
src.width, src.height)` holds, `ImagePaste` returns; the source image is the
same after the call; the destination keeps its width, height, maxval and
number of pixels; and every destination pixel at a position outside
`[x, x+src.width) x [y, y+src.height)` keeps its previous value. -/
theorem C23_ImagePaste_frame (dst : Image) (x y : Int) (src : Image)
    (hwf1 : dst.wf) (hwf2 : src.wf)
    (hrect : ImageValidRect dst x y src.width src.height = true) :
    ∃ d, ImagePaste dst x y src = some (src, d) ∧
      d.width = dst.width ∧ d.height = dst.height ∧ d.maxval = dst.maxval ∧
      d.pixel.length = dst.pixel.length ∧
      ∀ px py : Int, 0 ≤ px → px < dst.width → 0 ≤ py → py < dst.height →
        ¬ (x ≤ px ∧ px < x + src.width ∧ y ≤ py ∧ py < y + src.height) →
        ∃ v, dst.pix px py = some v ∧ d.pix px py = some v := by
  obtain ⟨d, hd, h1, h2, h3, h4, _, _, h7⟩ := ImagePaste_spec dst x y src hwf1 hwf2 hrect
  refine ⟨d, hd, h1, h2, h3, ?_, ?_⟩
  · have := hwf1.2.2.2.2.1
    rw [h1, h2] at h4
    omega
  · intro px py hpx0 hpx hpy0 hpy hout
    obtain ⟨v, hv, _⟩ := pix_some dst hwf1 px py hpx0 hpx hpy0 hpy
    exact ⟨v, hv, by rw [h7 px py hpx0 hpx hpy0 hpy hout, hv]⟩

theorem C23_ImagePaste_frame_witness :
    Image.wf ⟨3, 2, 255, [9, 8, 7, 6, 5, 4]⟩ ∧ Image.wf ⟨2, 1, 100, [2, 3]⟩ ∧
    ImageValidRect ⟨3, 2, 255, [9, 8, 7, 6, 5, 4]⟩ 1 1 2 1 = true ∧
    ∃ d, ImagePaste ⟨3, 2, 255, [9, 8, 7, 6, 5, 4]⟩ 1 1 ⟨2, 1, 100, [2, 3]⟩ =
        some (⟨2, 1, 100, [2, 3]⟩, d) ∧
      d.width = 3 ∧ d.height = 2 ∧ d.maxval = 255 ∧
      d.pixel.length = [9, 8, 7, 6, 5, 4].length ∧
      ∀ px py : Int, 0 ≤ px → px < 3 → 0 ≤ py → py < 2 →
        ¬ (1 ≤ px ∧ px < 1 + 2 ∧ 1 ≤ py ∧ py < 1 + 1) →
        ∃ v, Image.pix ⟨3, 2, 255, [9, 8, 7, 6, 5, 4]⟩ px py = some v ∧
          d.pix px py = some v :=
  ⟨by decide, by decide, by decide,
    C23_ImagePaste_frame ⟨3, 2, 255, [9, 8, 7, 6, 5, 4]⟩ 1 1 ⟨2, 1, 100, [2, 3]⟩
      (by decide) (by decide) (by decide)⟩

end Image8bit
